import Mathlib

/-!
# Verification of the Q-Less solver core

Shallow embedding of the Q-Less crossword-solitaire solver
(`src/app/lib/solver.ts`, `src/app/lib/solver-v4.ts`, `src/app/lib/gameState.ts`)
and proofs about it.

Modelling conventions, fixed once for the whole file:

* Words and grid cells are `List Char`-based; the 8×8 grid is a list of
  rows, each a list of `Option Char` (`null` ↦ `none`).
* The dictionary module (`words.ts`) is not part of the sources; following
  the specification it is kept abstract: `isWord : List Char → Bool` is the
  word oracle and `getWords : LetterMap → List Word` the
  "words formable from a multiset" query, both taken as parameters.
* JavaScript `Map<string, number>` objects are association lists with
  insertion order preserved (`LetterMap`), as in the V8 semantics.
* `Date.now()` is an oracle `clk : Nat → Nat` consumed through an explicit
  reading counter that is threaded through every function which reads the
  clock, and `Math.random()` is an oracle `rnd : Nat → ℚ` (each value
  intended in `[0,1)`), likewise consumed through a counter.
* The backtracking search of `solver.ts` can loop until the deadline fires
  (a word already fully on the grid can be re-placed onto itself); the
  embedding adds a fuel parameter, so every actual (terminating) run of the
  source is a run of the model for a suitable fuel and clock oracle.
* `Array.prototype.sort` (stable since ES2019) is modelled by a stable
  insertion sort; with the consistent comparators used here the output
  of any stable sort is uniquely determined, so this is faithful.
* Tile ids (`letter-${i}` strings in the source) are opaque tokens, modelled
  as `Nat`.
-/

namespace QLess

/-- The grid is 8×8 throughout (`GRID_SIZE` in the source). -/
def GRID_SIZE : Nat := 8

/-- A dictionary word (the source uses lowercase strings). -/
abbrev Word := List Char

/-- A grid cell coordinate pair (row, col). -/
abbrev Cell := Nat × Nat

/-- An 8×8 grid of optional characters, row-major. -/
abbrev Grid := List (List (Option Char))

/-- `grid[r][c]`, with anything outside the stored lists read as empty —
the boundary acts as an empty sentinel exactly as in the source's scans. -/
def cellAt (g : Grid) (r c : Nat) : Option Char :=
  (g.getD r []).getD c none

/-- `createEmptyGrid` from `solver.ts`. -/
def createEmptyGrid : Grid :=
  List.replicate GRID_SIZE (List.replicate GRID_SIZE none)

/-- Write one character into one cell (`grid[r][c] = ch`). -/
def setCell (g : Grid) (r c : Nat) (ch : Char) : Grid :=
  g.set r ((g.getD r []).set c (some ch))

/-- `grid.some(row => row.some(cell => cell !== null))` from `solver.ts`. -/
def gridHasLetters (g : Grid) : Bool :=
  g.any (fun row => row.any (fun cell => cell.isSome))

/-! ## Letter multisets (JavaScript `Map<string, number>`) -/

/-- A JavaScript `Map` from letters to counts: an association list in
insertion order. -/
abbrev LetterMap := List (Char × Nat)

/-- `map.get(c) || 0`. -/
def lmGet (m : LetterMap) (c : Char) : Nat :=
  match m.find? (fun p => p.1 == c) with
  | some p => p.2
  | none => 0

/-- `map.has(c)`. -/
def lmHas (m : LetterMap) (c : Char) : Bool :=
  m.any (fun p => p.1 == c)

/-- `map.set(c, n)`: overwrite in place if the key exists, else append. -/
def lmSet (m : LetterMap) (c : Char) (n : Nat) : LetterMap :=
  match m with
  | [] => [(c, n)]
  | p :: rest => if p.1 == c then (c, n) :: rest else p :: lmSet rest c n

/-- `map.delete(c)`. -/
def lmDelete (m : LetterMap) (c : Char) : LetterMap :=
  m.filter (fun p => !(p.1 == c))

/-- `map.set(c, (map.get(c) || 0) + 1)` — the counting idiom of the source. -/
def lmInc (m : LetterMap) (c : Char) : LetterMap :=
  lmSet m c (lmGet m c + 1)

/-- Build a letter-count map from a character list, as done at the top of
`solvePuzzle` and for the `needed` maps. -/
def buildCounts (chars : List Char) : LetterMap :=
  chars.foldl lmInc []

/-- Total number of letters recorded in the map. -/
def lmTotal (m : LetterMap) : Nat :=
  (m.map (·.2)).sum

/-- Decrement one letter: `if (count <= 1) delete else set (count - 1)`.
This is the loop body of `subtractLetters` and the phase-2 reduction in
`solvePuzzle`. -/
def lmDec (m : LetterMap) (c : Char) : LetterMap :=
  if lmGet m c ≤ 1 then lmDelete m c else lmSet m c (lmGet m c - 1)

/-- `subtractLetters` from `solver.ts`. -/
def subtractLetters (m : LetterMap) (letters : List Char) : LetterMap :=
  letters.foldl lmDec m

/-! ## The grid validator (`validateAllGridWords`, solver.ts 28–63) -/

section Validator

variable (isWord : Word → Bool)

/-- One legality check applied to a finished run, exactly as at the two
break points of `validateAllGridWords`: a run of length 2 is illegal, a
run of length ≥ 3 must be a dictionary word. -/
def runOK (w : Word) : Bool :=
  if w.length == 2 then false
  else if w.length ≥ 3 then isWord w
  else true

/-- The row/column scan of `validateAllGridWords`: walk the cells with an
accumulated current run, checking the run at every empty cell, and once
more at the end (the loop runs to `col <= GRID_SIZE`, so the boundary acts
as an empty sentinel). -/
def scanLine : List (Option Char) → Word → Bool
  | [], acc => runOK isWord acc
  | some c :: rest, acc => scanLine rest (acc ++ [c])
  | none :: rest, acc => runOK isWord acc && scanLine rest []

/-- Row `r` of the grid as the list of cells the source's scan reads. -/
def rowLine (g : Grid) (r : Nat) : List (Option Char) :=
  (List.range GRID_SIZE).map (fun c => cellAt g r c)

/-- Column `c` of the grid as the list of cells the source's scan reads. -/
def colLine (g : Grid) (c : Nat) : List (Option Char) :=
  (List.range GRID_SIZE).map (fun r => cellAt g r c)

/-- `validateAllGridWords` from `solver.ts`: every row scan and every
column scan must succeed. -/
def validateAllGridWords (g : Grid) : Bool :=
  ((List.range GRID_SIZE).all (fun r => scanLine isWord (rowLine g r) [])) &&
  ((List.range GRID_SIZE).all (fun c => scanLine isWord (colLine g c) []))

/-! ### Maximal runs: the specification-side view of a line -/

end Validator

/-- The maximal runs of consecutive `some` entries of a line, given the
run accumulated so far. -/
def runsAux : List (Option α) → List α → List (List α)
  | [], acc => if acc.isEmpty then [] else [acc]
  | some c :: rest, acc => runsAux rest (acc ++ [c])
  | none :: rest, acc => (if acc.isEmpty then [] else [acc]) ++ runsAux rest []

/-- The maximal runs of consecutive non-empty cells of a line. -/
def runsOf (l : List (Option α)) : List (List α) :=
  runsAux l []

/-- All sixteen lines (8 rows then 8 columns) the validator scans. -/
def gridLines (g : Grid) : List (List (Option Char)) :=
  (List.range GRID_SIZE).map (rowLine g) ++ (List.range GRID_SIZE).map (colLine g)

/-- A maximal run is legal in the sense of the specification when it is a
single crossing letter, or has length at least 3 and is a dictionary word. -/
def runLegal (isWord : Word → Bool) (run : Word) : Prop :=
  run.length = 1 ∨ (3 ≤ run.length ∧ isWord run = true)

/-! ## The placement kernel (`tryPlaceWord`, solver.ts 76–151) -/

/-- A placement direction, `'h' | 'v'` in the source. -/
inductive Dir where
  | h
  | v
deriving DecidableEq, Repr

/-- `PlacementOption` from `solver.ts`. `row`/`col` are kept as the integer
start coordinates handed to `tryPlaceWord` (callers compute them by
subtraction, so they can be negative before the bounds check). -/
structure PlacementOption where
  word : Word
  row : Int
  col : Int
  direction : Dir
  newLettersUsed : List Char
  intersectionCount : Nat
deriving DecidableEq, Repr

/-- The i-th cell covered by a word starting at `(r0, c0)` in direction `d`. -/
def cellOfIndex (r0 c0 : Nat) (d : Dir) (i : Nat) : Cell :=
  match d with
  | .h => (r0, c0 + i)
  | .v => (r0 + i, c0)

/-- The cells a word covers, paired with the letter required at each. -/
def coveredCells (w : Word) (r0 c0 : Nat) (d : Dir) : List (Cell × Char) :=
  w.enum.map (fun p => (cellOfIndex r0 c0 d p.1, p.2))

/-- Write a word onto the grid (the tentative write building `testGrid` in
`tryPlaceWord`, and the loop of `applyPlacement`). -/
def writeWord (g : Grid) (w : Word) (r0 c0 : Nat) (d : Dir) : Grid :=
  (coveredCells w r0 c0 d).foldl (fun acc p => setCell acc p.1.1 p.1.2 p.2) g

/-- The per-cell loop of `tryPlaceWord` (solver.ts 107–127): walk the
covered cells carrying the `newLettersNeeded` map, the intersection count
and the `newLettersUsed` list; stop with `none` on a mismatched filled cell
or when a needed letter exceeds the available budget. -/
def scanCells (g : Grid) (m : LetterMap) :
    List (Cell × Char) → LetterMap → Nat → List Char → Option (Nat × List Char)
  | [], _, ic, nl => some (ic, nl)
  | (cell, ch) :: rest, needed, ic, nl =>
    match cellAt g cell.1 cell.2 with
    | some existing =>
      if existing == ch then scanCells g m rest needed (ic + 1) nl else none
    | none =>
      let needed' := lmInc needed ch
      if lmGet m ch < lmGet needed' ch then none
      else scanCells g m rest needed' ic (nl ++ [ch])

/-- The bounds check at the top of `tryPlaceWord` (solver.ts 84–91). -/
def boundsOK (w : Word) (startRow startCol : Int) (d : Dir) : Bool :=
  match d with
  | .h => !(startCol < 0 || (GRID_SIZE : Int) < startCol + w.length
            || startRow < 0 || (GRID_SIZE : Int) ≤ startRow)
  | .v => !(startRow < 0 || (GRID_SIZE : Int) < startRow + w.length
            || startCol < 0 || (GRID_SIZE : Int) ≤ startCol)

/-- The before/after extension check of `tryPlaceWord` (solver.ts 93–100). -/
def extOK (g : Grid) (w : Word) (r0 c0 : Nat) (d : Dir) : Bool :=
  match d with
  | .h => !((decide (0 < c0) && (cellAt g r0 (c0 - 1)).isSome)
            || (decide (c0 + w.length < GRID_SIZE) && (cellAt g r0 (c0 + w.length)).isSome))
  | .v => !((decide (0 < r0) && (cellAt g (r0 - 1) c0).isSome)
            || (decide (r0 + w.length < GRID_SIZE) && (cellAt g (r0 + w.length) c0).isSome))

/-- `tryPlaceWord` from `solver.ts`. -/
def tryPlaceWord (isWord : Word → Bool) (g : Grid) (w : Word)
    (startRow startCol : Int) (d : Dir) (m : LetterMap) : Option PlacementOption :=
  if !boundsOK w startRow startCol d then none else
  let r0 := startRow.toNat
  let c0 := startCol.toNat
  if !extOK g w r0 c0 d then none else
  match scanCells g m (coveredCells w r0 c0 d) [] 0 [] with
  | none => none
  | some (ic, nl) =>
    if gridHasLetters g && ic == 0 then none
    else if !validateAllGridWords isWord (writeWord g w r0 c0 d) then none
    else some { word := w, row := startRow, col := startCol, direction := d,
                newLettersUsed := nl, intersectionCount := ic }

/-- `applyPlacement` from `solver.ts`. -/
def applyPlacement (g : Grid) (p : PlacementOption) : Grid :=
  writeWord g p.word p.row.toNat p.col.toNat p.direction

/-! ### Specification-side views of the kernel's six preconditions -/

/-- Precondition 1 (bounds): the word fits within the 8×8 grid. -/
def fitsBounds (w : Word) (startRow startCol : Int) (d : Dir) : Prop :=
  match d with
  | .h => 0 ≤ startCol ∧ startCol + w.length ≤ (GRID_SIZE : Int)
          ∧ 0 ≤ startRow ∧ startRow < (GRID_SIZE : Int)
  | .v => 0 ≤ startRow ∧ startRow + w.length ≤ (GRID_SIZE : Int)
          ∧ 0 ≤ startCol ∧ startCol < (GRID_SIZE : Int)

/-- The cell immediately before the start, when it lies on the grid. -/
def beforeCell (r0 c0 : Nat) (d : Dir) : Option Cell :=
  match d with
  | .h => if 0 < c0 then some (r0, c0 - 1) else none
  | .v => if 0 < r0 then some (r0 - 1, c0) else none

/-- The cell immediately after the end, when it lies on the grid. -/
def afterCell (w : Word) (r0 c0 : Nat) (d : Dir) : Option Cell :=
  match d with
  | .h => if c0 + w.length < GRID_SIZE then some (r0, c0 + w.length) else none
  | .v => if r0 + w.length < GRID_SIZE then some (r0 + w.length, c0) else none

/-- Precondition 2 (no extension): before-start and after-end cells are
empty or off-grid. -/
def noExtension (g : Grid) (w : Word) (r0 c0 : Nat) (d : Dir) : Prop :=
  (∀ cell ∈ beforeCell r0 c0 d, cellAt g cell.1 cell.2 = none) ∧
  (∀ cell ∈ afterCell w r0 c0 d, cellAt g cell.1 cell.2 = none)

/-- One covered cell is compatible: empty, or already the required letter. -/
def cellCompat (g : Grid) (p : Cell × Char) : Prop :=
  cellAt g p.1.1 p.1.2 = none ∨ cellAt g p.1.1 p.1.2 = some p.2

instance (g : Grid) (p : Cell × Char) : Decidable (cellCompat g p) := by
  unfold cellCompat
  infer_instance

/-- The letters a placement writes into previously empty cells, in word
order. -/
def newLetters (g : Grid) (cl : List (Cell × Char)) : List Char :=
  (cl.filter (fun p => (cellAt g p.1.1 p.1.2).isNone)).map (·.2)

/-- The number of covered cells that are already filled. -/
def interCount (g : Grid) (cl : List (Cell × Char)) : Nat :=
  (cl.filter (fun p => (cellAt g p.1.1 p.1.2).isSome)).length

/-- Precondition 4 (letter budget): each letter written into empty cells is
available with the multiplicity used within this single placement. -/
def budgetOK (g : Grid) (m : LetterMap) (cl : List (Cell × Char)) : Prop :=
  ∀ ch ∈ newLetters g cl, (newLetters g cl).count ch ≤ lmGet m ch

/-- Precondition 5 (crossing requirement): on a non-empty grid the
placement overlaps at least one filled cell. -/
def crossingOK (g : Grid) (cl : List (Cell × Char)) : Prop :=
  gridHasLetters g = true → 0 < interCount g cl

instance {α} (P : α → Prop) [DecidablePred P] :
    (o : Option α) → Decidable (∀ a ∈ o, P a)
  | none => isTrue (by simp)
  | some x => decidable_of_iff (P x) (by simp)

instance (w : Word) (sr sc : Int) (d : Dir) : Decidable (fitsBounds w sr sc d) := by
  unfold fitsBounds
  cases d <;> infer_instance

instance (g : Grid) (w : Word) (r0 c0 : Nat) (d : Dir) :
    Decidable (noExtension g w r0 c0 d) := by
  unfold noExtension
  infer_instance

instance (g : Grid) (m : LetterMap) (cl : List (Cell × Char)) :
    Decidable (budgetOK g m cl) := by
  unfold budgetOK
  infer_instance

instance (g : Grid) (cl : List (Cell × Char)) : Decidable (crossingOK g cl) := by
  unfold crossingOK
  infer_instance

/-- The six preconditions of the placement kernel, combined. -/
def placementOK (isWord : Word → Bool) (g : Grid) (w : Word)
    (sr sc : Int) (d : Dir) (m : LetterMap) : Prop :=
  fitsBounds w sr sc d ∧
  noExtension g w sr.toNat sc.toNat d ∧
  (∀ q ∈ coveredCells w sr.toNat sc.toNat d, cellCompat g q) ∧
  budgetOK g m (coveredCells w sr.toNat sc.toNat d) ∧
  crossingOK g (coveredCells w sr.toNat sc.toNat d) ∧
  validateAllGridWords isWord (writeWord g w sr.toNat sc.toNat d) = true

instance (isWord : Word → Bool) (g : Grid) (w : Word) (sr sc : Int) (d : Dir)
    (m : LetterMap) : Decidable (placementOK isWord g w sr sc d m) := by
  unfold placementOK
  infer_instance

/-- The placement option `tryPlaceWord` reports on success: `new-letters`
is exactly the letters written into previously empty cells (in word order)
and `intersection-count` counts the covered cells already filled. -/
def mkPlacement (g : Grid) (w : Word) (sr sc : Int) (d : Dir) : PlacementOption :=
  { word := w, row := sr, col := sc, direction := d,
    newLettersUsed := newLetters g (coveredCells w sr.toNat sc.toNat d),
    intersectionCount := interCount g (coveredCells w sr.toNat sc.toNat d) }

/-! ## The game-state collaborator (`gameState.ts`) -/

/-- `Letter` from `gameState.ts`: a tile with a stable opaque id. -/
structure Tile where
  id : Nat
  char : Char
  position : Option Cell
deriving DecidableEq, Repr

/-- The game grid holds tile objects, not bare characters. -/
abbrev LetterGrid := List (List (Option Tile))

/-- `WordResult` from `gameState.ts`. -/
structure WordResult where
  word : List Char
  positions : List Cell
  isValid : Bool
  direction : Dir
deriving DecidableEq, Repr

/-- `GameState` from `gameState.ts` (the UI-only `timer` field is omitted:
no claim mentions it and nothing in the win logic reads it). -/
structure GameState where
  letters : List Tile
  grid : LetterGrid
  isWon : Bool
  words : List WordResult
deriving Repr

/-- `grid[r][c]` on the game grid. -/
def cellAtL (g : LetterGrid) (r c : Nat) : Option Tile :=
  (g.getD r []).getD c none

/-- Write one cell of the game grid. -/
def setCellL (g : LetterGrid) (r c : Nat) (v : Option Tile) : LetterGrid :=
  g.set r ((g.getD r []).set c v)

/-- The empty 8×8 game grid. -/
def emptyLetterGrid : LetterGrid :=
  List.replicate GRID_SIZE (List.replicate GRID_SIZE none)

/-- A fresh game state over the given tiles: nothing placed, empty grid
(`createInitialState` with the dice roll replaced by the given tiles). -/
def emptyStateOf (tiles : List Tile) : GameState :=
  { letters := tiles.map (fun t => { t with position := none }),
    grid := emptyLetterGrid, isWon := false, words := [] }

/-- The word-collecting scan of one line of `findAllWords`: accumulate the
current word and its positions, and emit a `WordResult` for every maximal
run of length ≥ 2 (the trailing sentinel is the `[]` base case). -/
def lineScanWords (isWord : Word → Bool) (dir : Dir) :
    List (Cell × Option Char) → List Char → List Cell → List WordResult
  | [], cur, ps =>
    if 2 ≤ cur.length then
      [{ word := cur, positions := ps,
         isValid := decide (3 ≤ cur.length) && isWord cur, direction := dir }]
    else []
  | (cell, some ch) :: rest, cur, ps =>
    lineScanWords isWord dir rest (cur ++ [ch]) (ps ++ [cell])
  | (_, none) :: rest, cur, ps =>
    (if 2 ≤ cur.length then
      [{ word := cur, positions := ps,
         isValid := decide (3 ≤ cur.length) && isWord cur, direction := dir }]
     else []) ++ lineScanWords isWord dir rest [] []

/-- Row `r` of the game grid as (cell, char) entries. -/
def rowEntries (g : LetterGrid) (r : Nat) : List (Cell × Option Char) :=
  (List.range GRID_SIZE).map (fun c => (((r, c) : Cell), (cellAtL g r c).map Tile.char))

/-- Column `c` of the game grid as (cell, char) entries. -/
def colEntries (g : LetterGrid) (c : Nat) : List (Cell × Option Char) :=
  (List.range GRID_SIZE).map (fun r => (((r, c) : Cell), (cellAtL g r c).map Tile.char))

/-- `findAllWords` from `gameState.ts`: all horizontal then all vertical
maximal runs of length ≥ 2, with their validity flags. -/
def findAllWords (isWord : Word → Bool) (g : LetterGrid) : List WordResult :=
  ((List.range GRID_SIZE).map (fun r => lineScanWords isWord Dir.h (rowEntries g r) [] [])).flatten
  ++ ((List.range GRID_SIZE).map (fun c => lineScanWords isWord Dir.v (colEntries g c) [] [])).flatten

/-- All filled cells of the game grid in row-major order (`placedCells`). -/
def placedCellsOf (g : LetterGrid) : List Cell :=
  (List.range GRID_SIZE).flatMap (fun r =>
    (List.range GRID_SIZE).filterMap (fun c =>
      if (cellAtL g r c).isSome then some ((r, c) : Cell) else none))

/-- The four edge-neighbours of a cell, in the source's order, as integer
pairs (the source checks `nr >= 0` afterwards, so underflow must be kept). -/
def neighborsOf (cell : Cell) : List (Int × Int) :=
  [((cell.1 : Int) - 1, (cell.2 : Int)), ((cell.1 : Int) + 1, (cell.2 : Int)),
   ((cell.1 : Int), (cell.2 : Int) - 1), ((cell.1 : Int), (cell.2 : Int) + 1)]

/-- One dequeue step of the BFS of `areAllLettersConnected`: pop the head,
then push every in-bounds filled unvisited neighbour (visited set updated
between neighbours, as in the source loop). -/
def bfsAux (g : LetterGrid) : Nat → List Cell → Finset Cell → Finset Cell
  | 0, _, vis => vis
  | _ + 1, [], vis => vis
  | fuel + 1, cell :: qs, vis =>
    let step := (neighborsOf cell).foldl
      (fun (acc : List Cell × Finset Cell) n =>
        if 0 ≤ n.1 ∧ n.1 < (GRID_SIZE : Int) ∧ 0 ≤ n.2 ∧ n.2 < (GRID_SIZE : Int)
            ∧ (cellAtL g n.1.toNat n.2.toNat).isSome = true
            ∧ (n.1.toNat, n.2.toNat) ∉ acc.2
        then (acc.1 ++ [((n.1.toNat, n.2.toNat) : Cell)],
              insert ((n.1.toNat, n.2.toNat) : Cell) acc.2)
        else acc)
      (qs, vis)
    bfsAux g fuel step.1 step.2

/-- Plenty of fuel for an 8×8 BFS: the measure `|queue| + 2·(64 − |visited|)`
starts at ≤ 127 and strictly decreases at every dequeue. -/
def bfsFuel : Nat := 256

/-- `areAllLettersConnected` from `gameState.ts`: BFS from the first placed
cell, then compare the visited count to the placed count. -/
def areAllLettersConnected (g : LetterGrid) : Bool :=
  match placedCellsOf g with
  | [] => true
  | start :: rest =>
    (bfsAux g bfsFuel [start] {start}).card == (start :: rest).length

/-- `checkWinCondition` from `gameState.ts`. -/
def checkWinCondition (letters : List Tile) (words : List WordResult)
    (g : LetterGrid) : Bool :=
  if !(letters.all (fun l => l.position.isSome)) then false
  else if !areAllLettersConnected g then false
  else if !(words.all (·.isValid)) then false
  else if words.length < 2 then false
  else
    letters.all (fun l =>
      match l.position with
      | none => true
      | some pos => ((words.map (·.positions)).flatten).contains pos)

/-- `placeLetter` from `gameState.ts`. -/
def placeLetter (isWord : Word → Bool) (state : GameState) (letterId : Nat)
    (r c : Nat) : GameState :=
  if (cellAtL state.grid r c).isSome then state
  else
    match state.letters.findIdx? (fun l => l.id == letterId) with
    | none => state
    | some idx =>
      let letter := state.letters.getD idx ⟨0, 'a', none⟩
      let grid1 :=
        match letter.position with
        | some pos => setCellL state.grid pos.1 pos.2 none
        | none => state.grid
      let newLetter := { letter with position := some ((r, c) : Cell) }
      let grid2 := setCellL grid1 r c (some newLetter)
      let newLetters := state.letters.set idx newLetter
      let words := findAllWords isWord grid2
      let isWon := checkWinCondition newLetters words grid2
      { letters := newLetters, grid := grid2, words := words, isWon := isWon }

/-- Apply a list of (tile-id, row, col) placements in order, as the game
collaborator consumes a solver result. -/
def applyPlacements (isWord : Word → Bool) (state : GameState)
    (ps : List (Nat × Nat × Nat)) : GameState :=
  ps.foldl (fun s p => placeLetter isWord s p.1 p.2.1 p.2.2) state

/-- The character grid a game grid presents: every tile replaced by its
character. -/
def charGridOf (g : LetterGrid) : Grid :=
  g.map (fun row => row.map (fun o => o.map Tile.char))

/-! ## Stable sorting (JavaScript `Array.prototype.sort`) -/

/-- Insert into a sorted list, before the first strictly-later element;
keeps equal elements in encounter order, as a stable sort must. -/
def insertIntoSorted (le : α → α → Bool) (a : α) : List α → List α
  | [] => [a]
  | b :: l => if le a b then a :: b :: l else b :: insertIntoSorted le a l

/-- Stable insertion sort.  `Array.prototype.sort` is required to be stable
(ES2019), and a stable sort's output is uniquely determined by the
comparator, so this models the source's sort calls faithfully for the
consistent comparators used there. -/
def stableSort (le : α → α → Bool) : List α → List α
  | [] => []
  | a :: l => insertIntoSorted le a (stableSort le l)

/-- Comparator `(a, b) => b.length - a.length` as a `≤`-test. -/
def lenDescLE (a b : Word) : Bool :=
  b.length ≤ a.length

/-- `word.split('').filter(c => availableLetters.has(c)).length` — the key
of the candidate sort in `solve` (solver.ts 289–295). -/
def availCount (m : LetterMap) (w : Word) : Nat :=
  (w.filter (fun c => lmHas m c)).length

/-- The candidate comparator of `solve`: available-letter count
descending, ties by length descending. -/
def candLE (m : LetterMap) (a b : Word) : Bool :=
  if availCount m b == availCount m a then b.length ≤ a.length
  else availCount m b ≤ availCount m a

/-- The placement comparator of `solve` (solver.ts 307–312): new-letters
count descending, ties by intersection count descending. -/
def placeLE (a b : PlacementOption) : Bool :=
  if b.newLettersUsed.length == a.newLettersUsed.length
  then b.intersectionCount ≤ a.intersectionCount
  else b.newLettersUsed.length ≤ a.newLettersUsed.length

/-! ## Candidate filtering and placement enumeration (solver.ts 153–232, 250–295) -/

/-- The candidate filter body of `solve` (solver.ts 256–282): on an empty
grid the word must be formable from the available letters alone; it must
always use at least one available letter. -/
def candidateOK (m : LetterMap) (hasLetters : Bool) (w : Word) : Bool :=
  let needed := buildCounts w
  (hasLetters || needed.all (fun p => p.2 ≤ lmGet m p.1)) &&
  needed.any (fun p => 0 < lmGet m p.1)

/-- The frame's candidate word list: filter, then stable-sort by
available-letter count descending and length descending. -/
def candidateList (m : LetterMap) (hasLetters : Bool) (allWords : List Word) : List Word :=
  stableSort (candLE m) (allWords.filter (candidateOK m hasLetters))

/-- The deduplication keys tried by `findAllPlacements` on a non-empty
grid, in generation order: for every filled cell (row-major) and every
index of the word holding that letter, a horizontal start `(h, r, c−i)`
and a vertical start `(v, r−i, c)`. -/
def placementKeys (g : Grid) (w : Word) : List (Dir × Int × Int) :=
  (List.range GRID_SIZE).flatMap (fun r =>
    (List.range GRID_SIZE).flatMap (fun c =>
      match cellAt g r c with
      | none => []
      | some cell =>
        (w.enum.filter (fun p => p.2 == cell)).flatMap (fun p =>
          [(Dir.h, (r : Int), (c : Int) - p.1), (Dir.v, (r : Int) - p.1, (c : Int))])))

/-- `findAllPlacements` from `solver.ts`: the centred seed word on an empty
grid, otherwise every deduplicated intersection-driven start. -/
def findAllPlacements (isWord : Word → Bool) (g : Grid) (w : Word)
    (m : LetterMap) : List PlacementOption :=
  if !gridHasLetters g then
    match tryPlaceWord isWord g w ((GRID_SIZE : Int) / 2)
        (Int.fdiv ((GRID_SIZE : Int) - w.length) 2) Dir.h m with
    | some p => [p]
    | none => []
  else
    ((placementKeys g w).foldl
      (fun (acc : List (Dir × Int × Int) × List PlacementOption) k =>
        if k ∈ acc.1 then acc
        else
          (k :: acc.1,
           acc.2 ++ (match tryPlaceWord isWord g w k.2.1 k.2.2 k.1 m with
                     | some p => [p]
                     | none => [])))
      ([], [])).2

/-! ## The backtracking search (`solve`, solver.ts 236–328)

`Date.now()` readings are drawn from the oracle `clk` through a counter
threaded through every call; the extra `fuel` argument makes the (possibly
clock-bounded-only) recursion total, so each terminating run of the source
is one run of the model. -/

section Solver

variable (isWord : Word → Bool) (clk : Nat → Nat)

/-- The inner placement loop of a `solve` frame: descend into each
placement in order, propagating the first success. -/
def tryPlacements (rec : Grid → LetterMap → Nat → Option Grid × Nat)
    (g : Grid) (m : LetterMap) :
    List PlacementOption → Nat → Option Grid × Nat
  | [], t => (none, t)
  | p :: ps, t =>
    match rec (applyPlacement g p) (subtractLetters m p.newLettersUsed) t with
    | (some res, t2) => (some res, t2)
    | (none, t2) => tryPlacements rec g m ps t2

/-- The candidate-word loop of a `solve` frame: enumerate, sort and cap the
placements of each word, descending into them in order. -/
def tryWords (rec : Grid → LetterMap → Nat → Option Grid × Nat)
    (g : Grid) (m : LetterMap) (maxP : Nat) :
    List Word → Nat → Option Grid × Nat
  | [], t => (none, t)
  | w :: ws, t =>
    match tryPlacements rec g m
        ((stableSort placeLE (findAllPlacements isWord g w m)).take maxP) t with
    | (some res, t2) => (some res, t2)
    | (none, t2) => tryWords rec g m maxP ws t2

/-- `solve` from `solver.ts`: one frame checks the deadline, returns the
grid once the available map is empty, and otherwise walks the capped,
sorted candidate list. -/
def solveGo (allWords : List Word) (deadline : Nat) :
    Nat → Nat → Grid → LetterMap → Nat → Option Grid × Nat
  | 0, _, _, _, t => (none, t)
  | fuel + 1, depth, g, m, t =>
    if deadline < clk t then (none, t + 1)
    else if m.isEmpty then (some g, t + 1)
    else
      let hasLetters := gridHasLetters g
      let maxCandidates : Nat := if depth == 0 then 150 else 80
      let maxPlacements : Nat := if depth == 0 then 20 else 10
      tryWords isWord (fun g2 m2 t2 => solveGo allWords deadline fuel (depth + 1) g2 m2 t2)
        g m maxPlacements
        ((candidateList m hasLetters allWords).take maxCandidates) (t + 1)

end Solver

/-! ## The placement reifier (`gridToPlacements`, solver.ts 330–353) -/

/-- One (tile-id, row, col) assignment of a solve result. -/
structure TilePlacement where
  letterId : Nat
  row : Nat
  col : Nat
deriving DecidableEq, Repr

/-- `SolveResult` from `solver.ts`. -/
structure SolveResult where
  placements : List TilePlacement
  success : Bool
  removedLetter : Option Char
deriving DecidableEq, Repr

/-- The filled cells of a grid with their characters, row-major. -/
def filledCellsOf (g : Grid) : List (Cell × Char) :=
  (List.range GRID_SIZE).flatMap (fun r =>
    (List.range GRID_SIZE).filterMap (fun c =>
      (cellAt g r c).map (fun ch => (((r, c) : Cell), ch))))

/-- The matching loop of `gridToPlacements`: for each filled cell pick the
first input tile of the same (case-insensitive) character that is not used
yet; unmatched cells are silently skipped. -/
def gridToPlacementsAux (tiles : List Tile) :
    List (Cell × Char) → List Nat → List TilePlacement
  | [], _ => []
  | (cell, ch) :: rest, used =>
    match tiles.find? (fun l => (l.char.toLower == ch.toLower)
        && !(used.contains l.id)) with
    | some l => ⟨l.id, cell.1, cell.2⟩ :: gridToPlacementsAux tiles rest (used ++ [l.id])
    | none => gridToPlacementsAux tiles rest used

/-- `gridToPlacements` from `solver.ts`. -/
def gridToPlacements (g : Grid) (tiles : List Tile) : List TilePlacement :=
  gridToPlacementsAux tiles (filledCellsOf g) []

/-- The cell a placement prefix assigns to a tile: the first placement
bearing its id, if any. -/
def posOf (pre : List TilePlacement) (l : Tile) : Option Cell :=
  (pre.find? (fun p => p.letterId == l.id)).map (fun p => (p.row, p.col))

/-- The game grid a placement prefix builds: each (tile-id, row, col) entry
writes the tile bearing that id, stamped with its new position — the grid
`placeLetter` accumulates while a solve result is applied in order. -/
def gridOfPre (tiles : List Tile) (pre : List TilePlacement) : LetterGrid :=
  pre.foldl
    (fun gm p =>
      match tiles.find? (fun l => l.id == p.letterId) with
      | some l => setCellL gm p.row p.col
          (some { l with position := some ((p.row, p.col) : Cell) })
      | none => gm)
    emptyLetterGrid

/-! ## The two-phase driver (`solvePuzzle`, solver.ts 355–422) -/

/-- `[...new Set(chars)]`: the distinct letters in first-occurrence order. -/
def uniqueFirst (chars : List Char) : List Char :=
  chars.foldl (fun acc c => if acc.contains c then acc else acc ++ [c]) []

/-- `SOLVE_TIMEOUT` from `solver.ts`. -/
def SOLVE_TIMEOUT : Nat := 15000

section Driver

variable (isWord : Word → Bool) (clk : Nat → Nat)
variable (gw : LetterMap → List Word) (fuel : Nat)

/-- The phase-2 loop of `solvePuzzle`: for each distinct letter in
first-occurrence order, re-solve with one copy removed; the first success
is returned with `removedLetter` set to the uppercased letter; a deadline
hit breaks out to the failure result. -/
def phase2 (tiles : List Tile) (letterCounts : LetterMap) (deadline : Nat) :
    List Char → Nat → SolveResult × Nat
  | [], t => ({ placements := [], success := false, removedLetter := none }, t)
  | c :: cs, t =>
    if deadline < clk t then
      ({ placements := [], success := false, removedLetter := none }, t + 1)
    else
      let reduced := lmDec letterCounts c
      match solveGo isWord clk (stableSort lenDescLE (gw reduced)) deadline
          fuel 0 createEmptyGrid reduced (t + 1) with
      | (some g11, t2) =>
        let pl := gridToPlacements g11 tiles
        ({ placements := pl, success := pl.length == 11,
           removedLetter := some c.toUpper }, t2)
      | (none, t2) => phase2 tiles letterCounts deadline cs t2

/-- `solvePuzzle` from `solver.ts`: build the counts, fetch and sort the
formable words, run phase 1, and fall back to the phase-2 loop. -/
def solvePuzzle (tiles : List Tile) (t0 : Nat) : SolveResult × Nat :=
  let letterChars := tiles.map (fun l => l.char.toLower)
  let deadline := clk t0 + SOLVE_TIMEOUT
  let letterCounts := buildCounts letterChars
  let allWords := stableSort lenDescLE (gw letterCounts)
  match solveGo isWord clk allWords deadline fuel 0 createEmptyGrid
      letterCounts (t0 + 1) with
  | (some g12, t2) =>
    let pl := gridToPlacements g12 tiles
    ({ placements := pl, success := pl.length == 12, removedLetter := none }, t2)
  | (none, t2) =>
    phase2 isWord clk gw fuel tiles letterCounts deadline
      (uniqueFirst letterChars) t2

end Driver

/-! ## The word-combination solver (`solver-v4.ts`)

`Math.random()` readings are drawn from the oracle `rng` as fractions
`num/den` in `[0,1)` and `Date.now()` readings from the oracle `clk`,
both through one tick counter threaded in call order; `timeoutMs * 0.7` is written `fdiv (7 * timeoutMs) 10`, exact
for every multiple of ten. -/

/-- `canFormWordFromCounts` from `solver-v4.ts`. -/
def canFormWordFromCounts (w : Word) (available : LetterMap) : Bool :=
  (buildCounts w).all (fun p => p.2 ≤ lmGet available p.1)

/-- `findCrossings` from `solver-v4.ts`: all index pairs bearing the same
letter, outer index first. -/
def findCrossings (w1 w2 : Word) : List (Nat × Nat × Char) :=
  (List.range w1.length).flatMap (fun i1 =>
    (List.range w2.length).filterMap (fun i2 =>
      match w1[i1]?, w2[i2]? with
      | some c1, some c2 => if c1 = c2 then some (i1, i2, c1) else none
      | _, _ => none))

/-- The backward walk of `getWordAt`: step left/up while the previous cell
is filled. -/
def backStep (g : Grid) (fixed : Nat) (d : Dir) : Nat → Nat
  | 0 => 0
  | i + 1 =>
    match d with
    | .h => if (cellAt g fixed i).isSome then backStep g fixed d i else i + 1
    | .v => if (cellAt g i fixed).isSome then backStep g fixed d i else i + 1

/-- The forward walk of `getWordAt`: collect letters until an empty cell
or the boundary. -/
def collectRun (g : Grid) (d : Dir) : Nat → Nat → Nat → Word
  | 0, _, _ => []
  | fuel + 1, r, c =>
    if r < GRID_SIZE ∧ c < GRID_SIZE then
      match cellAt g r c with
      | some ch =>
        ch :: (match d with
               | .h => collectRun g d fuel r (c + 1)
               | .v => collectRun g d fuel (r + 1) c)
      | none => []
    else []

/-- `getWordAt` from `solver-v4.ts`. -/
def getWordAt (g : Grid) (row col : Nat) (d : Dir) : Word :=
  match d with
  | .h => collectRun g .h GRID_SIZE row (backStep g row .h col)
  | .v => collectRun g .v GRID_SIZE (backStep g col .v row) col

/-- The other direction. -/
def perpOf : Dir → Dir
  | .h => .v
  | .v => .h

/-- `placeWord` from `solver-v4.ts`. -/
def placeWord (g : Grid) (w : Word) (row col : Nat) (d : Dir) : Grid :=
  (List.range w.length).foldl (fun ng i =>
    let r := match d with | .v => row + i | .h => row
    let c := match d with | .h => col + i | .v => col
    setCell ng r c (w.getD i ' ')) g

/-- The write loop at the top of `checkPerpendiculars`: build the tentative
grid, failing on out-of-bounds cells and conflicting letters (existing
cells are read from the original grid). -/
def checkPerpPlace (g : Grid) (w : Word) (row col : Nat) (d : Dir) :
    Option Grid :=
  (List.range w.length).foldl (fun acc i =>
    acc.bind (fun ng =>
      let r := match d with | .v => row + i | .h => row
      let c := match d with | .h => col + i | .v => col
      if GRID_SIZE ≤ r ∨ GRID_SIZE ≤ c then none
      else match cellAt g r c with
        | some ex =>
          if ex = w.getD i ' ' then some (setCell ng r c (w.getD i ' '))
          else none
        | none => some (setCell ng r c (w.getD i ' '))))
    (some g)

section V4

variable (isWord : Word → Bool) (gw : LetterMap → List Word)
variable (clk : Nat → Nat) (rng : Nat → Nat × Nat)

/-- `checkPerpendiculars` from `solver-v4.ts`. -/
def checkPerpendiculars (g : Grid) (w : Word) (row col : Nat) (d : Dir) :
    Bool :=
  match checkPerpPlace g w row col d with
  | none => false
  | some ng =>
    let extFail :=
      match d with
      | .h => (decide (0 < col) && (cellAt g row (col - 1)).isSome)
           || (decide (col + w.length < GRID_SIZE)
               && (cellAt g row (col + w.length)).isSome)
      | .v => (decide (0 < row) && (cellAt g (row - 1) col).isSome)
           || (decide (row + w.length < GRID_SIZE)
               && (cellAt g (row + w.length) col).isSome)
    if extFail then false
    else (List.range w.length).all (fun i =>
      let r := match d with | .v => row + i | .h => row
      let c := match d with | .h => col + i | .v => col
      if (cellAt g r c).isSome then true
      else
        let pw := getWordAt ng r c (perpOf d)
        if pw.length == 2 then false
        else if 3 ≤ pw.length then isWord pw
        else true)

/-- The base-position scan shared by `tryPlaceTwoWords` (rows 1–4) and
`tryPlaceThreeWords` (rows 1–3). -/
def basePairs (len1 maxRow : Nat) : List (Nat × Nat) :=
  (List.range maxRow).flatMap (fun br =>
    (List.range (max 1 (GRID_SIZE - len1 - 1))).map (fun bc =>
      (br + 1, bc + 1)))

/-- `tryPlaceTwoWords` from `solver-v4.ts`. -/
def tryPlaceTwoWords (w1 w2 : Word) (i1 i2 : Nat) : Option Grid :=
  (basePairs w1.length 4).findSome? (fun p =>
    let baseRow : Nat := p.1
    let baseCol : Nat := p.2
    let crossCol : Nat := baseCol + i1
    let w2sr : Int := Int.ofNat baseRow - Int.ofNat i2
    if w2sr < 0 ∨ (GRID_SIZE : Int) < w2sr + w2.length then none
    else if GRID_SIZE ≤ crossCol ∨ GRID_SIZE < baseCol + w1.length then none
    else if checkPerpendiculars isWord createEmptyGrid w1 baseRow baseCol .h then
      let g1 := placeWord createEmptyGrid w1 baseRow baseCol .h
      if checkPerpendiculars isWord g1 w2 w2sr.toNat crossCol .v then
        some (placeWord g1 w2 w2sr.toNat crossCol .v)
      else none
    else none)

/-- The attachment of the third word: vertically across the first word or
horizontally across the second, `crossing2` in the source. -/
inductive W3Link where
  | viaW1 (iA iB : Nat)
  | viaW2 (iA iB : Nat)
deriving DecidableEq, Repr

/-- `tryPlaceThreeWords` from `solver-v4.ts`. -/
def tryPlaceThreeWords (w1 w2 w3 : Word) (i1 i2 : Nat) (link : W3Link) :
    Option Grid :=
  (basePairs w1.length 3).findSome? (fun p =>
    let baseRow : Nat := p.1
    let baseCol : Nat := p.2
    let crossCol : Nat := baseCol + i1
    let w2sr : Int := Int.ofNat baseRow - Int.ofNat i2
    if w2sr < 0 ∨ (GRID_SIZE : Int) < w2sr + w2.length then none
    else if GRID_SIZE ≤ crossCol ∨ GRID_SIZE < baseCol + w1.length then none
    else if !checkPerpendiculars isWord createEmptyGrid w1 baseRow baseCol .h
      then none
    else
      let g1 := placeWord createEmptyGrid w1 baseRow baseCol .h
      if !checkPerpendiculars isWord g1 w2 w2sr.toNat crossCol .v then none
      else
        let g2 := placeWord g1 w2 w2sr.toNat crossCol .v
        match link with
        | .viaW1 iA iB =>
          let w3cc : Nat := baseCol + iA
          let w3sr : Int := Int.ofNat baseRow - Int.ofNat iB
          if w3sr < 0 ∨ (GRID_SIZE : Int) < w3sr + w3.length then none
          else if GRID_SIZE ≤ w3cc then none
          else if !checkPerpendiculars isWord g2 w3 w3sr.toNat w3cc .v then none
          else some (placeWord g2 w3 w3sr.toNat w3cc .v)
        | .viaW2 iA iB =>
          let w3cr : Int := w2sr + Int.ofNat iA
          let w3sc : Int := Int.ofNat crossCol - Int.ofNat iB
          if w3sc < 0 ∨ (GRID_SIZE : Int) < w3sc + w3.length then none
          else if w3cr < 0 ∨ (GRID_SIZE : Int) ≤ w3cr then none
          else if !checkPerpendiculars isWord g2 w3 w3cr.toNat w3sc.toNat .h
            then none
          else some (placeWord g2 w3 w3cr.toNat w3sc.toNat .h))

/-- One Fisher–Yates swap target. -/
def swapL (a : List α) (x y : Nat) : List α :=
  match a[x]?, a[y]? with
  | some vx, some vy => (a.set x vy).set y vx
  | _, _ => a

/-- The loop of `shuffle`: `i` runs from `a.length - 1` down to 1, each
step drawing one `Math.random()` reading. -/
def shuffleGo : Nat → List α → Nat → List α × Nat
  | 0, a, t => (a, t)
  | i + 1, a, t =>
    let j := ((rng t).1 * (i + 2)) / (rng t).2
    shuffleGo i (swapL a (i + 1) j) (t + 1)

/-- `shuffle` from `solver-v4.ts` (unseeded `Math.random()`). -/
def shuffle (a : List α) (t : Nat) : List α × Nat :=
  shuffleGo rng (a.length - 1) a t

/-- The crossing loop of strategy 1. -/
def s1Cross (w1 w2 : Word) (after1 : LetterMap) :
    List (Nat × Nat × Char) → Nat → Nat → Nat →
    Option Grid × Nat × Nat × Nat
  | [], a, cb, t => (none, a, cb, t)
  | (i1, i2, ch) :: rest, a, cb, t =>
    let withShared := lmInc after1 ch
    if !canFormWordFromCounts w2 withShared then
      s1Cross w1 w2 after1 rest a cb t
    else
      let afterBoth := subtractLetters withShared w2
      if lmTotal afterBoth ≠ 0 then s1Cross w1 w2 after1 rest a cb t
      else
        match tryPlaceTwoWords isWord w1 w2 i1 i2 with
        | some g => (some g, a + 1, cb, t)
        | none =>
          match tryPlaceTwoWords isWord w2 w1 i2 i1 with
          | some g => (some g, a + 2, cb, t)
          | none => s1Cross w1 w2 after1 rest (a + 2) cb t

/-- The `word2` loop of strategy 1: skip words of the wrong length before
the deadline check, then count the combination and walk its crossings. -/
def s1Inner (deadline : Int) (w1 : Word) (after1 : LetterMap) (needed : Nat) :
    List Word → Nat → Nat → Nat → Option Grid × Nat × Nat × Nat
  | [], a, cb, t => (none, a, cb, t)
  | w2 :: rest, a, cb, t =>
    if w2.length ≠ needed then s1Inner deadline w1 after1 needed rest a cb t
    else if deadline < (clk t : Int) then (none, a, cb, t + 1)
    else
      match s1Cross isWord w1 w2 after1 (findCrossings w1 w2) a (cb + 1)
          (t + 1) with
        | (some g, a2, cb2, t2) => (some g, a2, cb2, t2)
        | (none, a2, cb2, t2) =>
          s1Inner deadline w1 after1 needed rest a2 cb2 t2

/-- The `word1` loop of strategy 1. -/
def s1Outer (deadline : Int) (allWords : List Word) (m : LetterMap)
    (targetSum : Nat) :
    List Word → Nat → Nat → Nat → Option Grid × Nat × Nat × Nat
  | [], a, cb, t => (none, a, cb, t)
  | w1 :: rest, a, cb, t =>
    if deadline < (clk t : Int) then (none, a, cb, t + 1)
    else
      let neededLen : Int := (targetSum : Int) - w1.length
      if neededLen < 3 ∨ 8 < neededLen then
        s1Outer deadline allWords m targetSum rest a cb (t + 1)
      else
        match s1Inner isWord clk deadline w1 (subtractLetters m w1)
            neededLen.toNat allWords a cb (t + 1) with
        | (some g, a2, cb2, t2) => (some g, a2, cb2, t2)
        | (none, a2, cb2, t2) =>
          s1Outer deadline allWords m targetSum rest a2 cb2 t2

/-- The `cross13` / `cross23` loop of strategy 2. -/
def s2CrossLoop (w1 w2 w3 : Word) (i1 i2 : Nat) (after2 : LetterMap)
    (viaFirst : Bool) :
    List (Nat × Nat × Char) → Nat → Nat → Nat →
    Option Grid × Nat × Nat × Nat
  | [], a, cb, t => (none, a, cb, t)
  | (iA, iB, ch) :: rest, a, cb, t =>
    let withShared2 := lmInc after2 ch
    if !canFormWordFromCounts w3 withShared2 then
      s2CrossLoop w1 w2 w3 i1 i2 after2 viaFirst rest a cb t
    else
      let after3 := subtractLetters withShared2 w3
      if lmTotal after3 ≠ 0 then
        s2CrossLoop w1 w2 w3 i1 i2 after2 viaFirst rest a cb t
      else
        let link := if viaFirst then W3Link.viaW1 iA iB else W3Link.viaW2 iA iB
        match tryPlaceThreeWords isWord w1 w2 w3 i1 i2 link with
        | some g => (some g, a + 1, cb, t)
        | none => s2CrossLoop w1 w2 w3 i1 i2 after2 viaFirst rest (a + 1) cb t

/-- The `word3` loop of strategy 2. -/
def s2W3 (deadline : Int) (w1 w2 : Word) (i1 i2 : Nat) (after2 : LetterMap)
    (remaining : Nat) :
    List Word → Nat → Nat → Nat → Option Grid × Nat × Nat × Nat
  | [], a, cb, t => (none, a, cb, t)
  | w3 :: rest, a, cb, t =>
    if w3.length ≠ remaining + 1 then
      s2W3 deadline w1 w2 i1 i2 after2 remaining rest a cb t
    else if deadline < (clk t : Int) then (none, a, cb, t + 1)
    else
      match s2CrossLoop isWord w1 w2 w3 i1 i2 after2 true
          ((findCrossings w1 w3).take 2) a (cb + 1) (t + 1) with
      | (some g, a2, cb2, t2) => (some g, a2, cb2, t2)
      | (none, a2, cb2, t2) =>
        match s2CrossLoop isWord w1 w2 w3 i1 i2 after2 false
            ((findCrossings w2 w3).take 2) a2 cb2 t2 with
        | (some g, a3, cb3, t3) => (some g, a3, cb3, t3)
        | (none, a3, cb3, t3) =>
          s2W3 deadline w1 w2 i1 i2 after2 remaining rest a3 cb3 t3

/-- The `cross12` loop of strategy 2. -/
def s2Cross12 (deadline : Int) (allWords : List Word) (w1 w2 : Word)
    (after1 : LetterMap) :
    List (Nat × Nat × Char) → Nat → Nat → Nat →
    Option Grid × Nat × Nat × Nat
  | [], a, cb, t => (none, a, cb, t)
  | (i1, i2, ch) :: rest, a, cb, t =>
    let withShared1 := lmInc after1 ch
    if !canFormWordFromCounts w2 withShared1 then
      s2Cross12 deadline allWords w1 w2 after1 rest a cb t
    else
      let after2 := subtractLetters withShared1 w2
      let remaining := lmTotal after2
      if remaining < 3 ∨ 7 < remaining then
        s2Cross12 deadline allWords w1 w2 after1 rest a cb t
      else
        match s2W3 isWord clk deadline w1 w2 i1 i2 after2 remaining
            allWords a cb t with
        | (some g, a2, cb2, t2) => (some g, a2, cb2, t2)
        | (none, a2, cb2, t2) =>
          s2Cross12 deadline allWords w1 w2 after1 rest a2 cb2 t2

/-- The `word2` loop of strategy 2. -/
def s2Mid (deadline : Int) (allWords : List Word) (w1 : Word)
    (after1 : LetterMap) :
    List Word → Nat → Nat → Nat → Option Grid × Nat × Nat × Nat
  | [], a, cb, t => (none, a, cb, t)
  | w2 :: rest, a, cb, t =>
    if deadline < (clk t : Int) then (none, a, cb, t + 1)
    else
      match s2Cross12 isWord clk deadline allWords w1 w2 after1
          ((findCrossings w1 w2).take 3) a cb (t + 1) with
      | (some g, a2, cb2, t2) => (some g, a2, cb2, t2)
      | (none, a2, cb2, t2) =>
        s2Mid deadline allWords w1 after1 rest a2 cb2 t2

/-- The `word1` loop of strategy 2. -/
def s2Outer (deadline : Int) (allWords : List Word) (m : LetterMap)
    (words3Short : List Word) :
    List Word → Nat → Nat → Nat → Option Grid × Nat × Nat × Nat
  | [], a, cb, t => (none, a, cb, t)
  | w1 :: rest, a, cb, t =>
    if deadline < (clk t : Int) then (none, a, cb, t + 1)
    else
      match s2Mid isWord clk deadline allWords w1 (subtractLetters m w1)
          words3Short a cb (t + 1) with
      | (some g, a2, cb2, t2) => (some g, a2, cb2, t2)
      | (none, a2, cb2, t2) =>
        s2Outer deadline allWords m words3Short rest a2 cb2 t2

/-- The result record of `solve` in `solver-v4.ts`, with the final tick. -/
structure V4SolveOut where
  grid : Option Grid
  attempts : Nat
  combosChecked : Nat
  tick : Nat
deriving DecidableEq, Repr

/-- `solve` from `solver-v4.ts`: filter and sort the formable words, then
strategy 1 (two crossing words) and strategy 2 (three words, two
crossings), each over a shuffled candidate list. -/
def solveV4 (m : LetterMap) (targetCount : Nat) (timeoutMs : Int) (t : Nat) :
    V4SolveOut :=
  let deadline : Int := (clk t : Int) + timeoutMs
  let t1 := t + 1
  let allWords := stableSort lenDescLE ((gw m).filter
    (fun w => decide (3 ≤ w.length) && decide (w.length ≤ 8)))
  if allWords.isEmpty then ⟨none, 0, 0, t1⟩
  else
    let targetSum := targetCount + 1
    let longWords := allWords.filter (fun w => decide (5 ≤ w.length))
    match shuffle rng (longWords ++ allWords.take 100) t1 with
    | (wordsToTry, t2) =>
      match s1Outer isWord clk deadline allWords m targetSum wordsToTry
          0 0 t2 with
      | (some g, a, cb, t3) => ⟨some g, a, cb, t3⟩
      | (none, a, cb, t3) =>
        let mediumWords := allWords.filter (fun w =>
          decide (4 ≤ w.length) && decide (w.length ≤ 6))
        match shuffle rng (mediumWords ++ allWords.take 80) t3 with
        | (words3Try, t4) =>
          match s2Outer isWord clk deadline allWords m (words3Try.take 60)
              (words3Try.take 50) a cb t4 with
          | (res, a2, cb2, t5) => ⟨res, a2, cb2, t5⟩

/-- `countCells` from `solver-v4.ts`. -/
def countCells (g : Grid) : Nat :=
  (filledCellsOf g).length

/-- The stats block of `SolveResult` in `solver-v4.ts`. -/
structure V4Stats where
  attempts : Nat
  timeMs : Int
  combosChecked : Nat
deriving DecidableEq, Repr

/-- `SolveResult` from `solver-v4.ts`. -/
structure V4Result where
  placements : List TilePlacement
  success : Bool
  removedLetter : Option Char
  stats : Option V4Stats
deriving DecidableEq, Repr

/-- `difficulties` from `solver-v4.ts` (phase-2 removal priorities). -/
def difficulty (c : Char) : Nat :=
  if c = 'j' ∨ c = 'q' then 100
  else if c = 'x' then 95
  else if c = 'z' then 90
  else if c = 'k' then 75
  else if c = 'v' then 60
  else if c = 'w' then 50
  else if c = 'y' then 45
  else if c = 'f' then 40
  else if c = 'b' then 35
  else 0

/-- The phase-2 sort order of `solvePuzzleV4`: difficulty descending. -/
def diffLE (a b : Char) : Bool :=
  difficulty b ≤ difficulty a

/-- The phase-2 removal loop of `solvePuzzleV4`. -/
def v4Phase2Loop (tiles : List Tile) (letterCounts : LetterMap)
    (startTime : Nat) (timeoutMs perLetter : Int) :
    List Char → Nat → Nat → Nat → V4Result × Nat
  | [], ta, tc, t =>
    (⟨[], false, none, some ⟨ta, (clk t : Int) - startTime, tc⟩⟩, t + 1)
  | c :: rest, ta, tc, t =>
    let nowd : Int := (clk t : Int) - startTime
    let t1 := t + 1
    if timeoutMs - 500 < nowd then
      (⟨[], false, none, some ⟨ta, (clk t1 : Int) - startTime, tc⟩⟩, t1 + 1)
    else
      let reduced := lmDec letterCounts c
      let r11 := solveV4 isWord gw clk rng reduced 11 perLetter t1
      let ta2 := ta + r11.attempts
      let tc2 := tc + r11.combosChecked
      match r11.grid with
      | some g =>
        if countCells g == 11 then
          let remainingLetters := tiles.filter (fun l =>
            !(l.char.toLower == c))
          (⟨gridToPlacements g remainingLetters, true, some c.toUpper,
            some ⟨ta2, (clk r11.tick : Int) - startTime, tc2⟩⟩, r11.tick + 1)
        else
          v4Phase2Loop tiles letterCounts startTime timeoutMs perLetter
            rest ta2 tc2 r11.tick
      | none =>
        v4Phase2Loop tiles letterCounts startTime timeoutMs perLetter
          rest ta2 tc2 r11.tick

/-- The phase-2 prologue of `solvePuzzleV4`: remaining-time split,
difficulty sort, and the first six removals. -/
def v4Phase2 (tiles : List Tile) (letterCounts : LetterMap)
    (letterChars : List Char) (startTime : Nat) (timeoutMs : Int)
    (ta tc : Nat) (t : Nat) : V4Result × Nat :=
  let uniqueLetters := uniqueFirst letterChars
  let remainingTime : Int :=
    max 2000 (timeoutMs - ((clk t : Int) - startTime))
  let t1 := t + 1
  let perLetter := Int.fdiv remainingTime (min uniqueLetters.length 6)
  let sorted := stableSort diffLE uniqueLetters
  v4Phase2Loop isWord gw clk rng tiles letterCounts startTime timeoutMs
    perLetter (sorted.take 6) ta tc t1

/-- `solvePuzzleV4` from `solver-v4.ts`. -/
def solvePuzzleV4 (tiles : List Tile) (timeoutMs : Int) (t : Nat) :
    V4Result × Nat :=
  let startTime := clk t
  let t1 := t + 1
  let letterChars := tiles.map (fun l => l.char.toLower)
  let letterCounts := buildCounts letterChars
  let r12 := solveV4 isWord gw clk rng letterCounts 12
    (Int.fdiv (7 * timeoutMs) 10) t1
  match r12.grid with
  | some g =>
    if countCells g == 12 then
      (⟨gridToPlacements g tiles, true, none,
        some ⟨r12.attempts, (clk r12.tick : Int) - startTime,
          r12.combosChecked⟩⟩, r12.tick + 1)
    else
      v4Phase2 isWord gw clk rng tiles letterCounts letterChars startTime
        timeoutMs r12.attempts r12.combosChecked r12.tick
  | none =>
    v4Phase2 isWord gw clk rng tiles letterCounts letterChars startTime
      timeoutMs r12.attempts r12.combosChecked r12.tick

end V4

/-! ## Specification-side rarity weights -/

/-- Modelled from the spec: the per-letter rarity weights of §4.4
(`q,z:10 · x:9 · j:8 · k:7 · v:6 · w,y:5 · f,b,h,m,p:4 · g,c,d,u:3 ·
l,n,r,t,s,o:2 · i,a,e:1`).  No such table exists in `solver.ts`; this
definition exists only to compare the spec's claimed ordering against the
code's actual ordering. -/
def rarityWeight (c : Char) : Nat :=
  if c = 'q' ∨ c = 'z' then 10
  else if c = 'x' then 9
  else if c = 'j' then 8
  else if c = 'k' then 7
  else if c = 'v' then 6
  else if c = 'w' ∨ c = 'y' then 5
  else if c = 'f' ∨ c = 'b' ∨ c = 'h' ∨ c = 'm' ∨ c = 'p' then 4
  else if c = 'g' ∨ c = 'c' ∨ c = 'd' ∨ c = 'u' then 3
  else if c = 'l' ∨ c = 'n' ∨ c = 'r' ∨ c = 't' ∨ c = 's' ∨ c = 'o' then 2
  else 1

/-- Modelled from the spec: a word's rarity score, the sum of the
per-letter rarity weights (for a word drawn wholly from the multiset, as
in the counterexample below, every letter is drawn). -/
def rarityScore (w : Word) : Nat :=
  (w.map rarityWeight).sum

/-- A concrete dictionary oracle satisfying the spec's §4.1 contract:
membership of the lowercased word in a fixed list. -/
def mkIsWord (dict : List Word) : Word → Bool :=
  fun w => dict.contains (w.map Char.toLower)

/-- A concrete "words formable from a multiset" oracle satisfying the
spec's §4.1 contract: the words of a fixed list whose letter counts are
dominated by the multiset. -/
def mkGetWords (dict : List Word) : LetterMap → List Word :=
  fun m => dict.filter (fun w => (buildCounts w).all (fun p => p.2 ≤ lmGet m p.1))

/-! ## Specification-side grid notions: shape, filledness, connectivity -/

/-- Well-formedness of the 8×8 grid representation. -/
def gridWF (g : Grid) : Prop :=
  g.length = GRID_SIZE ∧ ∀ row ∈ g, row.length = GRID_SIZE

/-- A cell currently holding a letter. -/
def filledAt (g : Grid) (q : Cell) : Prop :=
  (cellAt g q.1 q.2).isSome = true

/-- 4-adjacency: two cells sharing an edge. -/
def cellAdj (a b : Cell) : Prop :=
  (a.1 = b.1 ∧ (a.2 + 1 = b.2 ∨ b.2 + 1 = a.2)) ∨
  (a.2 = b.2 ∧ (a.1 + 1 = b.1 ∨ b.1 + 1 = a.1))

/-- One connectivity step inside the filled cells of a grid. -/
def stepIn (g : Grid) (a b : Cell) : Prop :=
  filledAt g a ∧ filledAt g b ∧ cellAdj a b

/-- The filled cells of the grid form a single 4-connected component: any
two filled cells are joined by a path of filled 4-adjacent cells. -/
def ConnGrid (g : Grid) : Prop :=
  ∀ a b, filledAt g a → filledAt g b → Relation.ReflTransGen (stepIn g) a b

/-- The invariant of the BFS of `areAllLettersConnected`: a duplicate-free
queue inside the visited set, visited cells in-bounds, filled and reachable
from the start, and every visited cell off the queue has all its filled
neighbours visited already. -/
def BFSInv (g : LetterGrid) (start : Cell) (q : List Cell)
    (vis : Finset Cell) : Prop :=
  q.Nodup ∧ (∀ x ∈ q, x ∈ vis) ∧
  (∀ x ∈ vis, x.1 < GRID_SIZE ∧ x.2 < GRID_SIZE ∧
      (cellAtL g x.1 x.2).isSome = true) ∧
  (∀ x ∈ vis, Relation.ReflTransGen (stepIn (charGridOf g)) start x) ∧
  (∀ x ∈ vis, x ∉ q → ∀ y, stepIn (charGridOf g) x y → y ∈ vis)

/-- The number of filled cells holding a given character. -/
def gridCount (g : Grid) (ch : Char) : Nat :=
  ((filledCellsOf g).filter (fun q => q.2 = ch)).length

/-- The character grid that a list of reified placements defines: each
(tile-id, row, col) entry writes that tile's character. -/
def placedGridOf (pl : List TilePlacement) (tiles : List Tile) : Grid :=
  pl.foldl
    (fun g p =>
      match tiles.find? (fun l => l.id == p.letterId) with
      | some l => setCell g p.row p.col l.char
      | none => g)
    createEmptyGrid

/-- One row's contribution to `filledCellsOf`. -/
def rowSeg (g : Grid) (r : Nat) : List (Cell × Char) :=
  (List.range GRID_SIZE).filterMap (fun c =>
    (cellAt g r c).map (fun ch => (((r, c) : Cell), ch)))

/-- Indicator of one cell holding one character. -/
def cellInd (g : Grid) (ch : Char) (r c : Nat) : Nat :=
  if cellAt g r c = some ch then 1 else 0

/-- The invariant carried down the backtracking search: a well-formed,
validator-clean, connected grid whose per-character cell counts plus the
remaining multiset equal the call's budget `B`, a positive-count multiset
whose keys lie in the letter universe `S`, and grid characters in `S`. -/
def SearchInv (isWord : Word → Bool) (B : Char → Nat) (S : List Char)
    (g : Grid) (m : LetterMap) : Prop :=
  gridWF g ∧ validateAllGridWords isWord g = true ∧ ConnGrid g ∧
  (∀ ch, gridCount g ch + lmGet m ch = B ch) ∧
  (∀ p ∈ m, 1 ≤ p.2) ∧ (∀ p ∈ m, p.1 ∈ S) ∧
  (∀ q ∈ filledCellsOf g, q.2 ∈ S)

/-- What holds of every grid a successful search returns: well-formed,
validator-clean, connected, with cell counts equal to the full budget and
characters inside the letter universe. -/
def SearchPost (isWord : Word → Bool) (B : Char → Nat) (S : List Char)
    (res : Grid) : Prop :=
  gridWF res ∧ validateAllGridWords isWord res = true ∧ ConnGrid res ∧
  (∀ ch, gridCount res ch = B ch) ∧
  (∀ q ∈ filledCellsOf res, q.2 ∈ S)

/-- Two grids equal cell by cell up to letter case: the reified grid of a
solve result matches the search grid in this sense. -/
def caseEq (g1 g2 : Grid) : Prop :=
  ∀ r c, Option.map Char.toLower (cellAt g1 r c)
       = Option.map Char.toLower (cellAt g2 r c)

/-- The uppercase letters, A–Z. -/
def upperAlpha : List Char :=
  ['A', 'B', 'C', 'D', 'E', 'F', 'G', 'H', 'I', 'J', 'K', 'L', 'M',
   'N', 'O', 'P', 'Q', 'R', 'S', 'T', 'U', 'V', 'W', 'X', 'Y', 'Z']

/-- The lowercase letters, a–z. -/
def lowerAlpha : List Char :=
  ['a', 'b', 'c', 'd', 'e', 'f', 'g', 'h', 'i', 'j', 'k', 'l', 'm',
   'n', 'o', 'p', 'q', 'r', 's', 't', 'u', 'v', 'w', 'x', 'y', 'z']

/-! ## Concrete instances used to evaluate the theorems -/

/-- A two-word demonstration dictionary: `abcdefg` and `hijakl` cross on
their shared `a`. -/
def demoDict : List Word :=
  [['a', 'b', 'c', 'd', 'e', 'f', 'g'], ['h', 'i', 'j', 'a', 'k', 'l']]

/-- Twelve distinct-id uppercase tiles A–L. -/
def demoTiles : List Tile :=
  [⟨0, 'A', none⟩, ⟨1, 'B', none⟩, ⟨2, 'C', none⟩, ⟨3, 'D', none⟩,
   ⟨4, 'E', none⟩, ⟨5, 'F', none⟩, ⟨6, 'G', none⟩, ⟨7, 'H', none⟩,
   ⟨8, 'I', none⟩, ⟨9, 'J', none⟩, ⟨10, 'K', none⟩, ⟨11, 'L', none⟩]

/-- The result `solvePuzzle` computes on the demonstration instance with a
constant clock: a 12-placement phase-1 success. -/
def demoRes : SolveResult :=
  { placements :=
      [⟨7, 1, 0⟩, ⟨8, 2, 0⟩, ⟨9, 3, 0⟩, ⟨0, 4, 0⟩, ⟨1, 4, 1⟩, ⟨2, 4, 2⟩,
       ⟨3, 4, 3⟩, ⟨4, 4, 4⟩, ⟨5, 4, 5⟩, ⟨6, 4, 6⟩, ⟨10, 5, 0⟩, ⟨11, 6, 0⟩],
    success := true,
    removedLetter := none }

/-- A two-word dictionary separating removal orders: removing `a` allows
`qbc`, removing `q` allows `abc`, and the full four tiles admit no
solution. -/
def rarityDict : List Word :=
  [['q', 'b', 'c'], ['a', 'b', 'c']]

/-- Four tiles whose first letter (`A`, rarity 1) and rarest letter
(`Q`, rarity 10) are both viable phase-2 removals. -/
def rarityTiles : List Tile :=
  [⟨0, 'A', none⟩, ⟨1, 'Q', none⟩, ⟨2, 'B', none⟩, ⟨3, 'C', none⟩]

/-- A two-word dictionary for the word-combination solver: `abcdefg` and
`dhijkl` cross on their shared `d` and use all twelve letters. -/
def v4Dict : List Word :=
  [['a', 'b', 'c', 'd', 'e', 'f', 'g'], ['d', 'h', 'i', 'j', 'k', 'l']]

/-- Twelve distinct-id uppercase tiles A–L for the word-combination
solver. -/
def v4Tiles : List Tile :=
  [⟨0, 'A', none⟩, ⟨1, 'B', none⟩, ⟨2, 'C', none⟩, ⟨3, 'D', none⟩,
   ⟨4, 'E', none⟩, ⟨5, 'F', none⟩, ⟨6, 'G', none⟩, ⟨7, 'H', none⟩,
   ⟨8, 'I', none⟩, ⟨9, 'J', none⟩, ⟨10, 'K', none⟩, ⟨11, 'L', none⟩]

theorem runOK_eq_true_iff (isWord : Word → Bool) (w : Word) (hne : w ≠ []) :
    runOK isWord w = true ↔ runLegal isWord w := by
  unfold runOK runLegal
  have hlen : w.length ≠ 0 := by simpa using hne
  rcases w with _ | ⟨a, _ | ⟨b, _ | ⟨c, t⟩⟩⟩ <;> simp_all

theorem runsAux_ne_nil {l : List (Option α)} {acc : List α} :
    ∀ run ∈ runsAux l acc, run ≠ [] := by
  induction l generalizing acc with
  | nil =>
    intro run h
    by_cases hacc : acc.isEmpty <;> simp [runsAux, hacc] at h
    rcases h with rfl
    simpa [List.isEmpty_iff] using hacc
  | cons o rest ih =>
    intro run h
    match o with
    | some c => exact ih run (by simpa [runsAux] using h)
    | none =>
      simp only [runsAux, List.mem_append] at h
      rcases h with h | h
      · by_cases hacc : acc.isEmpty <;> simp [hacc] at h
        rcases h with rfl
        simpa [List.isEmpty_iff] using hacc
      · exact ih run h

/-- The scan of one line succeeds exactly when every maximal run of the
line (continuing the accumulated run) passes `runOK`. -/
theorem scanLine_eq_all (isWord : Word → Bool) (l : List (Option Char)) :
    ∀ acc, scanLine isWord l acc = (runsAux l acc).all (runOK isWord) := by
  induction l with
  | nil =>
    intro acc
    by_cases hacc : acc.isEmpty
    · have : acc = [] := by simpa [List.isEmpty_iff] using hacc
      simp [scanLine, runsAux, hacc, this, runOK]
    · simp [scanLine, runsAux, hacc]
  | cons o rest ih =>
    intro acc
    match o with
    | some c => simpa [scanLine, runsAux] using ih (acc ++ [c])
    | none =>
      by_cases hacc : acc.isEmpty
      · have : acc = [] := by simpa [List.isEmpty_iff] using hacc
        simp [scanLine, runsAux, hacc, this, runOK, ih]
      · simp [scanLine, runsAux, hacc, ih, Bool.and_comm, Bool.and_assoc]

theorem scanLine_eq_runsOf (isWord : Word → Bool) (l : List (Option Char)) :
    scanLine isWord l [] = (runsOf l).all (runOK isWord) :=
  scanLine_eq_all isWord l []

theorem all_map_fun {α β} (f : α → β) (l : List α) (p : β → Bool) :
    (l.map f).all p = l.all (fun x => p (f x)) := by
  induction l with
  | nil => rfl
  | cons a t ih => simp [ih]

theorem validateAllGridWords_eq_all (isWord : Word → Bool) (g : Grid) :
    validateAllGridWords isWord g
      = (gridLines g).all (fun l => (runsOf l).all (runOK isWord)) := by
  unfold validateAllGridWords gridLines
  rw [List.all_append, all_map_fun, all_map_fun]
  simp [scanLine_eq_runsOf]

theorem validateAllGridWords_iff_runs (isWord : Word → Bool) (g : Grid) :
    validateAllGridWords isWord g = true ↔
      ∀ line ∈ gridLines g, ∀ run ∈ runsOf line, runLegal isWord run := by
  have key : ∀ (line : List (Option Char)) (run : Word), run ∈ runsOf line →
      (runOK isWord run = true ↔ runLegal isWord run) :=
    fun _ run hr => runOK_eq_true_iff isWord run (runsAux_ne_nil run hr)
  rw [validateAllGridWords_eq_all]
  constructor
  · intro h line hl run hr
    exact (key line run hr).1
      (List.all_eq_true.mp (List.all_eq_true.mp h line hl) run hr)
  · intro h
    refine List.all_eq_true.mpr fun line hl => List.all_eq_true.mpr fun run hr => ?_
    exact (key line run hr).2 (h line hl run hr)

/-- **C2.** The grid validator returns true iff, for every row scanned left
to right and every column scanned top to bottom (with the grid boundary as
an empty sentinel), every maximal run of consecutive non-empty cells either
has length 1 or has length ≥ 3 and is a dictionary word; in particular it
returns false whenever any run has length exactly 2. -/
theorem validateAllGridWords_correct (isWord : Word → Bool) (g : Grid) :
    (validateAllGridWords isWord g = true ↔
      ∀ line ∈ gridLines g, ∀ run ∈ runsOf line, runLegal isWord run) ∧
    (∀ line ∈ gridLines g, ∀ run ∈ runsOf line, run.length = 2 →
      validateAllGridWords isWord g = false) := by
  refine ⟨validateAllGridWords_iff_runs isWord g, ?_⟩
  intro line hl run hr hlen
  cases hval : validateAllGridWords isWord g with
  | false => rfl
  | true =>
    exfalso
    have hleg := (validateAllGridWords_iff_runs isWord g).1 hval line hl run hr
    rcases hleg with h1 | ⟨h3, _⟩ <;> omega

/-- Concrete witness instance for `validateAllGridWords_correct`: a grid
holding the single horizontal run "ab" fails the validator. -/
theorem validateAllGridWords_correct_witness :
    validateAllGridWords (fun _ => true)
      (setCell (setCell createEmptyGrid 0 0 'a') 0 1 'b') = false :=
  (validateAllGridWords_correct (fun _ => true)
      (setCell (setCell createEmptyGrid 0 0 'a') 0 1 'b')).2
    (rowLine (setCell (setCell createEmptyGrid 0 0 'a') 0 1 'b') 0)
    (by decide) ['a', 'b'] (by decide) rfl

/-! ## Association-list map lemmas -/

theorem lmGet_cons (p : Char × Nat) (rest : LetterMap) (x : Char) :
    lmGet (p :: rest) x = if p.1 == x then p.2 else lmGet rest x := by
  by_cases h : p.1 == x
  · unfold lmGet
    rw [List.find?_cons_of_pos _ (by simpa using h)]
    simp [h]
  · unfold lmGet
    rw [List.find?_cons_of_neg _ (by simpa using h)]
    simp [h]

theorem lmGet_lmSet (m : LetterMap) (c : Char) (n : Nat) (x : Char) :
    lmGet (lmSet m c n) x = if x = c then n else lmGet m x := by
  induction m with
  | nil =>
    rw [show lmSet [] c n = [(c, n)] from rfl, lmGet_cons]
    by_cases h : x = c
    · simp [h]
    · have hb : (c == x) = false := by
        simp only [beq_eq_false_iff_ne, ne_eq]
        exact fun hh => h hh.symm
      simp [hb, h, lmGet]
  | cons p rest ih =>
    by_cases hpc : p.1 == c
    · have hpc' : p.1 = c := by simpa using hpc
      rw [show lmSet (p :: rest) c n = (c, n) :: rest by simp [lmSet, hpc],
        lmGet_cons, lmGet_cons]
      by_cases hxc : x = c
      · simp [hxc]
      · have hb : (c == x) = false := by
          simp only [beq_eq_false_iff_ne, ne_eq]
          exact fun hh => hxc hh.symm
        have hb2 : (p.1 == x) = false := by
          rw [hpc']
          exact hb
        simp [hb, hb2, hxc]
    · rw [show lmSet (p :: rest) c n = p :: lmSet rest c n by simp [lmSet, hpc],
        lmGet_cons, lmGet_cons]
      by_cases hpx : p.1 == x
      · have hxc : ¬(x = c) := by
          intro h
          apply absurd _ (by simpa using hpc : ¬(p.1 = c))
          rw [show p.1 = x by simpa using hpx, h]
        simp [hpx, hxc]
      · simp [hpx, ih]

theorem lmGet_lmInc (m : LetterMap) (c : Char) (x : Char) :
    lmGet (lmInc m c) x = if x = c then lmGet m c + 1 else lmGet m x := by
  simp [lmInc, lmGet_lmSet]

/-! ## Characterization of the per-cell loop of `tryPlaceWord` -/

theorem count_cons_char (c ch : Char) (l : List Char) :
    (ch :: l).count c = l.count c + (if c = ch then 1 else 0) := by
  rw [List.count_cons]
  by_cases h : c = ch
  · simp [h]
  · have h2 : ¬(ch = c) := fun hh => h hh.symm
    simp [h, h2]

theorem scanCells_spec (g : Grid) (m : LetterMap) (cl : List (Cell × Char)) :
    ∀ (needed : LetterMap) (ic : Nat) (nl : List Char),
      (∀ ch, lmGet needed ch ≤ lmGet m ch) →
      scanCells g m cl needed ic nl
        = if (∀ p ∈ cl, cellCompat g p) ∧
             (∀ ch ∈ newLetters g cl,
               lmGet needed ch + (newLetters g cl).count ch ≤ lmGet m ch)
          then some (ic + interCount g cl, nl ++ newLetters g cl)
          else none := by
  induction cl with
  | nil =>
    intro needed ic nl hinv
    simp [scanCells, newLetters, interCount]
  | cons p rest ih =>
    intro needed ic nl hinv
    obtain ⟨cell, ch⟩ := p
    rcases hcell : cellAt g cell.1 cell.2 with _ | ex
    · -- current cell is empty: consume one letter from the budget
      have hnl : newLetters g ((cell, ch) :: rest) = ch :: newLetters g rest := by
        simp [newLetters, hcell]
      have hicnt : interCount g ((cell, ch) :: rest) = interCount g rest := by
        simp [interCount, hcell]
      by_cases hbudget : lmGet m ch < lmGet needed ch + 1
      · -- incremental check fails here, and the final budget also fails
        have hstep : scanCells g m ((cell, ch) :: rest) needed ic nl = none := by
          simp [scanCells, hcell, lmGet_lmInc, hbudget]
        rw [hstep]
        have hfail : ¬((∀ q ∈ (cell, ch) :: rest, cellCompat g q) ∧
            (∀ c ∈ newLetters g ((cell, ch) :: rest),
              lmGet needed c + (newLetters g ((cell, ch) :: rest)).count c ≤ lmGet m c)) := by
          rintro ⟨-, hb⟩
          have hmem : ch ∈ newLetters g ((cell, ch) :: rest) := by simp [hnl]
          have h1 := hb ch hmem
          rw [hnl, count_cons_char] at h1
          simp at h1
          omega
        rw [if_neg hfail]
      · push_neg at hbudget
        have hcond : ¬(lmGet m ch < lmGet (lmInc needed ch) ch) := by
          rw [lmGet_lmInc]
          simp
          omega
        have hstep : scanCells g m ((cell, ch) :: rest) needed ic nl
            = scanCells g m rest (lmInc needed ch) ic (nl ++ [ch]) := by
          simp [scanCells, hcell, hcond]
        have hinv' : ∀ c, lmGet (lmInc needed ch) c ≤ lmGet m c := by
          intro c
          rw [lmGet_lmInc]
          by_cases hc : c = ch
          · subst hc
            simp
            omega
          · simp [hc]
            exact hinv c
        rw [hstep, ih (lmInc needed ch) ic (nl ++ [ch]) hinv']
        have hcompat : cellCompat g (cell, ch) := Or.inl hcell
        have hbud_iff : (∀ c ∈ newLetters g rest,
              lmGet (lmInc needed ch) c + (newLetters g rest).count c ≤ lmGet m c) ↔
            (∀ c ∈ newLetters g ((cell, ch) :: rest),
              lmGet needed c + (newLetters g ((cell, ch) :: rest)).count c ≤ lmGet m c) := by
          rw [hnl]
          constructor
          · intro h c hc
            rw [count_cons_char]
            by_cases hcch : c = ch
            · subst hcch
              by_cases hmem : c ∈ newLetters g rest
              · have := h c hmem
                rw [lmGet_lmInc] at this
                simp at this
                simp
                omega
              · rw [List.count_eq_zero.mpr hmem]
                simp
                omega
            · have hc' : c ∈ newLetters g rest := by
                rcases List.mem_cons.mp hc with h1 | h1
                · exact absurd h1 hcch
                · exact h1
              have := h c hc'
              rw [lmGet_lmInc] at this
              simp [hcch] at this
              simp [hcch]
              omega
          · intro h c hc
            rw [lmGet_lmInc]
            have h1 := h c (List.mem_cons_of_mem _ hc)
            rw [count_cons_char] at h1
            by_cases hcch : c = ch
            · subst hcch
              simp at h1 ⊢
              omega
            · simp [hcch] at h1 ⊢
              omega
        have hcomp_iff : (∀ q ∈ rest, cellCompat g q) ↔
            (∀ q ∈ (cell, ch) :: rest, cellCompat g q) := by
          constructor
          · intro h q hq
            rcases List.mem_cons.mp hq with rfl | hq'
            · exact hcompat
            · exact h q hq'
          · intro h q hq
            exact h q (List.mem_cons_of_mem _ hq)
        by_cases hrest : (∀ q ∈ rest, cellCompat g q) ∧
            (∀ c ∈ newLetters g rest,
              lmGet (lmInc needed ch) c + (newLetters g rest).count c ≤ lmGet m c)
        · rw [if_pos hrest, if_pos ⟨hcomp_iff.1 hrest.1, hbud_iff.1 hrest.2⟩, hnl, hicnt]
          simp
        · rw [if_neg hrest, if_neg (fun h => hrest ⟨hcomp_iff.2 h.1, hbud_iff.2 h.2⟩)]
    · -- current cell already holds a letter
      have hnl : newLetters g ((cell, ch) :: rest) = newLetters g rest := by
        simp [newLetters, hcell]
      have hicnt : interCount g ((cell, ch) :: rest) = interCount g rest + 1 := by
        simp [interCount, hcell]
      by_cases hmatch : ex = ch
      · rw [hmatch] at hcell
        have hstep : scanCells g m ((cell, ch) :: rest) needed ic nl
            = scanCells g m rest needed (ic + 1) nl := by
          simp [scanCells, hcell]
        rw [hstep, ih needed (ic + 1) nl hinv]
        have hcompat : cellCompat g (cell, ch) := Or.inr hcell
        have hcomp_iff : (∀ q ∈ rest, cellCompat g q) ↔
            (∀ q ∈ (cell, ch) :: rest, cellCompat g q) := by
          constructor
          · intro h q hq
            rcases List.mem_cons.mp hq with rfl | hq'
            · exact hcompat
            · exact h q hq'
          · intro h q hq
            exact h q (List.mem_cons_of_mem _ hq)
        by_cases hrest : (∀ q ∈ rest, cellCompat g q) ∧
            (∀ c ∈ newLetters g rest,
              lmGet needed c + (newLetters g rest).count c ≤ lmGet m c)
        · rw [if_pos hrest, if_pos ⟨hcomp_iff.1 hrest.1, by simpa [hnl] using hrest.2⟩,
            hnl, hicnt]
          simp [Nat.add_comm, Nat.add_assoc, Nat.add_left_comm]
        · rw [if_neg hrest,
            if_neg (fun h => hrest ⟨hcomp_iff.2 h.1, by simpa [hnl] using h.2⟩)]
      · have hstep : scanCells g m ((cell, ch) :: rest) needed ic nl = none := by
          simp [scanCells, hcell, hmatch]
        have htot : ¬((∀ q ∈ (cell, ch) :: rest, cellCompat g q) ∧
            (∀ c ∈ newLetters g ((cell, ch) :: rest),
              lmGet needed c + (newLetters g ((cell, ch) :: rest)).count c ≤ lmGet m c)) := by
          rintro ⟨hcomp, -⟩
          have h1 := hcomp (cell, ch) (List.mem_cons_self _ _)
          rcases h1 with h1 | h1
          · rw [hcell] at h1
            exact Option.noConfusion h1
          · rw [hcell] at h1
            exact hmatch (Option.some.inj h1)
        rw [hstep, if_neg htot]

/-! ## Characterization of `tryPlaceWord` -/

theorem boundsOK_iff (w : Word) (sr sc : Int) (d : Dir) :
    boundsOK w sr sc d = true ↔ fitsBounds w sr sc d := by
  cases d <;> simp [boundsOK, fitsBounds] <;> omega

theorem guard_none_iff (g : Grid) (P : Prop) [Decidable P] (r c : Nat) :
    ((decide P && (cellAt g r c).isSome) = false) ↔
      (∀ q ∈ (if P then some ((r, c) : Cell) else none), cellAt g q.1 q.2 = none) := by
  by_cases hp : P <;> simp [hp]

theorem extOK_iff (g : Grid) (w : Word) (r0 c0 : Nat) (d : Dir) :
    extOK g w r0 c0 d = true ↔ noExtension g w r0 c0 d := by
  cases d
  · unfold extOK noExtension beforeCell afterCell
    rw [Bool.not_eq_true', Bool.or_eq_false_iff,
      guard_none_iff g (0 < c0) r0 (c0 - 1),
      guard_none_iff g (c0 + w.length < GRID_SIZE) r0 (c0 + w.length)]
  · unfold extOK noExtension beforeCell afterCell
    rw [Bool.not_eq_true', Bool.or_eq_false_iff,
      guard_none_iff g (0 < r0) (r0 - 1) c0,
      guard_none_iff g (r0 + w.length < GRID_SIZE) (r0 + w.length) c0]

/-- `tryPlaceWord` in closed form: it succeeds exactly when the six
preconditions hold, and then returns the canonical placement option. -/
theorem tryPlaceWord_eq (isWord : Word → Bool) (g : Grid) (w : Word)
    (sr sc : Int) (d : Dir) (m : LetterMap) :
    tryPlaceWord isWord g w sr sc d m
      = if placementOK isWord g w sr sc d m
        then some (mkPlacement g w sr sc d)
        else none := by
  have hscan := scanCells_spec g m (coveredCells w sr.toNat sc.toNat d) [] 0 []
    (fun ch => by simp [lmGet])
  have hbud_eq : (∀ ch ∈ newLetters g (coveredCells w sr.toNat sc.toNat d),
      lmGet [] ch + (newLetters g (coveredCells w sr.toNat sc.toNat d)).count ch
        ≤ lmGet m ch) ↔ budgetOK g m (coveredCells w sr.toNat sc.toNat d) := by
    unfold budgetOK
    constructor <;> intro h ch hch <;> have := h ch hch <;> simpa [lmGet] using this
  unfold tryPlaceWord placementOK
  by_cases hb : boundsOK w sr sc d = true
  · rw [hb]
    simp only [Bool.not_true, Bool.false_eq_true, if_false]
    by_cases he : extOK g w sr.toNat sc.toNat d = true
    · rw [he]
      simp only [Bool.not_true, Bool.false_eq_true, if_false]
      rw [hscan]
      by_cases hsc : (∀ p ∈ coveredCells w sr.toNat sc.toNat d, cellCompat g p) ∧
          (∀ ch ∈ newLetters g (coveredCells w sr.toNat sc.toNat d),
            lmGet [] ch + (newLetters g (coveredCells w sr.toNat sc.toNat d)).count ch
              ≤ lmGet m ch)
      · rw [if_pos hsc]
        by_cases hcr : crossingOK g (coveredCells w sr.toNat sc.toNat d)
        · have hcrb : (gridHasLetters g &&
              interCount g (coveredCells w sr.toNat sc.toNat d) == 0) = false := by
            unfold crossingOK at hcr
            cases hgl : gridHasLetters g
            · simp
            · have := hcr hgl
              simp
              omega
          simp only [Nat.zero_add, hcrb, Bool.false_eq_true, if_false]
          by_cases hv : validateAllGridWords isWord (writeWord g w sr.toNat sc.toNat d) = true
          · simp only [hv, Bool.not_true, Bool.false_eq_true, if_false]
            rw [if_pos ⟨(boundsOK_iff w sr sc d).1 hb, (extOK_iff g w _ _ d).1 he,
              hsc.1, hbud_eq.1 hsc.2, hcr, trivial⟩]
            simp [mkPlacement]
          · rw [Bool.not_eq_true] at hv
            simp only [hv, Bool.not_false, if_true]
            rw [if_neg]
            rintro ⟨-, -, -, -, -, h6⟩
            exact Bool.false_ne_true h6
        · have hcrb : (gridHasLetters g &&
              interCount g (coveredCells w sr.toNat sc.toNat d) == 0) = true := by
            unfold crossingOK at hcr
            push_neg at hcr
            obtain ⟨hgl, hic⟩ := hcr
            simp [hgl]
            omega
          simp only [Nat.zero_add, hcrb, if_true]
          rw [if_neg]
          rintro ⟨-, -, -, -, h5, -⟩
          exact hcr h5
      · rw [if_neg hsc, if_neg]
        rintro ⟨-, -, h3, h4, -, -⟩
        exact hsc ⟨h3, hbud_eq.2 h4⟩
    · rw [Bool.not_eq_true] at he
      rw [he]
      simp only [Bool.not_false, if_true]
      rw [if_neg]
      rintro ⟨-, h2, -, -, -, -⟩
      rw [← extOK_iff] at h2
      rw [he] at h2
      exact Bool.false_ne_true h2
  · rw [Bool.not_eq_true] at hb
    rw [hb]
    simp only [Bool.not_false, if_true]
    rw [if_neg]
    rintro ⟨h1, -, -, -, -, -⟩
    rw [← boundsOK_iff] at h1
    rw [hb] at h1
    exact Bool.false_ne_true h1

/-- **C3.** The placement kernel returns a placement option iff all six
preconditions hold — the word fits the 8×8 bounds; the cells immediately
before the start and after the end are empty or off-grid; every covered
cell is empty or already holds the required letter; every letter written
into an empty cell is available in the remaining multiset counting the
multiplicity used within this same placement; on a non-empty grid the
placement overlaps at least one filled cell (no overlap required on an
empty grid); and the grid after a tentative write passes the grid
validator.  On success, `new-letters` lists exactly the letters written
into previously empty cells and `intersection-count` counts the covered
cells that were already filled. -/
theorem tryPlaceWord_correct (isWord : Word → Bool) (g : Grid) (w : Word)
    (sr sc : Int) (d : Dir) (m : LetterMap) :
    ((∃ p, tryPlaceWord isWord g w sr sc d m = some p) ↔
      placementOK isWord g w sr sc d m) ∧
    (∀ p, tryPlaceWord isWord g w sr sc d m = some p →
      p = mkPlacement g w sr sc d) := by
  rw [tryPlaceWord_eq]
  by_cases h : placementOK isWord g w sr sc d m
  · rw [if_pos h]
    exact ⟨⟨fun _ => h, fun _ => ⟨_, rfl⟩⟩, fun p hp => (Option.some.inj hp).symm⟩
  · rw [if_neg h]
    exact ⟨⟨fun ⟨p, hp⟩ => Option.noConfusion hp, fun hh => absurd hh h⟩,
      fun p hp => Option.noConfusion hp⟩

/-- Concrete witness instance for `tryPlaceWord_correct`: placing "cat"
horizontally at (4,2) on the empty grid consumes exactly c, a, t and meets
no intersections. -/
theorem tryPlaceWord_correct_witness :
    ({ word := ['c', 'a', 't'], row := 4, col := 2, direction := Dir.h,
       newLettersUsed := ['c', 'a', 't'], intersectionCount := 0 } : PlacementOption)
      = mkPlacement createEmptyGrid ['c', 'a', 't'] 4 2 Dir.h :=
  (tryPlaceWord_correct (fun _ => true) createEmptyGrid ['c', 'a', 't'] 4 2 Dir.h
    (buildCounts ['c', 'a', 't'])).2 _ (by decide)

/-! ## Grid shape and cell-update lemmas -/

theorem getD_set_lt {α} (l : List α) (i j : Nat) (a dflt : α) (h : i < l.length) :
    (l.set i a).getD j dflt = if j = i then a else l.getD j dflt := by
  rcases eq_or_ne j i with rfl | hne
  · simp [List.getD_eq_getElem?_getD, List.getElem?_set_self, h]
  · simp [List.getD_eq_getElem?_getD, List.getElem?_set_ne hne.symm, hne]

theorem getD_of_le {α} (l : List α) (i : Nat) (dflt : α) (h : l.length ≤ i) :
    l.getD i dflt = dflt := by
  have : l[i]? = none := List.getElem?_eq_none h
  simp [List.getD_eq_getElem?_getD, this]

theorem getD_mem {α} (l : List α) (i : Nat) (dflt : α) (h : i < l.length) :
    l.getD i dflt ∈ l := by
  rw [List.getD_eq_getElem?_getD, List.getElem?_eq_getElem h]
  exact List.getElem_mem h

theorem gridWF_empty : gridWF createEmptyGrid := by
  constructor
  · simp [createEmptyGrid]
  · intro row hrow
    rw [List.eq_of_mem_replicate hrow]
    simp

theorem rowLength_of_WF {g : Grid} (h : gridWF g) {r : Nat} (hr : r < GRID_SIZE) :
    (g.getD r []).length = GRID_SIZE :=
  h.2 _ (getD_mem g r [] (by rw [h.1]; exact hr))

theorem gridWF_setCell {g : Grid} (r c : Nat) (ch : Char) (h : gridWF g) :
    gridWF (setCell g r c ch) := by
  obtain ⟨h1, h2⟩ := h
  by_cases hr : r < g.length
  · refine ⟨by simpa [setCell] using h1, ?_⟩
    intro row hrow
    rcases List.mem_or_eq_of_mem_set hrow with hmem | rfl
    · exact h2 row hmem
    · rw [List.length_set]
      exact h2 _ (getD_mem g r [] hr)
  · unfold setCell
    rw [List.set_eq_of_length_le (by omega)]
    exact ⟨h1, h2⟩

theorem cellAt_setCell {g : Grid} (h : gridWF g) {r c : Nat} (ch : Char)
    (hr : r < GRID_SIZE) (hc : c < GRID_SIZE) (r' c' : Nat) :
    cellAt (setCell g r c ch) r' c'
      = if r' = r ∧ c' = c then some ch else cellAt g r' c' := by
  have hrl : r < g.length := by
    rw [h.1]
    exact hr
  have hcl : c < (g.getD r []).length := by
    rw [rowLength_of_WF h hr]
    exact hc
  unfold cellAt setCell
  rw [getD_set_lt _ _ _ _ _ hrl]
  by_cases hrr : r' = r
  · subst hrr
    rw [if_pos rfl, getD_set_lt _ _ _ _ _ hcl]
    by_cases hcc : c' = c
    · simp [hcc]
    · simp [hcc]
  · simp [hrr]

theorem cellAt_oob {g : Grid} (h : gridWF g) {r c : Nat}
    (hb : GRID_SIZE ≤ r ∨ GRID_SIZE ≤ c) : cellAt g r c = none := by
  unfold cellAt
  rcases hb with hb | hb
  · rw [getD_of_le g r [] (by rw [h.1]; exact hb)]
    simp
  · by_cases hr : r < GRID_SIZE
    · rw [getD_of_le _ c none (by rw [rowLength_of_WF h hr]; exact hb)]
    · rw [getD_of_le g r [] (by rw [h.1]; omega)]
      simp

theorem setCell_same {g : Grid} (h : gridWF g) {r c : Nat} {ch : Char}
    (hr : r < GRID_SIZE) (hc : c < GRID_SIZE)
    (hcell : cellAt g r c = some ch) : setCell g r c ch = g := by
  have hrl : r < g.length := by
    rw [h.1]
    exact hr
  have hcl : c < (g.getD r []).length := by
    rw [rowLength_of_WF h hr]
    exact hc
  unfold setCell
  have hrow : (g.getD r []).set c (some ch) = g.getD r [] := by
    apply List.ext_getElem?
    intro j
    rcases eq_or_ne j c with rfl | hne
    · rw [List.getElem?_set_self hcl, List.getElem?_eq_getElem hcl]
      unfold cellAt at hcell
      rw [List.getD_eq_getElem?_getD, List.getElem?_eq_getElem hcl] at hcell
      simp at hcell
      simp [hcell]
    · rw [List.getElem?_set_ne hne.symm]
  rw [hrow]
  apply List.ext_getElem?
  intro i
  rcases eq_or_ne i r with rfl | hne
  · rw [List.getElem?_set_self hrl, List.getElem?_eq_getElem hrl]
    rw [List.getD_eq_getElem?_getD, List.getElem?_eq_getElem hrl]
    simp
  · rw [List.getElem?_set_ne hne.symm]

theorem cellAt_eq_getElem {g : Grid} {r c : Nat} (hr : r < g.length)
    (hc : c < (g[r]).length) : cellAt g r c = (g[r])[c] := by
  unfold cellAt
  have h1 : List.getD g r [] = g[r] := by
    rw [List.getD_eq_getElem?_getD, List.getElem?_eq_getElem hr]
    rfl
  rw [h1, List.getD_eq_getElem?_getD, List.getElem?_eq_getElem hc]
  rfl

theorem mem_filledCellsOf {g : Grid} {q : Cell} {ch : Char} :
    (q, ch) ∈ filledCellsOf g ↔
      q.1 < GRID_SIZE ∧ q.2 < GRID_SIZE ∧ cellAt g q.1 q.2 = some ch := by
  obtain ⟨r, c⟩ := q
  simp only [filledCellsOf, List.mem_flatMap, List.mem_filterMap, List.mem_range,
    Option.map_eq_some']
  constructor
  · rintro ⟨r', hr', c', hc', ch0, hcell, heq⟩
    simp only [Prod.mk.injEq] at heq
    obtain ⟨⟨rfl, rfl⟩, rfl⟩ := heq
    exact ⟨hr', hc', hcell⟩
  · rintro ⟨h1, h2, h3⟩
    exact ⟨r, h1, c, h2, ch, h3, rfl⟩

theorem filledAt_iff_mem {g : Grid} (hWF : gridWF g) {q : Cell} :
    filledAt g q ↔ ∃ ch, (q, ch) ∈ filledCellsOf g := by
  unfold filledAt
  constructor
  · intro h
    rcases Option.isSome_iff_exists.mp h with ⟨ch, hch⟩
    by_cases hb : q.1 < GRID_SIZE ∧ q.2 < GRID_SIZE
    · exact ⟨ch, mem_filledCellsOf.mpr ⟨hb.1, hb.2, hch⟩⟩
    · rw [cellAt_oob hWF (by omega)] at hch
      cases hch
  · rintro ⟨ch, hch⟩
    rw [(mem_filledCellsOf.mp hch).2.2]
    rfl

theorem gridHasLetters_false {g : Grid} (hWF : gridWF g)
    (h : gridHasLetters g = false) : ∀ q, ¬filledAt g q := by
  intro q hq
  unfold gridHasLetters at h
  rw [List.any_eq_false] at h
  by_cases hb : q.1 < GRID_SIZE ∧ q.2 < GRID_SIZE
  · have hrl : q.1 < g.length := by
      rw [hWF.1]
      omega
    have hrow_mem : g[q.1] ∈ g := List.getElem_mem hrl
    have hany := h _ hrow_mem
    have hcl : q.2 < (g[q.1]).length := by
      rw [hWF.2 _ hrow_mem]
      omega
    apply hany
    rw [List.any_eq_true]
    refine ⟨(g[q.1])[q.2], List.getElem_mem hcl, ?_⟩
    unfold filledAt at hq
    rw [cellAt_eq_getElem hrl hcl] at hq
    exact hq
  · unfold filledAt at hq
    rw [cellAt_oob hWF (by omega)] at hq
    cases hq

theorem interCount_pos_iff {g : Grid} {cl : List (Cell × Char)} :
    0 < interCount g cl ↔ ∃ p ∈ cl, (cellAt g p.1.1 p.1.2).isSome = true := by
  unfold interCount
  rw [← List.countP_eq_length_filter]
  exact List.countP_pos_iff

/-! ## Covered-cell geometry -/

theorem coveredCells_map_fst (w : Word) (r0 c0 : Nat) (d : Dir) :
    (coveredCells w r0 c0 d).map (·.1)
      = (List.range w.length).map (cellOfIndex r0 c0 d) := by
  unfold coveredCells
  rw [List.map_map]
  have : ((·.1) ∘ fun p : Nat × Char => (cellOfIndex r0 c0 d p.1, p.2))
      = (cellOfIndex r0 c0 d) ∘ Prod.fst := rfl
  rw [this, ← List.map_map, List.enum_map_fst]

theorem cellOfIndex_injective (r0 c0 : Nat) (d : Dir) :
    Function.Injective (cellOfIndex r0 c0 d) := by
  intro i j h
  cases d <;> simp [cellOfIndex, Prod.ext_iff] at h <;> omega

theorem coveredCells_nodup_fst (w : Word) (r0 c0 : Nat) (d : Dir) :
    ((coveredCells w r0 c0 d).map (·.1)).Nodup := by
  rw [coveredCells_map_fst]
  exact (List.nodup_range _).map (cellOfIndex_injective r0 c0 d)

theorem coveredCells_bounds {w : Word} {sr sc : Int} {d : Dir}
    (hfit : fitsBounds w sr sc d) :
    ∀ p ∈ coveredCells w sr.toNat sc.toNat d,
      p.1.1 < GRID_SIZE ∧ p.1.2 < GRID_SIZE := by
  intro p hp
  unfold coveredCells at hp
  rcases List.mem_map.mp hp with ⟨⟨i, ch⟩, hmem, rfl⟩
  have hi : i < w.length := List.fst_lt_of_mem_enum hmem
  cases d <;>
    · obtain ⟨b1, b2, b3, b4⟩ := hfit
      simp only [cellOfIndex]
      unfold GRID_SIZE at *
      omega

/-! ## Writing word cells onto the grid -/

theorem gridWF_foldl_setCell (cl : List (Cell × Char)) (g : Grid) (h : gridWF g) :
    gridWF (cl.foldl (fun acc p => setCell acc p.1.1 p.1.2 p.2) g) := by
  induction cl generalizing g with
  | nil => exact h
  | cons p rest ih => exact ih _ (gridWF_setCell _ _ _ h)

theorem cellAt_foldl_setCell (cl : List (Cell × Char)) (g : Grid) (hWF : gridWF g)
    (hb : ∀ p ∈ cl, p.1.1 < GRID_SIZE ∧ p.1.2 < GRID_SIZE)
    (hnd : (cl.map (·.1)).Nodup) (r c : Nat) :
    cellAt (cl.foldl (fun acc p => setCell acc p.1.1 p.1.2 p.2) g) r c
      = match cl.find? (fun p => p.1 == ((r, c) : Cell)) with
        | some p => some p.2
        | none => cellAt g r c := by
  induction cl generalizing g with
  | nil => simp
  | cons p rest ih =>
    obtain ⟨⟨pr, pc⟩, ch⟩ := p
    have hbp := hb _ (List.mem_cons_self _ _)
    simp only [List.foldl_cons]
    have hWF2 := gridWF_setCell pr pc ch hWF
    have hb2 : ∀ q ∈ rest, q.1.1 < GRID_SIZE ∧ q.1.2 < GRID_SIZE :=
      fun q hq => hb q (List.mem_cons_of_mem _ hq)
    have hndrest : (rest.map (·.1)).Nodup := (List.nodup_cons.mp (by simpa using hnd)).2
    have hnotin : ((pr, pc) : Cell) ∉ rest.map (·.1) :=
      (List.nodup_cons.mp (by simpa using hnd)).1
    rw [ih _ hWF2 hb2 hndrest]
    by_cases hk : ((pr, pc) : Cell) = ((r, c) : Cell)
    · have hrestnone : rest.find? (fun q => q.1 == ((r, c) : Cell)) = none := by
        rw [List.find?_eq_none]
        intro q hq hbeq
        apply hnotin
        rw [hk]
        have : q.1 = ((r, c) : Cell) := by simpa using hbeq
        rw [← this]
        exact List.mem_map_of_mem _ hq
      rw [hrestnone, List.find?_cons_of_pos _ (by simpa using hk)]
      rw [cellAt_setCell hWF ch hbp.1 hbp.2]
      have : r = pr ∧ c = pc := by
        have := Prod.mk.injEq pr pc r c ▸ hk
        simp at this
        exact ⟨this.1.symm, this.2.symm⟩
      simp [this]
    · rw [List.find?_cons_of_neg _ (by simpa using hk)]
      cases hfind : rest.find? (fun q => q.1 == ((r, c) : Cell)) with
      | some q => rfl
      | none =>
        rw [cellAt_setCell hWF ch hbp.1 hbp.2]
        rw [if_neg]
        rintro ⟨rfl, rfl⟩
        exact hk rfl

/-! ## Counting filled cells -/

theorem sum_map_range_update (n : Nat) (f g : Nat → Nat) (i : Nat) (hi : i < n)
    (k : Nat) (hsame : ∀ j, j ≠ i → g j = f j) (hdelta : g i = f i + k) :
    ((List.range n).map g).sum = ((List.range n).map f).sum + k := by
  induction n with
  | zero => omega
  | succ n ih =>
    rw [List.range_succ, List.map_append, List.map_append, List.sum_append,
      List.sum_append]
    rcases eq_or_ne i n with rfl | hne
    · have heq : (List.range i).map g = (List.range i).map f := by
        apply List.map_congr_left
        intro j hj
        simp only [List.mem_range] at hj
        exact hsame j (by omega)
      rw [heq]
      simp only [List.map_cons, List.map_nil, List.sum_cons, List.sum_nil]
      omega
    · rw [ih (by omega)]
      simp only [List.map_cons, List.map_nil, List.sum_cons, List.sum_nil]
      rw [hsame n hne.symm]
      omega

theorem countP_flatMap {α β} (l : List α) (f : α → List β) (p : β → Bool) :
    ((l.flatMap f).countP p) = (l.map (fun x => (f x).countP p)).sum := by
  induction l with
  | nil => simp
  | cons a t ih => simp [List.flatMap_cons, List.countP_append, ih]

theorem countP_filterMap {α β} (l : List α) (f : α → Option β) (p : β → Bool) :
    ((l.filterMap f).countP p)
      = (l.map (fun x =>
          match f x with
          | some b => if p b then 1 else 0
          | none => 0)).sum := by
  induction l with
  | nil => simp
  | cons a t ih =>
    cases hfa : f a with
    | none => simp [List.filterMap_cons, hfa, ih]
    | some b =>
      simp only [List.filterMap_cons, hfa, List.countP_cons, List.map_cons,
        List.sum_cons, ih]
      by_cases hb : p b
      · simp [hb]
        omega
      · simp [hb]

theorem filledCellsOf_eq_flatMap (g : Grid) :
    filledCellsOf g = (List.range GRID_SIZE).flatMap (rowSeg g) := rfl

theorem gridCount_eq_sum (g : Grid) (ch : Char) :
    gridCount g ch
      = ((List.range GRID_SIZE).map
          (fun r => ((List.range GRID_SIZE).map (cellInd g ch r)).sum)).sum := by
  unfold gridCount
  rw [← List.countP_eq_length_filter, filledCellsOf_eq_flatMap, countP_flatMap]
  congr 1
  apply List.map_congr_left
  intro r _
  unfold rowSeg
  rw [countP_filterMap]
  congr 1
  apply List.map_congr_left
  intro c _
  cases hcell : cellAt g r c with
  | none => simp [cellInd, hcell]
  | some ch0 =>
    simp only [cellInd, hcell, Option.map_some']
    by_cases h : ch0 = ch
    · simp [h]
    · simp [h]

theorem gridCount_setCell_empty {g : Grid} (hWF : gridWF g) {r c : Nat}
    (hr : r < GRID_SIZE) (hc : c < GRID_SIZE) (hcell : cellAt g r c = none)
    (ch0 ch : Char) :
    gridCount (setCell g r c ch0) ch
      = gridCount g ch + (if ch0 = ch then 1 else 0) := by
  rw [gridCount_eq_sum, gridCount_eq_sum]
  refine sum_map_range_update GRID_SIZE
    (fun r' => ((List.range GRID_SIZE).map (cellInd g ch r')).sum)
    (fun r' => ((List.range GRID_SIZE).map (cellInd (setCell g r c ch0) ch r')).sum)
    r hr (if ch0 = ch then 1 else 0) ?_ ?_
  · intro j hj
    dsimp only
    congr 1
    apply List.map_congr_left
    intro c' _
    unfold cellInd
    have hcc : cellAt (setCell g r c ch0) j c' = cellAt g j c' := by
      rw [cellAt_setCell hWF ch0 hr hc]
      exact if_neg (fun hh => hj hh.1)
    rw [hcc]
  · refine sum_map_range_update GRID_SIZE
      (fun c' => cellInd g ch r c')
      (fun c' => cellInd (setCell g r c ch0) ch r c')
      c hc (if ch0 = ch then 1 else 0) ?_ ?_
    · intro j hj
      dsimp only
      unfold cellInd
      have hcc : cellAt (setCell g r c ch0) r j = cellAt g r j := by
        rw [cellAt_setCell hWF ch0 hr hc]
        exact if_neg (fun hh => hj hh.2)
      rw [hcc]
    · dsimp only
      unfold cellInd
      have hcc : cellAt (setCell g r c ch0) r c = some ch0 := by
        rw [cellAt_setCell hWF ch0 hr hc]
        exact if_pos ⟨rfl, rfl⟩
      rw [hcc, hcell]
      by_cases h : ch0 = ch
      · simp [h]
      · simp [h]

/-! ## Letter-map bookkeeping -/

theorem mem_lmSet {m : LetterMap} {c : Char} {n : Nat} {p : Char × Nat}
    (h : p ∈ lmSet m c n) : p = (c, n) ∨ p ∈ m := by
  induction m with
  | nil => simpa [lmSet] using h
  | cons q rest ih =>
    unfold lmSet at h
    by_cases hq : q.1 == c
    · rw [if_pos hq] at h
      rcases List.mem_cons.mp h with rfl | h2
      · exact Or.inl rfl
      · exact Or.inr (List.mem_cons_of_mem _ h2)
    · rw [if_neg (by simpa using hq)] at h
      rcases List.mem_cons.mp h with rfl | h2
      · exact Or.inr (List.mem_cons_self _ _)
      · rcases ih h2 with h3 | h3
        · exact Or.inl h3
        · exact Or.inr (List.mem_cons_of_mem _ h3)

theorem lmGet_pos_mem_keys {m : LetterMap} {c : Char} (h : 0 < lmGet m c) :
    c ∈ m.map (·.1) := by
  unfold lmGet at h
  cases hf : m.find? (fun p => p.1 == c) with
  | none => rw [hf] at h; cases h
  | some p =>
    have hp := List.find?_some hf
    have hmem := List.mem_of_find?_eq_some hf
    have : p.1 = c := by simpa using hp
    rw [← this]
    exact List.mem_map_of_mem _ hmem

theorem lmGet_lmDelete (m : LetterMap) (c x : Char) :
    lmGet (lmDelete m c) x = if x = c then 0 else lmGet m x := by
  induction m with
  | nil => simp [lmDelete, lmGet]
  | cons p rest ih =>
    unfold lmDelete at ih ⊢
    by_cases hpc : p.1 == c
    · rw [List.filter_cons_of_neg (by simpa using hpc)]
      rw [ih]
      by_cases hxc : x = c
      · simp [hxc]
      · rw [if_neg hxc, if_neg hxc, lmGet_cons]
        have : (p.1 == x) = false := by
          have h1 : p.1 = c := by simpa using hpc
          simp [h1]
          exact fun hh => hxc hh.symm
        rw [this]
        simp
    · rw [List.filter_cons_of_pos (by simpa using hpc)]
      rw [lmGet_cons, lmGet_cons, ih]
      by_cases hpx : p.1 == x
      · have hxc : ¬(x = c) := by
          intro hh
          rw [hh] at hpx
          exact absurd hpx (by simpa using hpc)
        simp [hpx, hxc]
      · simp [hpx]

theorem lmGet_lmDec (m : LetterMap) (c x : Char) :
    lmGet (lmDec m c) x = if x = c then lmGet m c - 1 else lmGet m x := by
  unfold lmDec
  by_cases h : lmGet m c ≤ 1
  · rw [if_pos h, lmGet_lmDelete]
    by_cases hxc : x = c
    · simp [hxc]
      omega
    · simp [hxc]
  · rw [if_neg h, lmGet_lmSet]

theorem lmGet_subtractLetters (ls : List Char) :
    ∀ (m : LetterMap), (∀ ch, ls.count ch ≤ lmGet m ch) →
    ∀ x, lmGet (subtractLetters m ls) x = lmGet m x - ls.count x := by
  induction ls with
  | nil =>
    intro m _ x
    simp [subtractLetters]
  | cons c rest ih =>
    intro m hbud x
    have hstep : subtractLetters m (c :: rest) = subtractLetters (lmDec m c) rest := rfl
    have hcnt : ∀ ch, rest.count ch ≤ lmGet (lmDec m c) ch := by
      intro ch
      rw [lmGet_lmDec]
      have := hbud ch
      rw [count_cons_char] at this
      by_cases hch : ch = c
      · subst hch
        simp at this
        simp
        omega
      · simp [hch] at this
        simp [hch]
        exact this
    rw [hstep, ih (lmDec m c) hcnt x, lmGet_lmDec]
    have := hbud x
    rw [count_cons_char] at this
    rw [count_cons_char]
    by_cases hx : x = c
    · subst hx
      simp at this ⊢
      omega
    · simp [hx]

theorem lmDec_values_pos {m : LetterMap} (c : Char)
    (h : ∀ p ∈ m, 1 ≤ p.2) : ∀ p ∈ lmDec m c, 1 ≤ p.2 := by
  intro p hp
  unfold lmDec at hp
  by_cases hle : lmGet m c ≤ 1
  · rw [if_pos hle] at hp
    exact h p (List.mem_of_mem_filter hp)
  · rw [if_neg hle] at hp
    rcases mem_lmSet hp with rfl | hp2
    · simp
      omega
    · exact h p hp2

theorem lmDec_keys {m : LetterMap} (c : Char) :
    ∀ p ∈ lmDec m c, p.1 ∈ m.map (·.1) := by
  intro p hp
  unfold lmDec at hp
  by_cases hle : lmGet m c ≤ 1
  · rw [if_pos hle] at hp
    exact List.mem_map_of_mem _ (List.mem_of_mem_filter hp)
  · rw [if_neg hle] at hp
    rcases mem_lmSet hp with rfl | hp2
    · show c ∈ m.map (·.1)
      exact lmGet_pos_mem_keys (by omega)
    · exact List.mem_map_of_mem _ hp2

theorem subtractLetters_values_pos {m : LetterMap} (ls : List Char)
    (h : ∀ p ∈ m, 1 ≤ p.2) : ∀ p ∈ subtractLetters m ls, 1 ≤ p.2 := by
  induction ls generalizing m with
  | nil => exact h
  | cons c rest ih => exact ih (lmDec_values_pos c h)

theorem subtractLetters_keys {m : LetterMap} (ls : List Char) :
    ∀ p ∈ subtractLetters m ls, p.1 ∈ m.map (·.1) := by
  induction ls generalizing m with
  | nil =>
    intro p hp
    exact List.mem_map_of_mem _ hp
  | cons c rest ih =>
    intro p hp
    have h2 := ih (m := lmDec m c) p hp
    rcases List.mem_map.mp h2 with ⟨q, hq, hq2⟩
    rw [← hq2]
    exact lmDec_keys c q hq

theorem lmGet_foldl_lmInc (chars : List Char) :
    ∀ (m : LetterMap) (x : Char),
      lmGet (chars.foldl lmInc m) x = lmGet m x + chars.count x := by
  induction chars with
  | nil =>
    intro m x
    simp
  | cons c rest ih =>
    intro m x
    have hstep : (c :: rest).foldl lmInc m = rest.foldl lmInc (lmInc m c) := rfl
    rw [hstep, ih, lmGet_lmInc, count_cons_char]
    by_cases hx : x = c
    · simp [hx]
      omega
    · simp [hx]

theorem lmGet_buildCounts (chars : List Char) (x : Char) :
    lmGet (buildCounts chars) x = chars.count x := by
  unfold buildCounts
  rw [lmGet_foldl_lmInc]
  simp [lmGet]

theorem buildCounts_values_pos (chars : List Char) :
    ∀ p ∈ buildCounts chars, 1 ≤ p.2 := by
  have gen : ∀ (cs : List Char) (m : LetterMap), (∀ p ∈ m, 1 ≤ p.2) →
      ∀ p ∈ cs.foldl lmInc m, 1 ≤ p.2 := by
    intro cs
    induction cs with
    | nil => intro m h; exact h
    | cons c rest ih =>
      intro m h
      apply ih
      intro p hp
      rcases mem_lmSet hp with rfl | hp2
      · simp
      · exact h p hp2
  exact gen chars [] (by simp)

theorem buildCounts_keys (chars : List Char) :
    ∀ p ∈ buildCounts chars, p.1 ∈ chars := by
  have gen : ∀ (cs : List Char) (m : LetterMap), (∀ p ∈ m, p.1 ∈ chars) →
      (∀ c ∈ cs, c ∈ chars) → ∀ p ∈ cs.foldl lmInc m, p.1 ∈ chars := by
    intro cs
    induction cs with
    | nil => intro m h _; exact h
    | cons c rest ih =>
      intro m h hcs
      apply ih
      · intro p hp
        rcases mem_lmSet hp with rfl | hp2
        · exact hcs c (List.mem_cons_self _ _)
        · exact h p hp2
      · intro c2 hc2
        exact hcs c2 (List.mem_cons_of_mem _ hc2)
  exact gen chars [] (by simp) (fun c hc => hc)

theorem lmGet_of_isEmpty {m : LetterMap} (h : m.isEmpty = true) (x : Char) :
    lmGet m x = 0 := by
  rw [List.isEmpty_iff.mp h]
  simp [lmGet]

/-! ## Effect of writing a word -/

theorem gridWF_writeWord {g : Grid} (hWF : gridWF g) (w : Word)
    (r0 c0 : Nat) (d : Dir) : gridWF (writeWord g w r0 c0 d) :=
  gridWF_foldl_setCell _ g hWF

theorem cellAt_writeWord {g : Grid} (hWF : gridWF g) {w : Word} {sr sc : Int}
    {d : Dir} (hfit : fitsBounds w sr sc d) (r c : Nat) :
    cellAt (writeWord g w sr.toNat sc.toNat d) r c
      = match (coveredCells w sr.toNat sc.toNat d).find?
            (fun p => p.1 == ((r, c) : Cell)) with
        | some p => some p.2
        | none => cellAt g r c := by
  unfold writeWord
  exact cellAt_foldl_setCell _ g hWF (coveredCells_bounds hfit)
    (coveredCells_nodup_fst _ _ _ _) r c

theorem filledAt_writeWord_iff {g : Grid} (hWF : gridWF g) {w : Word}
    {sr sc : Int} {d : Dir} (hfit : fitsBounds w sr sc d) (q : Cell) :
    filledAt (writeWord g w sr.toNat sc.toNat d) q ↔
      filledAt g q ∨ q ∈ (coveredCells w sr.toNat sc.toNat d).map (·.1) := by
  unfold filledAt
  obtain ⟨r, c⟩ := q
  rw [cellAt_writeWord hWF hfit]
  cases hf : (coveredCells w sr.toNat sc.toNat d).find?
      (fun p => p.1 == ((r, c) : Cell)) with
  | some p =>
    simp only [Option.isSome_some, true_iff]
    right
    have hmem := List.mem_of_find?_eq_some hf
    have hpq : p.1 = ((r, c) : Cell) := by simpa using List.find?_some hf
    rw [← hpq]
    exact List.mem_map_of_mem _ hmem
  | none =>
    constructor
    · intro h
      exact Or.inl h
    · rintro (h | h)
      · exact h
      · exfalso
        rcases List.mem_map.mp h with ⟨p, hp, hpq⟩
        have := List.find?_eq_none.mp hf p hp
        apply this
        simp [hpq]

theorem filledAt_writeWord_mono {g : Grid} (hWF : gridWF g) {w : Word}
    {sr sc : Int} {d : Dir} (hfit : fitsBounds w sr sc d) (q : Cell)
    (h : filledAt g q) : filledAt (writeWord g w sr.toNat sc.toNat d) q :=
  (filledAt_writeWord_iff hWF hfit q).mpr (Or.inl h)

theorem newLetters_congr {g1 g2 : Grid} (cl : List (Cell × Char))
    (h : ∀ p ∈ cl, cellAt g1 p.1.1 p.1.2 = cellAt g2 p.1.1 p.1.2) :
    newLetters g1 cl = newLetters g2 cl := by
  unfold newLetters
  congr 1
  apply List.filter_congr
  intro p hp
  rw [h p hp]

theorem gridCount_foldl_setCell :
    ∀ (cl : List (Cell × Char)) (g : Grid), gridWF g →
      (∀ p ∈ cl, p.1.1 < GRID_SIZE ∧ p.1.2 < GRID_SIZE) →
      (∀ p ∈ cl, cellCompat g p) →
      ((cl.map (·.1)).Nodup) →
      ∀ ch, gridCount (cl.foldl (fun acc p => setCell acc p.1.1 p.1.2 p.2) g) ch
        = gridCount g ch + (newLetters g cl).count ch := by
  intro cl
  induction cl with
  | nil =>
    intro g _ _ _ _ ch
    simp [newLetters]
  | cons p rest ih =>
    intro g hWF hb hcompat hnd ch
    obtain ⟨q, c0⟩ := p
    have hbp := hb _ (List.mem_cons_self _ _)
    have hb2 : ∀ x ∈ rest, x.1.1 < GRID_SIZE ∧ x.1.2 < GRID_SIZE :=
      fun x hx => hb x (List.mem_cons_of_mem _ hx)
    have hndrest : (rest.map (·.1)).Nodup := (List.nodup_cons.mp (by simpa using hnd)).2
    have hnotin : q ∉ rest.map (·.1) := (List.nodup_cons.mp (by simpa using hnd)).1
    rcases hcompat _ (List.mem_cons_self _ _) with hempty | hfillsame
    · -- cell empty: one new letter is written
      simp only [List.foldl_cons]
      have hWF2 := gridWF_setCell q.1 q.2 c0 hWF
      have hcells_same : ∀ x ∈ rest, cellAt (setCell g q.1 q.2 c0) x.1.1 x.1.2
          = cellAt g x.1.1 x.1.2 := by
        intro x hx
        rw [cellAt_setCell hWF c0 hbp.1 hbp.2]
        rw [if_neg]
        rintro ⟨h1, h2⟩
        apply hnotin
        have hx1 : x.1 = q := Prod.ext_iff.mpr ⟨h1, h2⟩
        rw [← hx1]
        exact List.mem_map_of_mem _ hx
      have hcompat2 : ∀ x ∈ rest, cellCompat (setCell g q.1 q.2 c0) x := by
        intro x hx
        unfold cellCompat
        rw [hcells_same x hx]
        exact hcompat x (List.mem_cons_of_mem _ hx)
      rw [ih _ hWF2 hb2 hcompat2 hndrest ch]
      rw [newLetters_congr rest hcells_same]
      have hsetcount := gridCount_setCell_empty hWF hbp.1 hbp.2 hempty c0 ch
      rw [hsetcount]
      have hnlcons : newLetters g ((q, c0) :: rest) = c0 :: newLetters g rest := by
        simp [newLetters, hempty]
      rw [hnlcons, count_cons_char]
      by_cases hcc : ch = c0
      · subst hcc
        simp
        omega
      · have : ¬(c0 = ch) := fun hh => hcc hh.symm
        simp [hcc, this]
    · -- cell already holds the letter: the write is a no-op
      simp only [List.foldl_cons]
      rw [setCell_same hWF hbp.1 hbp.2 hfillsame]
      rw [ih _ hWF hb2 (fun x hx => hcompat x (List.mem_cons_of_mem _ hx)) hndrest ch]
      have hnlcons : newLetters g ((q, c0) :: rest) = newLetters g rest := by
        simp [newLetters, hfillsame]
      rw [hnlcons]

theorem gridCount_writeWord {isWord : Word → Bool} {g : Grid} {w : Word}
    {sr sc : Int} {d : Dir} {m : LetterMap} (hWF : gridWF g)
    (hOK : placementOK isWord g w sr sc d m) (ch : Char) :
    gridCount (writeWord g w sr.toNat sc.toNat d) ch
      = gridCount g ch
        + (newLetters g (coveredCells w sr.toNat sc.toNat d)).count ch := by
  unfold writeWord
  exact gridCount_foldl_setCell _ g hWF (coveredCells_bounds hOK.1)
    hOK.2.2.1 (coveredCells_nodup_fst _ _ _ _) ch

/-! ## Connectivity of the filled cells -/

theorem cellAdj_symm {a b : Cell} (h : cellAdj a b) : cellAdj b a := by
  unfold cellAdj at h ⊢
  rcases h with ⟨h1, h2⟩ | ⟨h1, h2⟩
  · exact Or.inl ⟨h1.symm, h2.symm⟩
  · exact Or.inr ⟨h1.symm, h2.symm⟩

theorem stepIn_symm (g : Grid) : Symmetric (stepIn g) := by
  rintro a b ⟨h1, h2, h3⟩
  exact ⟨h2, h1, cellAdj_symm h3⟩

theorem rtg_stepIn_symm {g : Grid} {a b : Cell}
    (h : Relation.ReflTransGen (stepIn g) a b) :
    Relation.ReflTransGen (stepIn g) b a :=
  (Relation.ReflTransGen.symmetric (stepIn_symm g)) h

theorem rtg_stepIn_mono {g1 g2 : Grid}
    (hsub : ∀ q, filledAt g1 q → filledAt g2 q) {a b : Cell}
    (h : Relation.ReflTransGen (stepIn g1) a b) :
    Relation.ReflTransGen (stepIn g2) a b := by
  refine Relation.ReflTransGen.mono ?_ h
  rintro x y ⟨h1, h2, h3⟩
  exact ⟨hsub x h1, hsub y h2, h3⟩

theorem cellOfIndex_adj (r0 c0 : Nat) (d : Dir) (i : Nat) :
    cellAdj (cellOfIndex r0 c0 d i) (cellOfIndex r0 c0 d (i + 1)) := by
  cases d
  · exact Or.inl ⟨rfl, Or.inl (by simp [cellOfIndex]; omega)⟩
  · exact Or.inr ⟨rfl, Or.inl (by simp [cellOfIndex]; omega)⟩

theorem mem_covered_cells_iff {w : Word} {r0 c0 : Nat} {d : Dir} {q : Cell} :
    q ∈ (coveredCells w r0 c0 d).map (·.1) ↔
      ∃ i, i < w.length ∧ q = cellOfIndex r0 c0 d i := by
  rw [coveredCells_map_fst]
  simp only [List.mem_map, List.mem_range]
  constructor
  · rintro ⟨i, hi, rfl⟩
    exact ⟨i, hi, rfl⟩
  · rintro ⟨i, hi, rfl⟩
    exact ⟨i, hi, rfl⟩

theorem segment_path {G : Grid} {w : Word} {r0 c0 : Nat} {d : Dir}
    (hfill : ∀ q ∈ (coveredCells w r0 c0 d).map (·.1), filledAt G q) :
    ∀ i j, i < w.length → j < w.length →
      Relation.ReflTransGen (stepIn G) (cellOfIndex r0 c0 d i)
        (cellOfIndex r0 c0 d j) := by
  have fwd : ∀ i j, i ≤ j → j < w.length →
      Relation.ReflTransGen (stepIn G) (cellOfIndex r0 c0 d i)
        (cellOfIndex r0 c0 d j) := by
    intro i j hij hj
    induction j, hij using Nat.le_induction with
    | base => exact Relation.ReflTransGen.refl
    | succ k hk ihk =>
      refine Relation.ReflTransGen.tail (ihk (by omega)) ?_
      refine ⟨?_, ?_, cellOfIndex_adj r0 c0 d k⟩
      · exact hfill _ (mem_covered_cells_iff.mpr ⟨k, by omega, rfl⟩)
      · exact hfill _ (mem_covered_cells_iff.mpr ⟨k + 1, by omega, rfl⟩)
  intro i j hi hj
  rcases Nat.le_total i j with h | h
  · exact fwd i j h hj
  · exact rtg_stepIn_symm (fwd j i h hi)

theorem ConnGrid_writeWord {isWord : Word → Bool} {g : Grid} {w : Word}
    {sr sc : Int} {d : Dir} {m : LetterMap} (hWF : gridWF g)
    (hconn : ConnGrid g) (hOK : placementOK isWord g w sr sc d m) :
    ConnGrid (writeWord g w sr.toNat sc.toNat d) := by
  obtain ⟨hfit, _, _, _, hcross, _⟩ := hOK
  set G := writeWord g w sr.toNat sc.toNat d with hG
  have hcovfill : ∀ q ∈ (coveredCells w sr.toNat sc.toNat d).map (·.1), filledAt G q :=
    fun q hq => (filledAt_writeWord_iff hWF hfit q).mpr (Or.inr hq)
  have hmono : ∀ q, filledAt g q → filledAt G q :=
    fun q hq => filledAt_writeWord_mono hWF hfit q hq
  intro a b ha hb
  rcases (filledAt_writeWord_iff hWF hfit a).mp ha with haold | hacov
  · rcases (filledAt_writeWord_iff hWF hfit b).mp hb with hbold | hbcov
    · -- both cells predate the placement
      exact rtg_stepIn_mono hmono (hconn a b haold hbold)
    · -- a old, b covered: route through an intersection cell
      by_cases hgl : gridHasLetters g = true
      · rcases interCount_pos_iff.mp (hcross hgl) with ⟨p, hp, hpfill⟩
        have hx0cov : p.1 ∈ (coveredCells w sr.toNat sc.toNat d).map (·.1) :=
          List.mem_map_of_mem _ hp
        rcases mem_covered_cells_iff.mp hx0cov with ⟨ip, hip, hx0⟩
        rcases mem_covered_cells_iff.mp hbcov with ⟨ib, hib, rfl⟩
        have h1 : Relation.ReflTransGen (stepIn G) a p.1 :=
          rtg_stepIn_mono hmono (hconn a p.1 haold hpfill)
        have h2 : Relation.ReflTransGen (stepIn G) p.1
            (cellOfIndex sr.toNat sc.toNat d ib) := by
          rw [hx0]
          exact segment_path hcovfill ip ib hip hib
        exact h1.trans h2
      · exact absurd haold (gridHasLetters_false hWF (by simpa using hgl) a)
  · rcases (filledAt_writeWord_iff hWF hfit b).mp hb with hbold | hbcov
    · -- a covered, b old
      by_cases hgl : gridHasLetters g = true
      · rcases interCount_pos_iff.mp (hcross hgl) with ⟨p, hp, hpfill⟩
        have hx0cov : p.1 ∈ (coveredCells w sr.toNat sc.toNat d).map (·.1) :=
          List.mem_map_of_mem _ hp
        rcases mem_covered_cells_iff.mp hx0cov with ⟨ip, hip, hx0⟩
        rcases mem_covered_cells_iff.mp hacov with ⟨ia, hia, rfl⟩
        have h1 : Relation.ReflTransGen (stepIn G)
            (cellOfIndex sr.toNat sc.toNat d ia) p.1 := by
          rw [hx0]
          exact segment_path hcovfill ia ip hia hip
        have h2 : Relation.ReflTransGen (stepIn G) p.1 b :=
          rtg_stepIn_mono hmono (hconn p.1 b hpfill hbold)
        exact h1.trans h2
      · exact absurd hbold (gridHasLetters_false hWF (by simpa using hgl) b)
    · -- both covered: the segment joins them
      rcases mem_covered_cells_iff.mp hacov with ⟨ia, hia, rfl⟩
      rcases mem_covered_cells_iff.mp hbcov with ⟨ib, hib, rfl⟩
      exact segment_path hcovfill ia ib hia hib

/-! ## The search invariant is preserved frame by frame -/

theorem budget_all {g : Grid} {m : LetterMap} {cl : List (Cell × Char)}
    (h : budgetOK g m cl) : ∀ ch, (newLetters g cl).count ch ≤ lmGet m ch := by
  intro ch
  by_cases hm : ch ∈ newLetters g cl
  · exact h ch hm
  · rw [List.count_eq_zero.mpr hm]
    exact Nat.zero_le _

theorem SearchInv_step {isWord : Word → Bool} {B : Char → Nat} {S : List Char}
    {g : Grid} {m : LetterMap} {w : Word} {sr sc : Int} {d : Dir}
    {p : PlacementOption} (hinv : SearchInv isWord B S g m)
    (hp : tryPlaceWord isWord g w sr sc d m = some p) :
    SearchInv isWord B S (applyPlacement g p)
      (subtractLetters m p.newLettersUsed) := by
  obtain ⟨hWF, hval, hconn, hcount, hpos, hkeys, hchars⟩ := hinv
  rw [tryPlaceWord_eq] at hp
  by_cases hOK : placementOK isWord g w sr sc d m
  case neg =>
    rw [if_neg hOK] at hp
    cases hp
  rw [if_pos hOK] at hp
  have hpe : p = mkPlacement g w sr sc d := (Option.some.inj hp).symm
  subst hpe
  show SearchInv isWord B S (writeWord g w sr.toNat sc.toNat d)
    (subtractLetters m (newLetters g (coveredCells w sr.toNat sc.toNat d)))
  have hbud := budget_all hOK.2.2.2.1
  have hkeyS : ∀ x, x ∈ m.map (·.1) → x ∈ S := by
    intro x hx
    rcases List.mem_map.mp hx with ⟨q, hq, hq1⟩
    rw [← hq1]
    exact hkeys q hq
  refine ⟨gridWF_writeWord hWF _ _ _ _, hOK.2.2.2.2.2,
    ConnGrid_writeWord hWF hconn hOK, ?_, ?_, ?_, ?_⟩
  · intro ch
    have h1 := gridCount_writeWord hWF hOK ch
    have h2 := lmGet_subtractLetters _ m hbud ch
    show gridCount (writeWord g w sr.toNat sc.toNat d) ch + _ = B ch
    rw [h1, h2]
    have := hcount ch
    have := hbud ch
    omega
  · exact subtractLetters_values_pos _ hpos
  · intro q hq
    exact hkeyS _ (subtractLetters_keys _ q hq)
  · intro q hq
    rcases mem_filledCellsOf.mp hq with ⟨hb1, hb2, hcell⟩
    rw [cellAt_writeWord hWF hOK.1] at hcell
    rcases hfind : (coveredCells w sr.toNat sc.toNat d).find?
        (fun pp => pp.1 == ((q.1.1, q.1.2) : Cell)) with _ | pp
    · rw [hfind] at hcell
      have : (q.1, q.2) ∈ filledCellsOf g := by
        apply mem_filledCellsOf.mpr
        exact ⟨hb1, hb2, by simpa using hcell⟩
      exact hchars _ this
    · rw [hfind] at hcell
      have hppmem := List.mem_of_find?_eq_some hfind
      have hq2 : q.2 = pp.2 := (Option.some.inj hcell).symm
      rcases hOK.2.2.1 pp hppmem with hempty | hfilled
      · have hmemNL : pp.2 ∈ newLetters g (coveredCells w sr.toNat sc.toNat d) := by
          unfold newLetters
          apply List.mem_map_of_mem
          apply List.mem_filter.mpr
          exact ⟨hppmem, by simp [hempty]⟩
        have hcnt : 0 < lmGet m pp.2 := by
          have h1 := hbud pp.2
          have h2 : 0 < (newLetters g (coveredCells w sr.toNat sc.toNat d)).count pp.2 :=
            List.count_pos_iff.mpr hmemNL
          omega
        rw [hq2]
        exact hkeyS _ (lmGet_pos_mem_keys hcnt)
      · have hbpp := coveredCells_bounds hOK.1 pp hppmem
        have : (pp.1, pp.2) ∈ filledCellsOf g :=
          mem_filledCellsOf.mpr ⟨hbpp.1, hbpp.2, hfilled⟩
        rw [hq2]
        exact hchars _ this

theorem mem_insertIntoSorted (le : α → α → Bool) (a x : α) (l : List α) :
    x ∈ insertIntoSorted le a l ↔ x = a ∨ x ∈ l := by
  induction l with
  | nil => simp [insertIntoSorted]
  | cons b t ih =>
    unfold insertIntoSorted
    by_cases hab : le a b
    · simp [hab]
    · simp only [hab, Bool.false_eq_true, if_false, List.mem_cons, ih]
      tauto

theorem mem_stableSort {le : α → α → Bool} {x : α} {l : List α} :
    x ∈ stableSort le l ↔ x ∈ l := by
  induction l with
  | nil => simp [stableSort]
  | cons a t ih =>
    unfold stableSort
    rw [mem_insertIntoSorted]
    simp [ih]

theorem mem_findAllPlacements {isWord : Word → Bool} {g : Grid} {w : Word}
    {m : LetterMap} {p : PlacementOption}
    (hp : p ∈ findAllPlacements isWord g w m) :
    ∃ sr sc d, tryPlaceWord isWord g w sr sc d m = some p := by
  unfold findAllPlacements at hp
  by_cases hgl : gridHasLetters g
  · rw [hgl] at hp
    simp only [Bool.not_true, Bool.false_eq_true, if_false] at hp
    have gen : ∀ (ks : List (Dir × Int × Int))
        (acc : List (Dir × Int × Int) × List PlacementOption),
        (∀ q ∈ acc.2, ∃ sr sc d, tryPlaceWord isWord g w sr sc d m = some q) →
        ∀ q ∈ (ks.foldl (fun acc k =>
            if k ∈ acc.1 then acc
            else (k :: acc.1,
              acc.2 ++ (match tryPlaceWord isWord g w k.2.1 k.2.2 k.1 m with
                        | some p => [p]
                        | none => []))) acc).2,
          ∃ sr sc d, tryPlaceWord isWord g w sr sc d m = some q := by
      intro ks
      induction ks with
      | nil => intro acc hacc q hq; exact hacc q hq
      | cons k rest ih =>
        intro acc hacc q hq
        simp only [List.foldl_cons] at hq
        by_cases hk : k ∈ acc.1
        · rw [if_pos hk] at hq
          exact ih acc hacc q hq
        · rw [if_neg hk] at hq
          refine ih _ ?_ q hq
          intro q2 hq2
          rcases List.mem_append.mp hq2 with h2 | h2
          · exact hacc q2 h2
          · rcases htp : tryPlaceWord isWord g w k.2.1 k.2.2 k.1 m with _ | p0
            · rw [htp] at h2
              cases h2
            · rw [htp] at h2
              rcases List.mem_singleton.mp h2 with rfl
              exact ⟨k.2.1, k.2.2, k.1, htp⟩
    exact gen _ ([], []) (by intro q hq; cases hq) p hp
  · rw [Bool.not_eq_true] at hgl
    rw [hgl] at hp
    simp only [Bool.not_false, if_true] at hp
    rcases htp : tryPlaceWord isWord g w ((GRID_SIZE : Int) / 2)
        (Int.fdiv ((GRID_SIZE : Int) - w.length) 2) Dir.h m with _ | p0
    · rw [htp] at hp
      cases hp
    · rw [htp] at hp
      rcases List.mem_singleton.mp hp with rfl
      exact ⟨_, _, _, htp⟩

theorem tryPlacements_post {isWord : Word → Bool} {B : Char → Nat} {S : List Char}
    (rec : Grid → LetterMap → Nat → Option Grid × Nat)
    (hrec : ∀ g' m' t' res t2, SearchInv isWord B S g' m' →
      rec g' m' t' = (some res, t2) → SearchPost isWord B S res)
    {g : Grid} {m : LetterMap} (hinv : SearchInv isWord B S g m) :
    ∀ (ps : List PlacementOption) (t : Nat) (res : Grid) (t2 : Nat),
      (∀ p ∈ ps, ∃ w sr sc d, tryPlaceWord isWord g w sr sc d m = some p) →
      tryPlacements rec g m ps t = (some res, t2) →
      SearchPost isWord B S res := by
  intro ps
  induction ps with
  | nil =>
    intro t res t2 _ h
    simp [tryPlacements] at h
  | cons p rest ih =>
    intro t res t2 hmem h
    unfold tryPlacements at h
    rcases hstep : rec (applyPlacement g p) (subtractLetters m p.newLettersUsed) t
      with ⟨ores, t3⟩
    rw [hstep] at h
    cases ores with
    | some r0 =>
      simp only at h
      obtain ⟨h1, -⟩ := Prod.mk.injEq _ _ _ _ ▸ h
      rcases hmem p (List.mem_cons_self _ _) with ⟨w, sr, sc, d, htp⟩
      have hinv2 := SearchInv_step hinv htp
      have := hrec _ _ _ r0 t3 hinv2 hstep
      rw [← Option.some.inj h1]
      exact this
    | none =>
      simp only at h
      exact ih t3 res t2 (fun q hq => hmem q (List.mem_cons_of_mem _ hq)) h

theorem tryWords_post {isWord : Word → Bool} {B : Char → Nat} {S : List Char}
    (rec : Grid → LetterMap → Nat → Option Grid × Nat)
    (hrec : ∀ g' m' t' res t2, SearchInv isWord B S g' m' →
      rec g' m' t' = (some res, t2) → SearchPost isWord B S res)
    {g : Grid} {m : LetterMap} (hinv : SearchInv isWord B S g m) (maxP : Nat) :
    ∀ (ws : List Word) (t : Nat) (res : Grid) (t2 : Nat),
      tryWords isWord rec g m maxP ws t = (some res, t2) →
      SearchPost isWord B S res := by
  intro ws
  induction ws with
  | nil =>
    intro t res t2 h
    simp [tryWords] at h
  | cons w rest ih =>
    intro t res t2 h
    unfold tryWords at h
    rcases hstep : tryPlacements rec g m
        ((stableSort placeLE (findAllPlacements isWord g w m)).take maxP) t
      with ⟨ores, t3⟩
    rw [hstep] at h
    cases ores with
    | some r0 =>
      simp only at h
      obtain ⟨h1, -⟩ := Prod.mk.injEq _ _ _ _ ▸ h
      have hmem : ∀ p ∈ (stableSort placeLE (findAllPlacements isWord g w m)).take maxP,
          ∃ w' sr sc d, tryPlaceWord isWord g w' sr sc d m = some p := by
        intro p hp
        have hp2 : p ∈ findAllPlacements isWord g w m :=
          mem_stableSort.mp (List.mem_of_mem_take hp)
        rcases mem_findAllPlacements hp2 with ⟨sr, sc, d, htp⟩
        exact ⟨w, sr, sc, d, htp⟩
      have := tryPlacements_post rec hrec hinv _ t r0 t3 hmem hstep
      rw [← Option.some.inj h1]
      exact this
    | none =>
      simp only at h
      exact ih t3 res t2 h

theorem solveGo_post (isWord : Word → Bool) (clk : Nat → Nat)
    (allWords : List Word) (deadline : Nat) (B : Char → Nat) (S : List Char) :
    ∀ (fuel depth : Nat) (g : Grid) (m : LetterMap) (t : Nat) (res : Grid)
      (t2 : Nat), SearchInv isWord B S g m →
      solveGo isWord clk allWords deadline fuel depth g m t = (some res, t2) →
      SearchPost isWord B S res := by
  intro fuel
  induction fuel with
  | zero =>
    intro depth g m t res t2 _ h
    simp [solveGo] at h
  | succ fuel ih =>
    intro depth g m t res t2 hinv h
    unfold solveGo at h
    by_cases hlate : deadline < clk t
    · rw [if_pos hlate] at h
      cases h
    · rw [if_neg hlate] at h
      by_cases hemp : m.isEmpty
      · rw [if_pos hemp] at h
        obtain ⟨h1, -⟩ := Prod.mk.injEq _ _ _ _ ▸ h
        obtain ⟨hWF, hval, hconn, hcount, -, -, hchars⟩ := hinv
        rw [← Option.some.inj h1]
        refine ⟨hWF, hval, hconn, ?_, hchars⟩
        intro ch
        have := hcount ch
        rw [lmGet_of_isEmpty hemp ch] at this
        omega
      · rw [if_neg hemp] at h
        exact tryWords_post _ (fun g' m' t' r0 t3 hinv2 hstep =>
          ih (depth + 1) g' m' t' r0 t3 hinv2 hstep) hinv _ _ _ res t2 h

/-! ## Character case: lowercase idempotence and alphabet facts -/

theorem charOfNat_toNat (n : Nat) (h : n.isValidChar) :
    (Char.ofNat n).toNat = n := by
  unfold Char.ofNat
  rw [dif_pos h]
  unfold Char.ofNatAux Char.toNat
  simp [UInt32.toNat]

theorem toLower_toLower (c : Char) : c.toLower.toLower = c.toLower := by
  unfold Char.toLower
  by_cases h : c.toNat ≥ 65 ∧ c.toNat ≤ 90
  · rw [if_pos h]
    have hv : (c.toNat + 32).isValidChar := Or.inl (by omega)
    have ht := charOfNat_toNat _ hv
    rw [if_neg]
    rw [ht]
    omega
  · rw [if_neg h, if_neg h]

theorem map_toLower_idem (w : Word) :
    (w.map Char.toLower).map Char.toLower = w.map Char.toLower := by
  rw [List.map_map]
  exact List.map_congr_left (fun c _ => toLower_toLower c)

theorem mkIsWord_caseins (dict : List Word) :
    ∀ w, mkIsWord dict (w.map Char.toLower) = mkIsWord dict w := by
  intro w
  unfold mkIsWord
  rw [map_toLower_idem]

theorem upper_toLower_mem : ∀ c ∈ upperAlpha, c.toLower ∈ lowerAlpha := by
  decide

theorem lower_toLower_self : ∀ c ∈ lowerAlpha, c.toLower = c := by
  decide

theorem upper_toLower_toUpper : ∀ c ∈ upperAlpha, c.toLower.toUpper = c := by
  decide

/-! ## Case-equivalent grids agree on the validator and connectivity -/

theorem runOK_caseins {isWord : Word → Bool}
    (hiw : ∀ s, isWord (s.map Char.toLower) = isWord s) {w1 w2 : Word}
    (h : w1.map Char.toLower = w2.map Char.toLower) :
    runOK isWord w1 = runOK isWord w2 := by
  have hlen : w1.length = w2.length := by
    have := congrArg List.length h
    simpa using this
  have hword : isWord w1 = isWord w2 := by
    rw [← hiw w1, ← hiw w2, h]
  unfold runOK
  rw [hlen, hword]

theorem scanLine_caseins {isWord : Word → Bool}
    (hiw : ∀ s, isWord (s.map Char.toLower) = isWord s) :
    ∀ (l1 l2 : List (Option Char)) (acc1 acc2 : Word),
      l1.map (Option.map Char.toLower) = l2.map (Option.map Char.toLower) →
      acc1.map Char.toLower = acc2.map Char.toLower →
      scanLine isWord l1 acc1 = scanLine isWord l2 acc2 := by
  intro l1
  induction l1 with
  | nil =>
    intro l2 acc1 acc2 hl hacc
    cases l2 with
    | nil => exact runOK_caseins hiw hacc
    | cons o t => simp at hl
  | cons o1 t1 ih =>
    intro l2 acc1 acc2 hl hacc
    cases l2 with
    | nil => simp at hl
    | cons o2 t2 =>
      simp only [List.map_cons, List.cons.injEq] at hl
      cases o1 with
      | none =>
        cases o2 with
        | none =>
          show (runOK isWord acc1 && scanLine isWord t1 [])
             = (runOK isWord acc2 && scanLine isWord t2 [])
          rw [runOK_caseins hiw hacc, ih t2 [] [] hl.2 rfl]
        | some c2 => simp at hl
      | some c1 =>
        cases o2 with
        | none => simp at hl
        | some c2 =>
          show scanLine isWord t1 (acc1 ++ [c1]) = scanLine isWord t2 (acc2 ++ [c2])
          refine ih t2 _ _ hl.2 ?_
          simp only [List.map_append, List.map_cons, List.map_nil, hacc]
          have : c1.toLower = c2.toLower := by simpa using hl.1
          rw [this]

theorem validate_caseins {isWord : Word → Bool}
    (hiw : ∀ s, isWord (s.map Char.toLower) = isWord s) {g1 g2 : Grid}
    (hce : caseEq g1 g2) :
    validateAllGridWords isWord g1 = validateAllGridWords isWord g2 := by
  unfold validateAllGridWords
  have hrow : ∀ r, scanLine isWord (rowLine g1 r) [] = scanLine isWord (rowLine g2 r) [] := by
    intro r
    refine scanLine_caseins hiw _ _ [] [] ?_ rfl
    unfold rowLine
    rw [List.map_map, List.map_map]
    exact List.map_congr_left (fun c _ => hce r c)
  have hcol : ∀ c, scanLine isWord (colLine g1 c) [] = scanLine isWord (colLine g2 c) [] := by
    intro c
    refine scanLine_caseins hiw _ _ [] [] ?_ rfl
    unfold colLine
    rw [List.map_map, List.map_map]
    exact List.map_congr_left (fun r _ => hce r c)
  simp only [hrow, hcol]

theorem filledAt_caseEq {g1 g2 : Grid} (hce : caseEq g1 g2) (q : Cell) :
    filledAt g1 q → filledAt g2 q := by
  intro h
  unfold filledAt at h ⊢
  have := hce q.1 q.2
  cases h1 : cellAt g1 q.1 q.2 with
  | none => rw [h1] at h; simp at h
  | some c =>
    rw [h1] at this
    cases h2 : cellAt g2 q.1 q.2 with
    | none => rw [h2] at this; simp at this
    | some c2 => rfl

theorem ConnGrid_caseEq {g1 g2 : Grid} (hce : caseEq g1 g2)
    (hconn : ConnGrid g1) : ConnGrid g2 := by
  have hce' : caseEq g2 g1 := fun r c => (hce r c).symm
  intro a b ha hb
  have := hconn a b (filledAt_caseEq hce' a ha) (filledAt_caseEq hce' b hb)
  exact rtg_stepIn_mono (filledAt_caseEq hce) this

/-! ## The placement reifier matches every cell when the tiles cover it -/

theorem countP_true_and_not (p q : α → Bool) (l : List α) :
    l.countP p = l.countP (fun a => p a && q a)
               + l.countP (fun a => p a && !q a) := by
  induction l with
  | nil => simp
  | cons a t ih =>
    rw [List.countP_cons, List.countP_cons, List.countP_cons]
    by_cases hp : p a
    · by_cases hq : q a
      · simp only [hp, hq]
        simp
        omega
      · simp only [hp, Bool.not_eq_true] at hq
        simp [hp, hq]
        omega
    · simp only [Bool.not_eq_true] at hp
      simp [hp]
      omega

theorem tile_countP_id {tiles : List Tile} (hnd : (tiles.map Tile.id).Nodup)
    {l0 : Tile} (h : l0 ∈ tiles) :
    tiles.countP (fun l => l.id == l0.id) = 1 := by
  have h1 : tiles.countP (fun l => l.id == l0.id)
      = List.count l0.id (tiles.map Tile.id) := by
    rw [List.count, List.countP_map]
    rfl
  rw [h1]
  exact List.count_eq_one_of_mem hnd (List.mem_map_of_mem _ h)

theorem tile_eq_of_id_eq {tiles : List Tile} (hnd : (tiles.map Tile.id).Nodup)
    {l1 l2 : Tile} (h1 : l1 ∈ tiles) (h2 : l2 ∈ tiles) (h : l1.id = l2.id) :
    l1 = l2 :=
  List.inj_on_of_nodup_map hnd h1 h2 h

theorem gridToPlacementsAux_spec {tiles : List Tile}
    (hnd : (tiles.map Tile.id).Nodup) :
    ∀ (cells : List (Cell × Char)) (used : List Nat),
      (∀ ch, cells.countP (fun q => q.2.toLower == ch)
          ≤ tiles.countP (fun l =>
              (l.char.toLower == ch) && !(used.contains l.id))) →
      ∃ ms : List Tile,
        gridToPlacementsAux tiles cells used
          = (cells.zip ms).map (fun qm =>
              ⟨qm.2.id, qm.1.1.1, qm.1.1.2⟩) ∧
        ms.length = cells.length ∧
        (∀ l ∈ ms, l ∈ tiles ∧ l.id ∉ used) ∧
        (ms.map Tile.id).Nodup ∧
        List.Forall₂ (fun (q : Cell × Char) (l : Tile) =>
          l.char.toLower = q.2.toLower) cells ms := by
  intro cells
  induction cells with
  | nil =>
    intro used hinv
    exact ⟨[], rfl, rfl, by simp, by simp, List.Forall₂.nil⟩
  | cons q rest ih =>
    intro used hinv
    obtain ⟨cell, ch⟩ := q
    have hpos : 0 < tiles.countP
        (fun l => (l.char.toLower == ch.toLower) && !(used.contains l.id)) := by
      have h1 := hinv ch.toLower
      have h2 : ((cell, ch) :: rest).countP (fun q => q.2.toLower == ch.toLower)
          = rest.countP (fun q => q.2.toLower == ch.toLower) + 1 := by
        rw [List.countP_cons]
        simp
      omega
    rcases List.countP_pos_iff.mp hpos with ⟨lw, hlwmem, hlwp⟩
    rcases hfs : tiles.find?
        (fun l => (l.char.toLower == ch.toLower) && !(used.contains l.id))
      with _ | l0
    · exfalso
      have : (tiles.find? (fun l =>
          (l.char.toLower == ch.toLower) && !(used.contains l.id))).isSome :=
        List.find?_isSome.mpr ⟨lw, hlwmem, hlwp⟩
      rw [hfs] at this
      simp at this
    have hl0mem : l0 ∈ tiles := List.mem_of_find?_eq_some hfs
    have hl0p := List.find?_some hfs
    rw [Bool.and_eq_true] at hl0p
    have hchar : l0.char.toLower = ch.toLower := by
      have := hl0p.1
      simpa using this
    have hused : l0.id ∉ used := by
      have := hl0p.2
      simp only [Bool.not_eq_true'] at this
      simpa using this
    have hinv' : ∀ ch2, rest.countP (fun q => q.2.toLower == ch2)
        ≤ tiles.countP (fun l =>
            (l.char.toLower == ch2) && !((used ++ [l0.id]).contains l.id)) := by
      intro ch2
      have hsplit := countP_true_and_not
        (fun l => (l.char.toLower == ch2) && !(used.contains l.id))
        (fun l => !(l.id == l0.id)) tiles
      have hnewold : tiles.countP (fun l =>
            (l.char.toLower == ch2) && !((used ++ [l0.id]).contains l.id))
          = tiles.countP (fun l =>
            ((l.char.toLower == ch2) && !(used.contains l.id))
              && !(l.id == l0.id)) := by
        apply List.countP_congr
        intro l _
        by_cases e1 : l.char.toLower = ch2
        · by_cases e2 : l.id ∈ used
          · simp [e1, e2]
          · by_cases e3 : l.id = l0.id
            · simp [e1, e2, e3]
            · simp [e1, e2, e3]
        · simp [e1]
      have hdrop : tiles.countP (fun l =>
            ((l.char.toLower == ch2) && !(used.contains l.id))
              && !(!(l.id == l0.id))) ≤ 1 := by
        have hle : tiles.countP (fun l =>
              ((l.char.toLower == ch2) && !(used.contains l.id))
                && !(!(l.id == l0.id)))
            ≤ tiles.countP (fun l => l.id == l0.id) := by
          apply List.countP_mono_left
          intro l _ hl
          rw [Bool.and_eq_true] at hl
          simpa using hl.2
        rw [tile_countP_id hnd hl0mem] at hle
        exact hle
      by_cases hc2 : ch2 = ch.toLower
      · subst hc2
        have hcells : ((cell, ch) :: rest).countP
              (fun q => q.2.toLower == ch.toLower)
            = rest.countP (fun q => q.2.toLower == ch.toLower) + 1 := by
          rw [List.countP_cons]
          simp
        have h1 := hinv ch.toLower
        rw [hcells] at h1
        rw [hnewold]
        omega
      · have hzero : tiles.countP (fun l =>
              ((l.char.toLower == ch2) && !(used.contains l.id))
                && !(!(l.id == l0.id))) = 0 := by
          rw [List.countP_eq_zero]
          intro l hl hcon
          rw [Bool.and_eq_true, Bool.and_eq_true] at hcon
          have hid : l.id = l0.id := by
            have := hcon.2
            simpa using this
          have : l = l0 := tile_eq_of_id_eq hnd hl hl0mem hid
          subst this
          have : l.char.toLower = ch2 := by
            have := hcon.1.1
            simpa using this
          rw [hchar] at this
          exact hc2 this.symm
        have hcells : ((cell, ch) :: rest).countP (fun q => q.2.toLower == ch2)
            = rest.countP (fun q => q.2.toLower == ch2) := by
          rw [List.countP_cons]
          have : ¬(ch.toLower = ch2) := fun hh => hc2 hh.symm
          simp [this]
        have h1 := hinv ch2
        rw [hcells] at h1
        rw [hnewold]
        omega
    rcases ih (used ++ [l0.id]) hinv' with ⟨ms', hres, hlen, hmem, hndms, hfa⟩
    refine ⟨l0 :: ms', ?_, ?_, ?_, ?_, ?_⟩
    · show gridToPlacementsAux tiles ((cell, ch) :: rest) used = _
      unfold gridToPlacementsAux
      rw [hfs]
      dsimp only
      rw [hres, List.zip_cons_cons, List.map_cons]
    · simp [hlen]
    · intro l hl
      rcases List.mem_cons.mp hl with rfl | hl'
      · exact ⟨hl0mem, hused⟩
      · rcases hmem l hl' with ⟨h1, h2⟩
        refine ⟨h1, fun hc => h2 ?_⟩
        exact List.mem_append_left _ hc
    · rw [List.map_cons, List.nodup_cons]
      refine ⟨?_, hndms⟩
      intro hc
      rcases List.mem_map.mp hc with ⟨l, hl, hid⟩
      have := (hmem l hl).2
      apply this
      apply List.mem_append_right
      rw [hid]
      exact List.mem_singleton_self _
    · exact List.Forall₂.cons hchar hfa

/-! ## The reified placements rebuild the search grid up to letter case -/

theorem find?_id_eq {tiles : List Tile} (hnd : (tiles.map Tile.id).Nodup)
    {m : Tile} (hm : m ∈ tiles) :
    tiles.find? (fun l => l.id == m.id) = some m := by
  rcases hfs : tiles.find? (fun l => l.id == m.id) with _ | l'
  · exfalso
    rw [List.find?_eq_none] at hfs
    exact hfs m hm (by simp)
  · have h1 : l' ∈ tiles := List.mem_of_find?_eq_some hfs
    have h2 : l'.id = m.id := by
      have := List.find?_some hfs
      simpa using this
    rw [hfs]
    exact congrArg some (tile_eq_of_id_eq hnd h1 hm h2)

theorem cellAt_empty (r c : Nat) : cellAt createEmptyGrid r c = none := by
  show (((List.replicate GRID_SIZE (List.replicate GRID_SIZE
      (none : Option Char))).getD r []).getD c none) = none
  have hrow : (List.replicate GRID_SIZE (List.replicate GRID_SIZE
      (none : Option Char))).getD r []
      = if r < GRID_SIZE then List.replicate GRID_SIZE none else [] := by
    by_cases hr : r < GRID_SIZE
    · rw [if_pos hr, List.getD_eq_getElem _ _ (by simpa using hr),
        List.getElem_replicate]
    · rw [if_neg hr, List.getD_eq_default _ _ (by simpa using hr)]
  rw [hrow]
  by_cases hr : r < GRID_SIZE
  · rw [if_pos hr]
    by_cases hc : c < GRID_SIZE
    · rw [List.getD_eq_getElem _ _ (by simpa using hc), List.getElem_replicate]
    · rw [List.getD_eq_default _ _ (by simpa using hc)]
  · rw [if_neg hr]
    rfl

theorem filterMap_isSome_map (o : α → Option β) (k : α → γ) (l : List α) :
    l.filterMap (fun a => (o a).map (fun _ => k a))
      = (l.filter (fun a => (o a).isSome)).map k := by
  induction l with
  | nil => rfl
  | cons a t ih =>
    rw [List.filterMap_cons, List.filter_cons]
    cases ho : o a with
    | none => simp only [ho, Option.map_none', Option.isSome_none]; simpa using ih
    | some b => simp only [ho, Option.map_some', Option.isSome_some, if_pos]; simp [ih]

theorem rowSeg_fst (g : Grid) (r : Nat) :
    (rowSeg g r).map (·.1)
      = ((List.range GRID_SIZE).filter
          (fun c => (cellAt g r c).isSome)).map (fun c => ((r, c) : Cell)) := by
  unfold rowSeg
  rw [List.map_filterMap]
  have h1 : ∀ c, Option.map (fun (q : Cell × Char) => q.1)
      ((cellAt g r c).map (fun ch => (((r, c) : Cell), ch)))
      = (cellAt g r c).map (fun _ => ((r, c) : Cell)) := by
    intro c
    cases cellAt g r c <;> rfl
  calc (List.range GRID_SIZE).filterMap (fun c =>
        Option.map (fun (q : Cell × Char) => q.1)
          ((cellAt g r c).map (fun ch => (((r, c) : Cell), ch))))
      = (List.range GRID_SIZE).filterMap (fun c =>
          (cellAt g r c).map (fun _ => ((r, c) : Cell))) := by
        exact List.filterMap_congr (fun c _ => h1 c)
    _ = _ := filterMap_isSome_map _ _ _

theorem mem_rowSeg_fst {g : Grid} {r : Nat} {x : Cell}
    (h : x ∈ (rowSeg g r).map (·.1)) : x.1 = r := by
  rw [rowSeg_fst] at h
  rcases List.mem_map.mp h with ⟨c, -, hc⟩
  rw [← hc]

theorem nodup_filledCells_fst (g : Grid) :
    ((filledCellsOf g).map (·.1)).Nodup := by
  have h1 : (filledCellsOf g).map (·.1)
      = ((List.range GRID_SIZE).map (fun r => (rowSeg g r).map (·.1))).flatten := by
    show ((List.range GRID_SIZE).flatMap (rowSeg g)).map (·.1) = _
    rw [List.map_flatMap, List.flatMap_def]
  rw [h1, List.nodup_flatten]
  constructor
  · intro l hl
    rcases List.mem_map.mp hl with ⟨r, -, hr⟩
    rw [← hr, rowSeg_fst]
    apply List.Nodup.map
    · intro c1 c2 he
      exact (Prod.mk.injEq _ _ _ _ ▸ he).2
    · exact List.Nodup.filter _ (List.nodup_range _)
  · rw [List.pairwise_map]
    have := List.nodup_range GRID_SIZE
    refine List.Pairwise.imp ?_ this
    intro r1 r2 hne x hx1 hx2
    have e1 := mem_rowSeg_fst hx1
    have e2 := mem_rowSeg_fst hx2
    exact hne (e1 ▸ e2 ▸ rfl)

theorem foldl_congr_mem {l : List α} {f g : β → α → β}
    (h : ∀ a ∈ l, ∀ b, f b a = g b a) : ∀ b, l.foldl f b = l.foldl g b := by
  induction l with
  | nil => intro b; rfl
  | cons a t ih =>
    intro b
    rw [List.foldl_cons, List.foldl_cons, h a (List.mem_cons_self _ _)]
    exact ih (fun a2 ha2 b2 => h a2 (List.mem_cons_of_mem _ ha2) b2) _

theorem placedGridOf_caseEq {g : Grid} {tiles ms : List Tile}
    (hWF : gridWF g) (hnd : (tiles.map Tile.id).Nodup)
    (hrep : gridToPlacements g tiles
      = ((filledCellsOf g).zip ms).map (fun qm =>
          ⟨qm.2.id, qm.1.1.1, qm.1.1.2⟩))
    (hlen : ms.length = (filledCellsOf g).length)
    (hmem : ∀ l ∈ ms, l ∈ tiles)
    (hfa : List.Forall₂ (fun (q : Cell × Char) (l : Tile) =>
        l.char.toLower = q.2.toLower) (filledCellsOf g) ms) :
    caseEq (placedGridOf (gridToPlacements g tiles) tiles) g := by
  have hfold3 : placedGridOf (gridToPlacements g tiles) tiles
      = (((filledCellsOf g).zip ms).map (fun qm => (qm.1.1, qm.2.char))).foldl
          (fun acc p => setCell acc p.1.1 p.1.2 p.2) createEmptyGrid := by
    unfold placedGridOf
    rw [hrep, List.foldl_map, List.foldl_map]
    apply foldl_congr_mem
    intro qm hqm b
    have hmtile : qm.2 ∈ tiles := hmem _ (List.of_mem_zip hqm).2
    show (match tiles.find? (fun l => l.id == qm.2.id) with
          | some l => setCell b qm.1.1.1 qm.1.1.2 l.char
          | none => b) = setCell b qm.1.1.1 qm.1.1.2 qm.2.char
    rw [find?_id_eq hnd hmtile]
  have hclfst : (((filledCellsOf g).zip ms).map
        (fun qm => (qm.1.1, qm.2.char))).map (·.1)
      = (filledCellsOf g).map (·.1) := by
    have h1 : (((filledCellsOf g).zip ms).map
          (fun qm => (qm.1.1, qm.2.char))).map (·.1)
        = (((filledCellsOf g).zip ms).map Prod.fst).map (·.1) := by
      rw [List.map_map, List.map_map]
      rfl
    rw [h1, List.map_fst_zip _ _ (Nat.le_of_eq hlen.symm)]
  have hbnd : ∀ p ∈ ((filledCellsOf g).zip ms).map
      (fun qm => (qm.1.1, qm.2.char)), p.1.1 < GRID_SIZE ∧ p.1.2 < GRID_SIZE := by
    intro p hp
    rcases List.mem_map.mp hp with ⟨qm, hqm, hpe⟩
    have hq : qm.1 ∈ filledCellsOf g := (List.of_mem_zip hqm).1
    have hq' : (qm.1.1, qm.1.2) ∈ filledCellsOf g := by
      rw [Prod.mk.eta]
      exact hq
    have hmf := mem_filledCellsOf.mp hq'
    rw [← hpe]
    exact ⟨hmf.1, hmf.2.1⟩
  have hclnd : ((((filledCellsOf g).zip ms).map
      (fun qm => (qm.1.1, qm.2.char))).map (·.1)).Nodup := by
    rw [hclfst]
    exact nodup_filledCells_fst g
  intro r c
  rw [hfold3]
  rw [cellAt_foldl_setCell _ createEmptyGrid gridWF_empty hbnd hclnd r c]
  rcases hfind : (((filledCellsOf g).zip ms).map
      (fun qm => (qm.1.1, qm.2.char))).find? (fun p => p.1 == ((r, c) : Cell))
    with _ | p
  · rw [hfind]
    show Option.map Char.toLower (cellAt createEmptyGrid r c)
       = Option.map Char.toLower (cellAt g r c)
    rw [List.find?_eq_none] at hfind
    rw [cellAt_empty]
    rcases hg : cellAt g r c with _ | ch
    · rfl
    · exfalso
      by_cases hb : r < GRID_SIZE ∧ c < GRID_SIZE
      · have hq : (((r, c) : Cell), ch) ∈ filledCellsOf g :=
          mem_filledCellsOf.mpr ⟨hb.1, hb.2, hg⟩
        rcases List.mem_iff_getElem.mp hq with ⟨i, hi, hqi⟩
        have hiz : i < ((filledCellsOf g).zip ms).length := by
          rw [List.length_zip]
          omega
        have him : i < ms.length := by omega
        have hget : ((filledCellsOf g).zip ms)[i]
            = ((filledCellsOf g)[i], ms[i]) := List.getElem_zip
        have hmemz : ((filledCellsOf g)[i], ms[i]) ∈ (filledCellsOf g).zip ms := by
          rw [← hget]
          exact List.getElem_mem _
        have hmemcl : ((filledCellsOf g)[i].1, ms[i].char)
            ∈ ((filledCellsOf g).zip ms).map (fun qm => (qm.1.1, qm.2.char)) :=
          List.mem_map_of_mem _ hmemz
        apply hfind _ hmemcl
        show ((filledCellsOf g)[i].1 == ((r, c) : Cell)) = true
        rw [hqi]
        simp
      · rw [cellAt_oob hWF (by omega)] at hg
        cases hg
  · rw [hfind]
    show Option.map Char.toLower (some p.2) = Option.map Char.toLower (cellAt g r c)
    have hpmem : p ∈ ((filledCellsOf g).zip ms).map
        (fun qm => (qm.1.1, qm.2.char)) := List.mem_of_find?_eq_some hfind
    have hpcell : p.1 = ((r, c) : Cell) := by
      have := List.find?_some hfind
      simpa using this
    rcases List.mem_map.mp hpmem with ⟨qm, hqm, hpe⟩
    have hrel := (List.forall₂_iff_zip.mp hfa).2 hqm
    have hq : qm.1 ∈ filledCellsOf g := (List.of_mem_zip hqm).1
    have hq' : (qm.1.1, qm.1.2) ∈ filledCellsOf g := by
      rw [Prod.mk.eta]
      exact hq
    have hcell := (mem_filledCellsOf.mp hq').2.2
    have hc1 : qm.1.1 = ((r, c) : Cell) := by
      rw [← hpcell, ← hpe]
    have hp2 : p.2 = qm.2.char := by
      rw [← hpe]
    rw [hc1] at hcell
    rw [hcell, hp2]
    simp only [Option.map_some']
    rw [hrel]

/-! ## Setting up and tearing down a full `solvePuzzle` run -/

theorem filledCells_empty : filledCellsOf createEmptyGrid = [] := rfl

theorem validate_empty (isWord : Word → Bool) :
    validateAllGridWords isWord createEmptyGrid = true := rfl

theorem SearchInv_start {isWord : Word → Bool} {S : List Char} {m : LetterMap}
    (hpos : ∀ p ∈ m, 1 ≤ p.2) (hkeys : ∀ p ∈ m, p.1 ∈ S) :
    SearchInv isWord (fun ch => lmGet m ch) S createEmptyGrid m := by
  refine ⟨gridWF_empty, validate_empty isWord, ?_, ?_, hpos, hkeys, ?_⟩
  · intro a b ha _
    exfalso
    unfold filledAt at ha
    rw [cellAt_empty] at ha
    simp at ha
  · intro ch
    have h0 : gridCount createEmptyGrid ch = 0 := by
      unfold gridCount
      rw [filledCells_empty]
      rfl
    rw [h0]
    simp
  · intro q hq
    rw [filledCells_empty] at hq
    cases hq

theorem countP_of_forall₂ {R : α → β → Prop} {l1 : List α} {l2 : List β}
    (h : List.Forall₂ R l1 l2) (p : α → Bool) (q : β → Bool)
    (hpq : ∀ a b, R a b → p a = q b) : l1.countP p = l2.countP q := by
  induction h with
  | nil => rfl
  | cons hr _ ih => rw [List.countP_cons, List.countP_cons, hpq _ _ hr, ih]

theorem uniqueFirst_subset (chars : List Char) :
    ∀ c ∈ uniqueFirst chars, c ∈ chars := by
  have gen : ∀ (cs acc : List Char), (∀ x ∈ acc, x ∈ chars) →
      (∀ x ∈ cs, x ∈ chars) →
      ∀ x ∈ cs.foldl (fun acc c =>
          if acc.contains c then acc else acc ++ [c]) acc, x ∈ chars := by
    intro cs
    induction cs with
    | nil => intro acc hacc _ x hx; exact hacc x hx
    | cons c rest ih =>
      intro acc hacc hcs x hx
      rw [List.foldl_cons] at hx
      by_cases hc : acc.contains c
      · rw [if_pos hc] at hx
        exact ih acc hacc (fun y hy => hcs y (List.mem_cons_of_mem _ hy)) x hx
      · rw [if_neg hc] at hx
        refine ih _ ?_ (fun y hy => hcs y (List.mem_cons_of_mem _ hy)) x hx
        intro y hy
        rcases List.mem_append.mp hy with hy | hy
        · exact hacc y hy
        · rcases List.mem_singleton.mp hy with rfl
          exact hcs y (List.mem_cons_self _ _)
  intro c hc
  exact gen chars [] (fun x hx => absurd hx (List.not_mem_nil x)) (fun x hx => hx) c hc

theorem reified_of_searchPost {isWord : Word → Bool} {tiles : List Tile}
    {g : Grid} {B : Char → Nat}
    (hiw : ∀ s, isWord (s.map Char.toLower) = isWord s)
    (hnd : (tiles.map Tile.id).Nodup)
    (hchars : ∀ l ∈ tiles, l.char ∈ upperAlpha)
    (hpost : SearchPost isWord B (tiles.map (fun l => l.char.toLower)) g)
    (hB : ∀ ch, B ch ≤ List.count ch (tiles.map (fun l => l.char.toLower))) :
    validateAllGridWords isWord
      (placedGridOf (gridToPlacements g tiles) tiles) = true ∧
    ConnGrid (placedGridOf (gridToPlacements g tiles) tiles) ∧
    ∃ ms : List Tile,
      (∀ l ∈ ms, l ∈ tiles) ∧ (ms.map Tile.id).Nodup ∧
      (gridToPlacements g tiles).map TilePlacement.letterId = ms.map Tile.id ∧
      (gridToPlacements g tiles).length = (filledCellsOf g).length ∧
      (∀ ch, ms.countP (fun l => l.char.toLower == ch) = B ch) ∧
      (gridToPlacements g tiles).map (fun p => ((p.row, p.col) : Cell))
        = (filledCellsOf g).map Prod.fst ∧
      caseEq (placedGridOf (gridToPlacements g tiles) tiles) g := by
  obtain ⟨hWF, hval, hconn, hcount, hS⟩ := hpost
  have hlower : ∀ q ∈ filledCellsOf g, q.2 ∈ lowerAlpha := by
    intro q hq
    rcases List.mem_map.mp (hS q hq) with ⟨l, hl, hlc⟩
    rw [← hlc]
    exact upper_toLower_mem _ (hchars l hl)
  have hinv : ∀ ch, (filledCellsOf g).countP (fun q => q.2.toLower == ch)
      ≤ tiles.countP (fun l =>
          (l.char.toLower == ch) && !(([] : List Nat).contains l.id)) := by
    intro ch
    have h1 : (filledCellsOf g).countP (fun q => q.2.toLower == ch)
        = (filledCellsOf g).countP (fun q => decide (q.2 = ch)) := by
      apply List.countP_congr
      intro q hq
      rw [lower_toLower_self _ (hlower q hq)]
      simp
    have h2 : (filledCellsOf g).countP (fun q => decide (q.2 = ch))
        = gridCount g ch := by
      unfold gridCount
      rw [← List.countP_eq_length_filter]
    have h3 : tiles.countP (fun l =>
          (l.char.toLower == ch) && !(([] : List Nat).contains l.id))
        = List.count ch (tiles.map (fun l => l.char.toLower)) := by
      rw [List.count, List.countP_map]
      apply List.countP_congr
      intro l _
      simp
    rw [h1, h2, h3]
    rw [hcount ch]
    exact hB ch
  rcases gridToPlacementsAux_spec hnd (filledCellsOf g) [] hinv
    with ⟨ms, hrep, hlen, hmemu, hmsnd, hfa⟩
  have hmem : ∀ l ∈ ms, l ∈ tiles := fun l hl => (hmemu l hl).1
  have hrep2 : gridToPlacements g tiles
      = ((filledCellsOf g).zip ms).map (fun qm =>
          ⟨qm.2.id, qm.1.1.1, qm.1.1.2⟩) := hrep
  have hce := placedGridOf_caseEq hWF hnd hrep2 hlen hmem hfa
  refine ⟨?_, ConnGrid_caseEq (fun r c => (hce r c).symm) hconn, ms, hmem, hmsnd,
    ?_, ?_, ?_, ?_, hce⟩
  · rw [validate_caseins hiw hce]
    exact hval
  · rw [hrep2]
    have h1 : (((filledCellsOf g).zip ms).map (fun qm =>
          (⟨qm.2.id, qm.1.1.1, qm.1.1.2⟩ : TilePlacement))).map
            TilePlacement.letterId
        = (((filledCellsOf g).zip ms).map Prod.snd).map Tile.id := by
      rw [List.map_map, List.map_map]
      rfl
    rw [h1, List.map_snd_zip _ _ (Nat.le_of_eq hlen)]
  · rw [hrep2, List.length_map, List.length_zip, hlen]
    exact Nat.min_self _
  · intro ch
    have h4 : ms.countP (fun l => l.char.toLower == ch)
        = (filledCellsOf g).countP (fun q => q.2.toLower == ch) := by
      refine (countP_of_forall₂ hfa _ _ ?_).symm
      intro q l hr
      rw [hr]
    have h1 : (filledCellsOf g).countP (fun q => q.2.toLower == ch)
        = (filledCellsOf g).countP (fun q => decide (q.2 = ch)) := by
      apply List.countP_congr
      intro q hq
      rw [lower_toLower_self _ (hlower q hq)]
      simp
    have h2 : (filledCellsOf g).countP (fun q => decide (q.2 = ch))
        = gridCount g ch := by
      unfold gridCount
      rw [← List.countP_eq_length_filter]
    rw [h4, h1, h2, hcount ch]
  · have hz : (filledCellsOf g).map Prod.fst
        = ((filledCellsOf g).zip ms).map (fun qm => qm.1.1) := by
      conv_lhs => rw [← List.map_fst_zip (filledCellsOf g) ms
        (Nat.le_of_eq hlen.symm)]
      rw [List.map_map]
      apply List.map_congr_left
      intro qm _
      rfl
    rw [hrep2, List.map_map, hz]
    apply List.map_congr_left
    intro qm _
    rfl

theorem omitted_tile_unique {tiles ms : List Tile} {c : Char}
    (hnd : (tiles.map Tile.id).Nodup)
    (hsub : ∀ l ∈ ms, l ∈ tiles) (hmsnd : (ms.map Tile.id).Nodup)
    (hcnt : ∀ ch, ms.countP (fun l => l.char.toLower == ch)
        = (if ch = c
           then List.count c (tiles.map (fun l => l.char.toLower)) - 1
           else List.count ch (tiles.map (fun l => l.char.toLower))))
    (hc : 1 ≤ List.count c (tiles.map (fun l => l.char.toLower))) :
    ∃ l, l ∈ tiles ∧ l.id ∉ ms.map Tile.id ∧ l.char.toLower = c ∧
      ∀ l2 ∈ tiles, l2.id ∉ ms.map Tile.id → l2 = l := by
  have hperm : (tiles.filter (fun l => (ms.map Tile.id).contains l.id)).Perm ms := by
    rw [List.perm_ext_iff_of_nodup
      (List.Nodup.filter _ (List.Nodup.of_map _ hnd)) (List.Nodup.of_map _ hmsnd)]
    intro l
    constructor
    · intro hl
      have h1 := List.mem_filter.mp hl
      have h2 : l.id ∈ ms.map Tile.id := by simpa using h1.2
      rcases List.mem_map.mp h2 with ⟨m, hm, hmid⟩
      have := tile_eq_of_id_eq hnd h1.1 (hsub m hm) hmid.symm
      rw [this]
      exact hm
    · intro hl
      rw [List.mem_filter]
      refine ⟨hsub l hl, ?_⟩
      have : l.id ∈ ms.map Tile.id := List.mem_map_of_mem _ hl
      simpa using this
  have hmatched : ∀ ch : Char,
      tiles.countP (fun l => (l.char.toLower == ch)
          && ((ms.map Tile.id).contains l.id))
        = ms.countP (fun l => l.char.toLower == ch) := by
    intro ch
    rw [← List.countP_filter]
    exact List.Perm.countP_eq _ hperm
  have htot : ∀ ch : Char, tiles.countP (fun l => l.char.toLower == ch)
      = List.count ch (tiles.map (fun l => l.char.toLower)) := by
    intro ch
    rw [List.count, List.countP_map]
    rfl
  have hun : ∀ ch : Char,
      tiles.countP (fun l => (l.char.toLower == ch)
          && !((ms.map Tile.id).contains l.id))
        = (if ch = c then 1 else 0) := by
    intro ch
    have hsplit := countP_true_and_not (fun l => l.char.toLower == ch)
      (fun l => (ms.map Tile.id).contains l.id) tiles
    have h1 := hmatched ch
    have h2 := htot ch
    have h3 := hcnt ch
    by_cases he : ch = c
    · subst he
      rw [if_pos rfl] at h3 ⊢
      omega
    · rw [if_neg he] at h3 ⊢
      omega
  have hclass : ∀ l ∈ tiles, (ms.map Tile.id).contains l.id = false →
      l.char.toLower = c := by
    intro l hl hu
    by_contra hne
    have h0 := hun l.char.toLower
    rw [if_neg hne] at h0
    have : 0 < tiles.countP (fun l2 => (l2.char.toLower == l.char.toLower)
        && !((ms.map Tile.id).contains l2.id)) := by
      apply List.countP_pos_iff.mpr
      refine ⟨l, hl, ?_⟩
      rw [hu]
      simp
    omega
  have hone : tiles.countP (fun l => !((ms.map Tile.id).contains l.id)) = 1 := by
    have hcongr : tiles.countP (fun l => !((ms.map Tile.id).contains l.id))
        = tiles.countP (fun l => (l.char.toLower == c)
            && !((ms.map Tile.id).contains l.id)) := by
      apply List.countP_congr
      intro l hl
      constructor
      · intro hu
        have hcl := hclass l hl (by simpa using hu)
        simp [hcl]
        simpa using hu
      · intro hu
        rw [Bool.and_eq_true] at hu
        exact hu.2
    rw [hcongr, hun c, if_pos rfl]
  rw [List.countP_eq_length_filter, List.length_eq_one] at hone
  rcases hone with ⟨l, hlf⟩
  have hlmem : l ∈ tiles.filter (fun l => !((ms.map Tile.id).contains l.id)) := by
    rw [hlf]
    exact List.mem_singleton_self _
  have h1 := List.mem_filter.mp hlmem
  have hnid : l.id ∉ ms.map Tile.id := by
    have := h1.2
    simp only [Bool.not_eq_true'] at this
    simpa using this
  refine ⟨l, h1.1, hnid, hclass l h1.1 (by simpa using hnid), ?_⟩
  intro l2 hl2 hnid2
  have : l2 ∈ tiles.filter (fun l => !((ms.map Tile.id).contains l.id)) := by
    rw [List.mem_filter]
    refine ⟨hl2, ?_⟩
    simpa using hnid2
  rw [hlf] at this
  exact List.mem_singleton.mp this

theorem phase2_cons (isWord : Word → Bool) (clk : Nat → Nat)
    (gw : LetterMap → List Word) (fuel : Nat) (tiles : List Tile)
    (letterCounts : LetterMap) (deadline : Nat) (c : Char) (cs : List Char)
    (t : Nat) :
    phase2 isWord clk gw fuel tiles letterCounts deadline (c :: cs) t
      = if deadline < clk t then
          ({ placements := [], success := false, removedLetter := none }, t + 1)
        else
          match solveGo isWord clk
              (stableSort lenDescLE (gw (lmDec letterCounts c)))
              deadline fuel 0 createEmptyGrid (lmDec letterCounts c) (t + 1) with
          | (some g11, t2) =>
            ({ placements := gridToPlacements g11 tiles,
               success := (gridToPlacements g11 tiles).length == 11,
               removedLetter := some c.toUpper }, t2)
          | (none, t2) =>
            phase2 isWord clk gw fuel tiles letterCounts deadline cs t2 := rfl

theorem phase2_success {isWord : Word → Bool} {clk : Nat → Nat}
    {gw : LetterMap → List Word} {fuel : Nat} {tiles : List Tile}
    {letterCounts : LetterMap} {deadline : Nat} :
    ∀ (cs : List Char) (t : Nat) (res : SolveResult) (t2 : Nat),
      phase2 isWord clk gw fuel tiles letterCounts deadline cs t = (res, t2) →
      res.success = true →
      ∃ c ∈ cs, ∃ g11 t3 t4,
        solveGo isWord clk (stableSort lenDescLE (gw (lmDec letterCounts c)))
          deadline fuel 0 createEmptyGrid (lmDec letterCounts c) t3
          = (some g11, t4) ∧
        res = { placements := gridToPlacements g11 tiles,
                success := (gridToPlacements g11 tiles).length == 11,
                removedLetter := some c.toUpper } := by
  intro cs
  induction cs with
  | nil =>
    intro t res t2 h hs
    unfold phase2 at h
    obtain ⟨h1, -⟩ := Prod.mk.injEq _ _ _ _ ▸ h
    rw [← h1] at hs
    cases hs
  | cons c rest ih =>
    intro t res t2 h hs
    rw [phase2_cons] at h
    by_cases hlate : deadline < clk t
    · rw [if_pos hlate] at h
      obtain ⟨h1, -⟩ := Prod.mk.injEq _ _ _ _ ▸ h
      rw [← h1] at hs
      cases hs
    · rw [if_neg hlate] at h
      rcases hgo : solveGo isWord clk (stableSort lenDescLE (gw (lmDec letterCounts c)))
          deadline fuel 0 createEmptyGrid (lmDec letterCounts c) (t + 1)
        with ⟨og, t3⟩
      rw [hgo] at h
      cases og with
      | some g11 =>
        simp only at h
        obtain ⟨h1, -⟩ := Prod.mk.injEq _ _ _ _ ▸ h
        exact ⟨c, List.mem_cons_self _ _, g11, t + 1, t3, hgo, h1.symm⟩
      | none =>
        simp only at h
        rcases ih _ _ _ h hs with ⟨c2, hc2, rest2⟩
        exact ⟨c2, List.mem_cons_of_mem _ hc2, rest2⟩

theorem solvePuzzle_eq (isWord : Word → Bool) (clk : Nat → Nat)
    (gw : LetterMap → List Word) (fuel : Nat) (tiles : List Tile) (t0 : Nat) :
    solvePuzzle isWord clk gw fuel tiles t0
      = match solveGo isWord clk
            (stableSort lenDescLE
              (gw (buildCounts (tiles.map (fun l => l.char.toLower)))))
            (clk t0 + SOLVE_TIMEOUT) fuel 0 createEmptyGrid
            (buildCounts (tiles.map (fun l => l.char.toLower))) (t0 + 1) with
        | (some g12, t2) =>
          ({ placements := gridToPlacements g12 tiles,
             success := (gridToPlacements g12 tiles).length == 12,
             removedLetter := none }, t2)
        | (none, t2) =>
          phase2 isWord clk gw fuel tiles
            (buildCounts (tiles.map (fun l => l.char.toLower)))
            (clk t0 + SOLVE_TIMEOUT)
            (uniqueFirst (tiles.map (fun l => l.char.toLower))) t2 := rfl

/-- C1: for every call of the solver entry point `solvePuzzle` that returns
`success: true` (with distinct tile ids, uppercase tile characters and a
case-insensitive dictionary), the returned placements define a character
grid that passes the grid validator and whose filled cells form a single
4-connected component; the list contains exactly 12 placements in phase 1
(`removedLetter = none`) and exactly 11 in phase 2, and in phase 2 the
`removedLetter` field equals the character of the unique omitted tile. -/
theorem solvePuzzle_success_invariants
    (isWord : Word → Bool) (clk : Nat → Nat) (gw : LetterMap → List Word)
    (fuel : Nat) (tiles : List Tile) (t0 : Nat) (res : SolveResult) (t1 : Nat)
    (hiw : ∀ s, isWord (s.map Char.toLower) = isWord s)
    (hids : (tiles.map Tile.id).Nodup)
    (hchars : ∀ l ∈ tiles, l.char ∈ upperAlpha)
    (hrun : solvePuzzle isWord clk gw fuel tiles t0 = (res, t1))
    (hsucc : res.success = true) :
    validateAllGridWords isWord (placedGridOf res.placements tiles) = true ∧
    ConnGrid (placedGridOf res.placements tiles) ∧
    (res.removedLetter = none → res.placements.length = 12) ∧
    (∀ c0, res.removedLetter = some c0 →
      res.placements.length = 11 ∧
      ∃ l, l ∈ tiles ∧ l.id ∉ res.placements.map TilePlacement.letterId ∧
        l.char = c0 ∧
        ∀ l2 ∈ tiles, l2.id ∉ res.placements.map TilePlacement.letterId →
          l2 = l) := by
  rw [solvePuzzle_eq] at hrun
  rcases hgo : solveGo isWord clk
      (stableSort lenDescLE
        (gw (buildCounts (tiles.map (fun l => l.char.toLower)))))
      (clk t0 + SOLVE_TIMEOUT) fuel 0 createEmptyGrid
      (buildCounts (tiles.map (fun l => l.char.toLower))) (t0 + 1)
    with ⟨og, t2⟩
  rw [hgo] at hrun
  cases og with
  | some g12 =>
    simp only at hrun
    obtain ⟨h1, -⟩ := Prod.mk.injEq _ _ _ _ ▸ hrun
    subst h1
    have hkeys : ∀ p ∈ buildCounts (tiles.map (fun l => l.char.toLower)),
        p.1 ∈ tiles.map (fun l => l.char.toLower) := buildCounts_keys _
    have hpost := solveGo_post isWord clk _ _ _ _ fuel 0 createEmptyGrid _
      (t0 + 1) g12 t2 (SearchInv_start (buildCounts_values_pos _) hkeys) hgo
    have hB : ∀ ch, lmGet (buildCounts (tiles.map (fun l => l.char.toLower))) ch
        ≤ List.count ch (tiles.map (fun l => l.char.toLower)) := by
      intro ch
      rw [lmGet_buildCounts]
    rcases reified_of_searchPost hiw hids hchars hpost hB
      with ⟨hval, hconn, -⟩
    have hlen12 : (gridToPlacements g12 tiles).length = 12 := by
      simpa using hsucc
    refine ⟨hval, hconn, fun _ => hlen12, ?_⟩
    intro c0 hc0
    simp at hc0
  | none =>
    simp only at hrun
    rcases phase2_success _ _ _ _ hrun hsucc
      with ⟨c, hcmem, g11, t3, t4, hgo11, hres⟩
    subst hres
    have hkeys : ∀ p ∈ lmDec (buildCounts (tiles.map (fun l => l.char.toLower))) c,
        p.1 ∈ tiles.map (fun l => l.char.toLower) := by
      intro p hp
      rcases List.mem_map.mp (lmDec_keys c p hp) with ⟨q, hq, hq1⟩
      rw [← hq1]
      exact buildCounts_keys _ q hq
    have hpost := solveGo_post isWord clk _ _ _ _ fuel 0 createEmptyGrid _
      t3 g11 t4
      (SearchInv_start (lmDec_values_pos c (buildCounts_values_pos _)) hkeys)
      hgo11
    have hB : ∀ ch,
        lmGet (lmDec (buildCounts (tiles.map (fun l => l.char.toLower))) c) ch
        ≤ List.count ch (tiles.map (fun l => l.char.toLower)) := by
      intro ch
      rw [lmGet_lmDec, lmGet_buildCounts, lmGet_buildCounts]
      by_cases he : ch = c
      · rw [if_pos he, he]
        omega
      · rw [if_neg he]
    rcases reified_of_searchPost hiw hids hchars hpost hB
      with ⟨hval, hconn, ms, hmemtiles, hmsnd, hids_eq, -, hcounts, -, -⟩
    have hlen11 : (gridToPlacements g11 tiles).length = 11 := by
      simpa using hsucc
    have hcmem' : c ∈ tiles.map (fun l => l.char.toLower) :=
      uniqueFirst_subset _ c hcmem
    have hcpos : 1 ≤ List.count c (tiles.map (fun l => l.char.toLower)) :=
      List.count_pos_iff.mpr hcmem'
    have hcnt : ∀ ch, ms.countP (fun l => l.char.toLower == ch)
        = (if ch = c
           then List.count c (tiles.map (fun l => l.char.toLower)) - 1
           else List.count ch (tiles.map (fun l => l.char.toLower))) := by
      intro ch
      rw [hcounts ch, lmGet_lmDec, lmGet_buildCounts, lmGet_buildCounts]
    rcases omitted_tile_unique hids hmemtiles hmsnd hcnt hcpos
      with ⟨l, hltiles, hlnid, hlchar, hluniq⟩
    refine ⟨hval, hconn, ?_, ?_⟩
    · intro hn
      simp at hn
    intro c0 hc0
    have hc0' : c0 = c.toUpper := (Option.some.inj hc0).symm
    refine ⟨hlen11, l, hltiles, ?_, ?_, ?_⟩
    · rw [hids_eq]
      exact hlnid
    · rw [hc0', ← hlchar]
      exact (upper_toLower_toUpper _ (hchars l hltiles)).symm
    · intro l2 hl2 hnid2
      apply hluniq l2 hl2
      rw [← hids_eq]
      exact hnid2

/-- C1 witness: the success-invariant theorem applied to a concrete
12-tile instance solved in phase 1. -/
theorem solvePuzzle_success_invariants_witness :
    validateAllGridWords (mkIsWord demoDict)
      (placedGridOf demoRes.placements demoTiles) = true ∧
    ConnGrid (placedGridOf demoRes.placements demoTiles) ∧
    (demoRes.removedLetter = none → demoRes.placements.length = 12) ∧
    (∀ c0, demoRes.removedLetter = some c0 →
      demoRes.placements.length = 11 ∧
      ∃ l, l ∈ demoTiles ∧
        l.id ∉ demoRes.placements.map TilePlacement.letterId ∧
        l.char = c0 ∧
        ∀ l2 ∈ demoTiles,
          l2.id ∉ demoRes.placements.map TilePlacement.letterId → l2 = l) :=
  solvePuzzle_success_invariants (mkIsWord demoDict) (fun _ => 0)
    (mkGetWords demoDict) 8 demoTiles 0 demoRes 4
    (mkIsWord_caseins demoDict) (by decide) (by decide) (by decide) rfl

/-! ## C9: the reifier never asserts -/

/-- C9 counterexample: a filled grid cell that matches no input tile is
silently skipped — `gridToPlacements` returns an (empty, hence incomplete)
placement list and no error, where the specification demands a loud
assertion failure. -/
theorem gridToPlacements_silent_skip :
    gridToPlacements (setCell createEmptyGrid 4 4 'a') [] = [] := by decide

theorem phase2_shape {isWord : Word → Bool} {clk : Nat → Nat}
    {gw : LetterMap → List Word} {fuel : Nat} {tiles : List Tile}
    {letterCounts : LetterMap} {deadline : Nat} :
    ∀ (cs : List Char) (t : Nat) (res : SolveResult) (t2 : Nat),
      phase2 isWord clk gw fuel tiles letterCounts deadline cs t = (res, t2) →
      (res.removedLetter = none →
        res.success = false ∧ res.placements = []) ∧
      (∀ c, res.removedLetter = some c →
        res.success = (res.placements.length == 11)) := by
  intro cs
  induction cs with
  | nil =>
    intro t res t2 h
    unfold phase2 at h
    obtain ⟨h1, -⟩ := Prod.mk.injEq _ _ _ _ ▸ h
    rw [← h1]
    exact ⟨fun _ => ⟨rfl, rfl⟩, fun c hc => by cases hc⟩
  | cons c rest ih =>
    intro t res t2 h
    rw [phase2_cons] at h
    by_cases hlate : deadline < clk t
    · rw [if_pos hlate] at h
      obtain ⟨h1, -⟩ := Prod.mk.injEq _ _ _ _ ▸ h
      rw [← h1]
      exact ⟨fun _ => ⟨rfl, rfl⟩, fun c2 hc => by cases hc⟩
    · rw [if_neg hlate] at h
      rcases hgo : solveGo isWord clk
          (stableSort lenDescLE (gw (lmDec letterCounts c)))
          deadline fuel 0 createEmptyGrid (lmDec letterCounts c) (t + 1)
        with ⟨og, t3⟩
      rw [hgo] at h
      cases og with
      | some g11 =>
        simp only at h
        obtain ⟨h1, -⟩ := Prod.mk.injEq _ _ _ _ ▸ h
        rw [← h1]
        constructor
        · intro hn
          cases hn
        · intro c2 _
          rfl
      | none =>
        simp only at h
        exact ih _ _ _ h

/-- C9 (amended): the reifier does not assert; `solvePuzzle` instead
defines `success` as the boolean comparison of the reified placement count
against 12 (phase 1) or 11 (phase 2), so an unmatched cell only flips
`success` to false while the incomplete list is still returned. -/
theorem solvePuzzle_success_eq_length
    (isWord : Word → Bool) (clk : Nat → Nat) (gw : LetterMap → List Word)
    (fuel : Nat) (tiles : List Tile) (t0 : Nat) (res : SolveResult) (t1 : Nat)
    (hrun : solvePuzzle isWord clk gw fuel tiles t0 = (res, t1)) :
    (res.removedLetter = none →
      res.success = (res.placements.length == 12) ∨
      (res.success = false ∧ res.placements = [])) ∧
    (∀ c, res.removedLetter = some c →
      res.success = (res.placements.length == 11)) := by
  rw [solvePuzzle_eq] at hrun
  rcases hgo : solveGo isWord clk
      (stableSort lenDescLE
        (gw (buildCounts (tiles.map (fun l => l.char.toLower)))))
      (clk t0 + SOLVE_TIMEOUT) fuel 0 createEmptyGrid
      (buildCounts (tiles.map (fun l => l.char.toLower))) (t0 + 1)
    with ⟨og, t2⟩
  rw [hgo] at hrun
  cases og with
  | some g12 =>
    simp only at hrun
    obtain ⟨h1, -⟩ := Prod.mk.injEq _ _ _ _ ▸ hrun
    rw [← h1]
    exact ⟨fun _ => Or.inl rfl, fun c hc => by cases hc⟩
  | none =>
    simp only at hrun
    have := phase2_shape _ _ _ _ hrun
    exact ⟨fun hn => Or.inr ((this.1) hn), this.2⟩

/-- C9 witness: the amended theorem applied to the concrete phase-1 run of
the demonstration instance. -/
theorem solvePuzzle_success_eq_length_witness :
    (demoRes.removedLetter = none →
      demoRes.success = (demoRes.placements.length == 12) ∨
      (demoRes.success = false ∧ demoRes.placements = [])) ∧
    (∀ c, demoRes.removedLetter = some c →
      demoRes.success = (demoRes.placements.length == 11)) :=
  solvePuzzle_success_eq_length (mkIsWord demoDict) (fun _ => 0)
    (mkGetWords demoDict) 8 demoTiles 0 demoRes 4 (by decide)

/-! ## C6: phase-2 removal order -/

/-- C6 counterexample: with tiles `A Q B C` and the dictionary
`rarityDict`, phase 1 fails and `solvePuzzle` reports
`removedLetter = 'A'` — the first letter in first-occurrence order —
although the strictly rarer removal `q` (rarity 10 versus 1) also
succeeds, so an ordering from highest rarity to lowest would have
reported `'Q'`. -/
theorem phase2_not_rarity_order :
    (solvePuzzle (mkIsWord rarityDict) (fun _ => 0) (mkGetWords rarityDict)
        8 rarityTiles 0).1.removedLetter = some 'A' ∧
    (phase2 (mkIsWord rarityDict) (fun _ => 0) (mkGetWords rarityDict)
        8 rarityTiles
        (buildCounts (rarityTiles.map (fun l => l.char.toLower)))
        15000 ['q'] 0).1.removedLetter = some 'Q' ∧
    rarityWeight 'a' < rarityWeight 'q' := by
  refine ⟨?_, ?_, ?_⟩
  · decide
  · decide
  · decide

theorem phase2_first_success_aux
    (isWord : Word → Bool) (clk : Nat → Nat) (gw : LetterMap → List Word)
    (fuel : Nat) (tiles : List Tile) (letterCounts : LetterMap)
    (deadline : Nat) :
    ∀ (cs : List Char) (t : Nat) (res : SolveResult) (t2 : Nat),
      phase2 isWord clk gw fuel tiles letterCounts deadline cs t = (res, t2) →
      ∀ c0, res.removedLetter = some c0 →
      ∃ pre c post, cs = pre ++ c :: post ∧ c0 = c.toUpper ∧
        (∃ ts : List Nat, List.Forall₂ (fun c2 t3 =>
          ¬(deadline < clk t3) ∧ ∃ t4,
            solveGo isWord clk
              (stableSort lenDescLE (gw (lmDec letterCounts c2)))
              deadline fuel 0 createEmptyGrid (lmDec letterCounts c2) (t3 + 1)
              = (none, t4)) pre ts) ∧
        ∃ t5 g11 t6, ¬(deadline < clk t5) ∧
          solveGo isWord clk
            (stableSort lenDescLE (gw (lmDec letterCounts c)))
            deadline fuel 0 createEmptyGrid (lmDec letterCounts c) (t5 + 1)
            = (some g11, t6) ∧
          res.placements = gridToPlacements g11 tiles ∧
          res.success = (res.placements.length == 11) := by
  intro cs
  induction cs with
  | nil =>
    intro t res t2 h c0 hrl
    unfold phase2 at h
    obtain ⟨h1, -⟩ := Prod.mk.injEq _ _ _ _ ▸ h
    rw [← h1] at hrl
    cases hrl
  | cons c rest ih =>
    intro t res t2 h c0 hrl
    rw [phase2_cons] at h
    by_cases hlate : deadline < clk t
    · rw [if_pos hlate] at h
      obtain ⟨h1, -⟩ := Prod.mk.injEq _ _ _ _ ▸ h
      rw [← h1] at hrl
      cases hrl
    · rw [if_neg hlate] at h
      rcases hgo : solveGo isWord clk
          (stableSort lenDescLE (gw (lmDec letterCounts c)))
          deadline fuel 0 createEmptyGrid (lmDec letterCounts c) (t + 1)
        with ⟨og, t3⟩
      rw [hgo] at h
      cases og with
      | some g11 =>
        simp only at h
        obtain ⟨h1, -⟩ := Prod.mk.injEq _ _ _ _ ▸ h
        rw [← h1] at hrl
        have hc0 : c0 = c.toUpper := (Option.some.inj hrl).symm
        refine ⟨[], c, rest, rfl, hc0, ⟨[], List.Forall₂.nil⟩,
          t, g11, t3, hlate, hgo, ?_, ?_⟩
        · rw [← h1]
        · rw [← h1]
      | none =>
        simp only at h
        rcases ih _ _ _ h c0 hrl
          with ⟨pre, c2, post, hcs, hc0, ⟨ts, hts⟩, t5, g11, t6, hl5, hgo2, hpl, hsc⟩
        exact ⟨c :: pre, c2, post, by rw [hcs]; rfl, hc0,
          ⟨t :: ts, List.Forall₂.cons ⟨hlate, t3, hgo⟩ hts⟩,
          t5, g11, t6, hl5, hgo2, hpl, hsc⟩

/-- C6 (amended): the phase-2 loop walks the candidate removal letters in
the order handed to it — `solvePuzzle` passes the distinct lowercased tile
characters in first-occurrence order, not rarity order — and returns on
the first removal whose reduced solve succeeds: each earlier solve
returned `none` without the deadline having been hit, and the result
carries the uppercased successful letter, its reified placements, and a
success flag that only compares the placement count against 11. -/
theorem phase2_first_success
    (isWord : Word → Bool) (clk : Nat → Nat) (gw : LetterMap → List Word)
    (fuel : Nat) (tiles : List Tile) (letterCounts : LetterMap)
    (deadline : Nat) (cs : List Char) (t : Nat) (c0 : Char)
    (hrl : (phase2 isWord clk gw fuel tiles letterCounts deadline cs t).1.removedLetter
        = some c0) :
    ∃ pre c post, cs = pre ++ c :: post ∧ c0 = c.toUpper ∧
      (∃ ts : List Nat, List.Forall₂ (fun c2 t3 =>
        ¬(deadline < clk t3) ∧ ∃ t4,
          solveGo isWord clk
            (stableSort lenDescLE (gw (lmDec letterCounts c2)))
            deadline fuel 0 createEmptyGrid (lmDec letterCounts c2) (t3 + 1)
            = (none, t4)) pre ts) ∧
      ∃ t5 g11 t6, ¬(deadline < clk t5) ∧
        solveGo isWord clk
          (stableSort lenDescLE (gw (lmDec letterCounts c)))
          deadline fuel 0 createEmptyGrid (lmDec letterCounts c) (t5 + 1)
          = (some g11, t6) ∧
        (phase2 isWord clk gw fuel tiles letterCounts deadline cs t).1.placements
          = gridToPlacements g11 tiles ∧
        (phase2 isWord clk gw fuel tiles letterCounts deadline cs t).1.success
          = ((phase2 isWord clk gw fuel tiles letterCounts
              deadline cs t).1.placements.length == 11) := by
  rcases hp2 : phase2 isWord clk gw fuel tiles letterCounts deadline cs t
    with ⟨res, t2⟩
  rw [hp2] at hrl
  rcases phase2_first_success_aux isWord clk gw fuel tiles letterCounts deadline
      cs t res t2 hp2 c0 hrl
    with ⟨pre, c, post, hcs, hc0, hts, t5, g11, t6, hl5, hgo, hpl, hsc⟩
  exact ⟨pre, c, post, hcs, hc0, hts, t5, g11, t6, hl5, hgo, hpl, hsc⟩

theorem rarity_q_removed :
    (phase2 (mkIsWord rarityDict) (fun _ => 0) (mkGetWords rarityDict)
        8 rarityTiles
        (buildCounts (rarityTiles.map (fun l => l.char.toLower)))
        15000 ['q'] 0).1.removedLetter = some 'Q' := by
  decide

/-- C6 witness: the amended first-success description applied to the
concrete one-letter removal list holding only `q` on the rarity
instance. -/
theorem phase2_first_success_witness :
    ∃ pre c post, (['q'] : List Char) = pre ++ c :: post ∧
      ('Q' : Char) = c.toUpper ∧
      (∃ ts : List Nat, List.Forall₂ (fun c2 t3 =>
        ¬(15000 < (fun _ => 0) t3) ∧ ∃ t4,
          solveGo (mkIsWord rarityDict) (fun _ => 0)
            (stableSort lenDescLE (mkGetWords rarityDict
              (lmDec (buildCounts
                (rarityTiles.map (fun l => l.char.toLower))) c2)))
            15000 8 0 createEmptyGrid
            (lmDec (buildCounts
              (rarityTiles.map (fun l => l.char.toLower))) c2) (t3 + 1)
            = (none, t4)) pre ts) ∧
      ∃ t5 g11 t6, ¬(15000 < (fun _ => 0) t5) ∧
        solveGo (mkIsWord rarityDict) (fun _ => 0)
          (stableSort lenDescLE (mkGetWords rarityDict
            (lmDec (buildCounts
              (rarityTiles.map (fun l => l.char.toLower))) c)))
          15000 8 0 createEmptyGrid
          (lmDec (buildCounts
            (rarityTiles.map (fun l => l.char.toLower))) c) (t5 + 1)
          = (some g11, t6) ∧
        (phase2 (mkIsWord rarityDict) (fun _ => 0) (mkGetWords rarityDict)
            8 rarityTiles
            (buildCounts (rarityTiles.map (fun l => l.char.toLower)))
            15000 ['q'] 0).1.placements = gridToPlacements g11 rarityTiles ∧
        (phase2 (mkIsWord rarityDict) (fun _ => 0) (mkGetWords rarityDict)
            8 rarityTiles
            (buildCounts (rarityTiles.map (fun l => l.char.toLower)))
            15000 ['q'] 0).1.success
          = ((phase2 (mkIsWord rarityDict) (fun _ => 0) (mkGetWords rarityDict)
              8 rarityTiles
              (buildCounts (rarityTiles.map (fun l => l.char.toLower)))
              15000 ['q'] 0).1.placements.length == 11) := by
  have h := phase2_first_success (mkIsWord rarityDict) (fun _ => 0)
    (mkGetWords rarityDict) 8 rarityTiles
    (buildCounts (rarityTiles.map (fun l => l.char.toLower))) 15000
    ['q'] 0 'Q' rarity_q_removed
  exact h

/-! ## C7 and C8: the word-combination solver, randomness and deadlines -/

theorem shuffleGo_tick_ge (rng : Nat → Nat × Nat) :
    ∀ (i : Nat) (a : List α) (t : Nat), t ≤ (shuffleGo rng i a t).2 := by
  intro i
  induction i with
  | zero => intro a t; exact Nat.le_refl t
  | succ i ih =>
    intro a t
    unfold shuffleGo
    exact Nat.le_trans (Nat.le_succ t) (ih _ _)

theorem s1Outer_late (isWord : Word → Bool) (clk : Nat → Nat)
    (deadline : Int) (allWords : List Word) (m : LetterMap) (targetSum : Nat)
    (ws : List Word) (a cb t : Nat) (hl : deadline < (clk t : Int)) :
    ∃ t2, s1Outer isWord clk deadline allWords m targetSum ws a cb t
        = (none, a, cb, t2) ∧ t ≤ t2 := by
  cases ws with
  | nil => exact ⟨t, rfl, Nat.le_refl t⟩
  | cons w rest =>
    refine ⟨t + 1, ?_, Nat.le_succ t⟩
    unfold s1Outer
    rw [if_pos hl]

theorem s2Outer_late (isWord : Word → Bool) (clk : Nat → Nat)
    (deadline : Int) (allWords : List Word) (m : LetterMap)
    (words3Short : List Word) (ws : List Word) (a cb t : Nat)
    (hl : deadline < (clk t : Int)) :
    ∃ t2, s2Outer isWord clk deadline allWords m words3Short ws a cb t
        = (none, a, cb, t2) ∧ t ≤ t2 := by
  cases ws with
  | nil => exact ⟨t, rfl, Nat.le_refl t⟩
  | cons w rest =>
    refine ⟨t + 1, ?_, Nat.le_succ t⟩
    unfold s2Outer
    rw [if_pos hl]

theorem solveV4_eq (isWord : Word → Bool) (gw : LetterMap → List Word)
    (clk : Nat → Nat) (rng : Nat → Nat × Nat) (m : LetterMap)
    (target : Nat) (timeoutMs : Int) (t : Nat) :
    solveV4 isWord gw clk rng m target timeoutMs t
      = (if (stableSort lenDescLE ((gw m).filter
            (fun w => decide (3 ≤ w.length) && decide (w.length ≤ 8)))).isEmpty
         then ⟨none, 0, 0, t + 1⟩
         else
           match shuffle rng
               (((stableSort lenDescLE ((gw m).filter
                   (fun w => decide (3 ≤ w.length) && decide (w.length ≤ 8)))).filter
                  (fun w => decide (5 ≤ w.length)))
                ++ (stableSort lenDescLE ((gw m).filter
                   (fun w => decide (3 ≤ w.length) && decide (w.length ≤ 8)))).take 100)
               (t + 1) with
           | (wordsToTry, t2) =>
             match s1Outer isWord clk ((clk t : Int) + timeoutMs)
                 (stableSort lenDescLE ((gw m).filter
                   (fun w => decide (3 ≤ w.length) && decide (w.length ≤ 8))))
                 m (target + 1) wordsToTry 0 0 t2 with
             | (some g, a, cb, t3) => ⟨some g, a, cb, t3⟩
             | (none, a, cb, t3) =>
               match shuffle rng
                   (((stableSort lenDescLE ((gw m).filter
                       (fun w => decide (3 ≤ w.length) && decide (w.length ≤ 8)))).filter
                      (fun w => decide (4 ≤ w.length) && decide (w.length ≤ 6)))
                    ++ (stableSort lenDescLE ((gw m).filter
                       (fun w => decide (3 ≤ w.length) && decide (w.length ≤ 8)))).take 80)
                   t3 with
               | (words3Try, t4) =>
                 match s2Outer isWord clk ((clk t : Int) + timeoutMs)
                     (stableSort lenDescLE ((gw m).filter
                       (fun w => decide (3 ≤ w.length) && decide (w.length ≤ 8))))
                     m (words3Try.take 60) (words3Try.take 50) a cb t4 with
                 | (res, a2, cb2, t5) => ⟨res, a2, cb2, t5⟩) := rfl

/-- C8 counterexample: with the clock frozen at the call instant, a
timeout of 0 does not stop the word-combination solver: every strict `>`
deadline check fails, one combination is counted, one placement is
attempted, and `solvePuzzleV4` returns the twelve-tile solution as a
success. -/
theorem solveV4_deadline_zero_not_immediate :
    (solvePuzzleV4 (mkIsWord v4Dict) (mkGetWords v4Dict) (fun _ => 0)
        (fun _ => (0, 1)) v4Tiles 0 0).1.success = true ∧
    (solveV4 (mkIsWord v4Dict) (mkGetWords v4Dict) (fun _ => 0)
        (fun _ => (0, 1))
        (buildCounts (v4Tiles.map (fun l => l.char.toLower))) 12 0 0).attempts
      = 1 ∧
    (solveV4 (mkIsWord v4Dict) (mkGetWords v4Dict) (fun _ => 0)
        (fun _ => (0, 1))
        (buildCounts (v4Tiles.map (fun l => l.char.toLower)))
        12 0 0).combosChecked = 1 := by
  refine ⟨?_, ?_, ?_⟩
  · decide
  · decide
  · decide

/-- C8 (amended): under a strictly advancing clock, a `solve` call with
timeout 0 is late at its very first deadline check in each strategy: no
combination is counted, no placement is attempted, and no grid is
returned. -/
theorem solveV4_timeout_zero
    (isWord : Word → Bool) (gw : LetterMap → List Word) (clk : Nat → Nat)
    (rng : Nat → Nat × Nat) (m : LetterMap) (target : Nat) (t0 : Nat)
    (hmono : ∀ a b : Nat, a < b → clk a < clk b) :
    (solveV4 isWord gw clk rng m target 0 t0).grid = none ∧
    (solveV4 isWord gw clk rng m target 0 t0).attempts = 0 ∧
    (solveV4 isWord gw clk rng m target 0 t0).combosChecked = 0 := by
  have hkey : ∀ t, t0 < t → (clk t0 : Int) + 0 < (clk t : Int) := by
    intro t ht
    have := hmono t0 t ht
    omega
  rw [solveV4_eq]
  by_cases he : (stableSort lenDescLE ((gw m).filter
      (fun w => decide (3 ≤ w.length) && decide (w.length ≤ 8)))).isEmpty
  · rw [if_pos he]
    exact ⟨rfl, rfl, rfl⟩
  · rw [if_neg he]
    rcases hsh : shuffle rng
        (((stableSort lenDescLE ((gw m).filter
            (fun w => decide (3 ≤ w.length) && decide (w.length ≤ 8)))).filter
           (fun w => decide (5 ≤ w.length)))
         ++ (stableSort lenDescLE ((gw m).filter
            (fun w => decide (3 ≤ w.length) && decide (w.length ≤ 8)))).take 100)
        (t0 + 1) with ⟨wordsToTry, t2⟩
    have ht2 : t0 + 1 ≤ t2 := by
      have h := shuffleGo_tick_ge rng
        ((((stableSort lenDescLE ((gw m).filter
            (fun w => decide (3 ≤ w.length) && decide (w.length ≤ 8)))).filter
           (fun w => decide (5 ≤ w.length)))
         ++ (stableSort lenDescLE ((gw m).filter
            (fun w => decide (3 ≤ w.length) && decide (w.length ≤ 8)))).take 100).length - 1)
        (((stableSort lenDescLE ((gw m).filter
            (fun w => decide (3 ≤ w.length) && decide (w.length ≤ 8)))).filter
           (fun w => decide (5 ≤ w.length)))
         ++ (stableSort lenDescLE ((gw m).filter
            (fun w => decide (3 ≤ w.length) && decide (w.length ≤ 8)))).take 100)
        (t0 + 1)
      unfold shuffle at hsh
      rw [hsh] at h
      exact h
    rcases s1Outer_late isWord clk ((clk t0 : Int) + 0)
        (stableSort lenDescLE ((gw m).filter
          (fun w => decide (3 ≤ w.length) && decide (w.length ≤ 8))))
        m (target + 1) wordsToTry 0 0 t2 (hkey t2 (by omega))
      with ⟨t3, hs1, ht3⟩
    dsimp only
    rw [hs1]
    dsimp only
    rcases hsh2 : shuffle rng
        (((stableSort lenDescLE ((gw m).filter
            (fun w => decide (3 ≤ w.length) && decide (w.length ≤ 8)))).filter
           (fun w => decide (4 ≤ w.length) && decide (w.length ≤ 6)))
         ++ (stableSort lenDescLE ((gw m).filter
            (fun w => decide (3 ≤ w.length) && decide (w.length ≤ 8)))).take 80)
        t3 with ⟨words3Try, t4⟩
    have ht4 : t3 ≤ t4 := by
      have h := shuffleGo_tick_ge rng
        ((((stableSort lenDescLE ((gw m).filter
            (fun w => decide (3 ≤ w.length) && decide (w.length ≤ 8)))).filter
           (fun w => decide (4 ≤ w.length) && decide (w.length ≤ 6)))
         ++ (stableSort lenDescLE ((gw m).filter
            (fun w => decide (3 ≤ w.length) && decide (w.length ≤ 8)))).take 80).length - 1)
        (((stableSort lenDescLE ((gw m).filter
            (fun w => decide (3 ≤ w.length) && decide (w.length ≤ 8)))).filter
           (fun w => decide (4 ≤ w.length) && decide (w.length ≤ 6)))
         ++ (stableSort lenDescLE ((gw m).filter
            (fun w => decide (3 ≤ w.length) && decide (w.length ≤ 8)))).take 80)
        t3
      unfold shuffle at hsh2
      rw [hsh2] at h
      exact h
    rcases s2Outer_late isWord clk ((clk t0 : Int) + 0)
        (stableSort lenDescLE ((gw m).filter
          (fun w => decide (3 ≤ w.length) && decide (w.length ≤ 8))))
        m (words3Try.take 60) (words3Try.take 50) 0 0 t4 (hkey t4 (by omega))
      with ⟨t5, hs2, -⟩
    dsimp only
    rw [hs2]
    exact ⟨rfl, rfl, rfl⟩

/-- C8 witness: the amended theorem at the concrete twelve-tile instance
with the identity clock. -/
theorem solveV4_timeout_zero_witness :
    (solveV4 (mkIsWord v4Dict) (mkGetWords v4Dict) (fun t => t)
        (fun _ => (0, 1))
        (buildCounts (v4Tiles.map (fun l => l.char.toLower))) 12 0 0).grid
      = none ∧
    (solveV4 (mkIsWord v4Dict) (mkGetWords v4Dict) (fun t => t)
        (fun _ => (0, 1))
        (buildCounts (v4Tiles.map (fun l => l.char.toLower))) 12 0 0).attempts
      = 0 ∧
    (solveV4 (mkIsWord v4Dict) (mkGetWords v4Dict) (fun t => t)
        (fun _ => (0, 1))
        (buildCounts (v4Tiles.map (fun l => l.char.toLower)))
        12 0 0).combosChecked = 0 := by
  have h := solveV4_timeout_zero (mkIsWord v4Dict) (mkGetWords v4Dict)
    (fun t => t) (fun _ => (0, 1))
    (buildCounts (v4Tiles.map (fun l => l.char.toLower)))
    12 0 (fun a b hab => hab)
  exact h

/-- C7: the specification requires all randomness to sit behind an
externally supplied seed, but no seed parameter exists anywhere in the
code — `shuffle` consumes raw `Math.random()`.  Two calls of
`solvePuzzleV4` on identical tiles and timeout that differ only in the
ambient random stream, which no caller can fix, return different
placements. -/
theorem solvePuzzleV4_rng_dependent :
    ((solvePuzzleV4 (mkIsWord v4Dict) (mkGetWords v4Dict) (fun _ => 0)
        (fun _ => (0, 1)) v4Tiles 25000 0).1.placements.headD ⟨0, 0, 0⟩)
      ≠ ((solvePuzzleV4 (mkIsWord v4Dict) (mkGetWords v4Dict) (fun _ => 0)
        (fun _ => (1, 2)) v4Tiles 25000 0).1.placements.headD ⟨0, 0, 0⟩) := by
  decide

/-! ## The game grid seen as a character grid -/

theorem charGrid_row (g : LetterGrid) (r : Nat) :
    (charGridOf g).getD r [] = (g.getD r []).map (fun o => o.map Tile.char) := by
  unfold charGridOf
  by_cases hr : r < g.length
  · rw [List.getD_eq_getElem _ _ (by simpa using hr),
      List.getD_eq_getElem _ _ hr, List.getElem_map]
  · rw [List.getD_eq_default _ _ (by simpa using Nat.le_of_not_lt hr),
      List.getD_eq_default _ _ (Nat.le_of_not_lt hr)]
    rfl

theorem cellAt_charGridOf (g : LetterGrid) (r c : Nat) :
    cellAt (charGridOf g) r c = (cellAtL g r c).map Tile.char := by
  show ((charGridOf g).getD r []).getD c none
    = (((g.getD r []).getD c none)).map Tile.char
  rw [charGrid_row]
  by_cases hc : c < (g.getD r []).length
  · rw [List.getD_eq_getElem _ _ (by simpa using hc),
      List.getD_eq_getElem _ _ hc, List.getElem_map]
  · rw [List.getD_eq_default _ _ (by simpa using Nat.le_of_not_lt hc),
      List.getD_eq_default _ _ (Nat.le_of_not_lt hc)]
    rfl

theorem charGridOf_setCellL (g : LetterGrid) (r c : Nat) (tl : Tile) :
    charGridOf (setCellL g r c (some tl))
      = setCell (charGridOf g) r c tl.char := by
  show (setCellL g r c (some tl)).map (fun row => row.map (fun o => o.map Tile.char))
    = (charGridOf g).set r (((charGridOf g).getD r []).set c (some tl.char))
  unfold setCellL
  rw [List.map_set]
  congr 1
  rw [List.map_set, charGrid_row]
  rfl

theorem charGridOf_empty : charGridOf emptyLetterGrid = createEmptyGrid := by
  unfold charGridOf emptyLetterGrid createEmptyGrid
  rw [List.map_replicate, List.map_replicate]
  rfl

/-! ## Correctness of the connectivity BFS -/

theorem filledAt_charGridOf {g : LetterGrid} {q : Cell} :
    filledAt (charGridOf g) q ↔ (cellAtL g q.1 q.2).isSome = true := by
  unfold filledAt
  rw [cellAt_charGridOf]
  cases cellAtL g q.1 q.2 <;> simp

theorem mem_placedCellsOf {g : LetterGrid} {q : Cell} :
    q ∈ placedCellsOf g ↔
      q.1 < GRID_SIZE ∧ q.2 < GRID_SIZE
        ∧ (cellAtL g q.1 q.2).isSome = true := by
  obtain ⟨r, c⟩ := q
  simp only [placedCellsOf, List.mem_flatMap, List.mem_filterMap, List.mem_range]
  constructor
  · rintro ⟨r2, hr2, c2, hc2, he⟩
    by_cases hs : (cellAtL g r2 c2).isSome = true
    · rw [if_pos hs] at he
      have h1 := Option.some.inj he
      obtain ⟨e1, e2⟩ := Prod.mk.injEq _ _ _ _ ▸ h1
      subst e1
      subst e2
      exact ⟨hr2, hc2, hs⟩
    · rw [if_neg hs] at he
      cases he
  · rintro ⟨h1, h2, h3⟩
    exact ⟨r, h1, c, h2, by rw [if_pos h3]⟩

theorem placedCellsOf_eq (g : LetterGrid) :
    placedCellsOf g = (filledCellsOf (charGridOf g)).map (·.1) := by
  unfold placedCellsOf filledCellsOf
  rw [List.map_flatMap]
  rw [List.flatMap_def, List.flatMap_def]
  congr 1
  apply List.map_congr_left
  intro r _
  rw [List.map_filterMap]
  apply List.filterMap_congr
  intro c _
  rw [cellAt_charGridOf]
  cases h : cellAtL g r c <;> simp

theorem nodup_placedCellsOf (g : LetterGrid) : (placedCellsOf g).Nodup := by
  rw [placedCellsOf_eq]
  exact nodup_filledCells_fst _

theorem neighborsOf_adj {cell : Cell} {n : Int × Int}
    (hn : n ∈ neighborsOf cell) (h1 : 0 ≤ n.1) (h2 : 0 ≤ n.2) :
    cellAdj cell (n.1.toNat, n.2.toNat) := by
  unfold neighborsOf at hn
  simp only [List.mem_cons, List.not_mem_nil, or_false] at hn
  unfold cellAdj
  obtain ⟨r, c⟩ := cell
  rcases hn with rfl | rfl | rfl | rfl <;>
    (dsimp only at h1 h2 ⊢) <;> omega

theorem adj_mem_neighbors {cell y : Cell} (hadj : cellAdj cell y) :
    ∃ n ∈ neighborsOf cell, 0 ≤ n.1 ∧ 0 ≤ n.2
      ∧ y = (n.1.toNat, n.2.toNat) := by
  unfold cellAdj at hadj
  unfold neighborsOf
  obtain ⟨r, c⟩ := cell
  obtain ⟨yr, yc⟩ := y
  simp only at hadj
  rcases hadj with ⟨he, hd | hd⟩ | ⟨he, hd | hd⟩
  · refine ⟨((r : Int), (c : Int) + 1), by simp, by omega, by omega, ?_⟩
    rw [Prod.mk.injEq]
    constructor <;> omega
  · refine ⟨((r : Int), (c : Int) - 1), by simp, by omega, by omega, ?_⟩
    rw [Prod.mk.injEq]
    constructor <;> omega
  · refine ⟨((r : Int) + 1, (c : Int)), by simp, by omega, by omega, ?_⟩
    rw [Prod.mk.injEq]
    constructor <;> omega
  · refine ⟨((r : Int) - 1, (c : Int)), by simp, by omega, by omega, ?_⟩
    rw [Prod.mk.injEq]
    constructor <;> omega

theorem visited_card_le {vis : Finset Cell}
    (h : ∀ x ∈ vis, x.1 < GRID_SIZE ∧ x.2 < GRID_SIZE) : vis.card ≤ 64 := by
  have hsub : vis ⊆ (Finset.range GRID_SIZE) ×ˢ (Finset.range GRID_SIZE) := by
    intro x hx
    rw [Finset.mem_product, Finset.mem_range, Finset.mem_range]
    exact ⟨(h x hx).1, (h x hx).2⟩
  have := Finset.card_le_card hsub
  simpa using this

theorem bfs_fold_spec {g : LetterGrid} :
    ∀ (ns : List (Int × Int)) (qs : List Cell) (vis : Finset Cell),
    ∃ delta : List Cell,
      ns.foldl (fun (acc : List Cell × Finset Cell) n =>
        if 0 ≤ n.1 ∧ n.1 < (GRID_SIZE : Int) ∧ 0 ≤ n.2 ∧ n.2 < (GRID_SIZE : Int)
            ∧ (cellAtL g n.1.toNat n.2.toNat).isSome = true
            ∧ (n.1.toNat, n.2.toNat) ∉ acc.2
        then (acc.1 ++ [((n.1.toNat, n.2.toNat) : Cell)],
              insert ((n.1.toNat, n.2.toNat) : Cell) acc.2)
        else acc) (qs, vis)
      = (qs ++ delta, vis ∪ delta.toFinset) ∧
      delta.Nodup ∧ (∀ d ∈ delta, d ∉ vis) ∧
      (∀ d ∈ delta, ∃ n ∈ ns, d = ((n.1.toNat, n.2.toNat) : Cell)
        ∧ 0 ≤ n.1 ∧ n.1 < (GRID_SIZE : Int) ∧ 0 ≤ n.2 ∧ n.2 < (GRID_SIZE : Int)
        ∧ (cellAtL g d.1 d.2).isSome = true) ∧
      (∀ n ∈ ns, 0 ≤ n.1 → n.1 < (GRID_SIZE : Int) → 0 ≤ n.2 →
        n.2 < (GRID_SIZE : Int) →
        (cellAtL g n.1.toNat n.2.toNat).isSome = true →
        ((n.1.toNat, n.2.toNat) : Cell) ∈ vis ∪ delta.toFinset) := by
  intro ns
  induction ns with
  | nil =>
    intro qs vis
    refine ⟨[], ?_, List.nodup_nil, ?_, ?_, ?_⟩
    · simp
    · intro d hd
      cases hd
    · intro d hd
      cases hd
    · intro n hn
      cases hn
  | cons n rest ih =>
    intro qs vis
    rw [List.foldl_cons]
    by_cases hc : 0 ≤ n.1 ∧ n.1 < (GRID_SIZE : Int) ∧ 0 ≤ n.2
        ∧ n.2 < (GRID_SIZE : Int)
        ∧ (cellAtL g n.1.toNat n.2.toNat).isSome = true
        ∧ ((n.1.toNat, n.2.toNat) : Cell) ∉ vis
    · rw [if_pos hc]
      rcases ih (qs ++ [((n.1.toNat, n.2.toNat) : Cell)])
          (insert ((n.1.toNat, n.2.toNat) : Cell) vis)
        with ⟨delta, heq, hnd, hnotin, hsrc, hcov⟩
      refine ⟨((n.1.toNat, n.2.toNat) : Cell) :: delta, ?_, ?_, ?_, ?_, ?_⟩
      · rw [heq]
        rw [Prod.mk.injEq]
        constructor
        · simp
        · ext x
          simp only [Finset.mem_union, Finset.mem_insert, List.toFinset_cons,
            List.mem_toFinset]
          tauto
      · rw [List.nodup_cons]
        refine ⟨?_, hnd⟩
        intro hmem
        exact hnotin _ hmem (Finset.mem_insert_self _ _)
      · intro d hd
        rcases List.mem_cons.mp hd with rfl | hd2
        · exact hc.2.2.2.2.2
        · intro hdv
          exact hnotin d hd2 (Finset.mem_insert_of_mem hdv)
      · intro d hd
        rcases List.mem_cons.mp hd with rfl | hd2
        · exact ⟨n, List.mem_cons_self _ _, rfl, hc.1, hc.2.1, hc.2.2.1,
            hc.2.2.2.1, hc.2.2.2.2.1⟩
        · rcases hsrc d hd2 with ⟨n2, hn2, rest2⟩
          exact ⟨n2, List.mem_cons_of_mem _ hn2, rest2⟩
      · intro n2 hn2 e1 e2 e3 e4 e5
        rcases List.mem_cons.mp hn2 with rfl | hn3
        · rw [Finset.mem_union]
          right
          rw [List.toFinset_cons, Finset.mem_insert]
          exact Or.inl rfl
        · have hm := hcov n2 hn3 e1 e2 e3 e4 e5
          rw [Finset.mem_union] at hm ⊢
          rcases hm with hm | hm
          · rcases Finset.mem_insert.mp hm with h2 | h2
            · right
              rw [List.toFinset_cons, Finset.mem_insert]
              exact Or.inl h2
            · exact Or.inl h2
          · right
            rw [List.toFinset_cons, Finset.mem_insert]
            exact Or.inr hm
    · rw [if_neg hc]
      rcases ih qs vis with ⟨delta, heq, hnd, hnotin, hsrc, hcov⟩
      refine ⟨delta, heq, hnd, hnotin, ?_, ?_⟩
      · intro d hd
        rcases hsrc d hd with ⟨n2, hn2, rest2⟩
        exact ⟨n2, List.mem_cons_of_mem _ hn2, rest2⟩
      · intro n2 hn2 e1 e2 e3 e4 e5
        rcases List.mem_cons.mp hn2 with rfl | hn3
        · by_cases hv : ((n2.1.toNat, n2.2.toNat) : Cell) ∈ vis
          · rw [Finset.mem_union]
            exact Or.inl hv
          · exact absurd ⟨e1, e2, e3, e4, e5, hv⟩ hc
        · exact hcov n2 hn3 e1 e2 e3 e4 e5

theorem bfsAux_cons (g : LetterGrid) (fuel : Nat) (cell : Cell)
    (qs : List Cell) (vis : Finset Cell) :
    bfsAux g (fuel + 1) (cell :: qs) vis
      = bfsAux g fuel
          ((neighborsOf cell).foldl
            (fun (acc : List Cell × Finset Cell) n =>
              if 0 ≤ n.1 ∧ n.1 < (GRID_SIZE : Int) ∧ 0 ≤ n.2
                  ∧ n.2 < (GRID_SIZE : Int)
                  ∧ (cellAtL g n.1.toNat n.2.toNat).isSome = true
                  ∧ (n.1.toNat, n.2.toNat) ∉ acc.2
              then (acc.1 ++ [((n.1.toNat, n.2.toNat) : Cell)],
                    insert ((n.1.toNat, n.2.toNat) : Cell) acc.2)
              else acc) (qs, vis)).1
          ((neighborsOf cell).foldl
            (fun (acc : List Cell × Finset Cell) n =>
              if 0 ≤ n.1 ∧ n.1 < (GRID_SIZE : Int) ∧ 0 ≤ n.2
                  ∧ n.2 < (GRID_SIZE : Int)
                  ∧ (cellAtL g n.1.toNat n.2.toNat).isSome = true
                  ∧ (n.1.toNat, n.2.toNat) ∉ acc.2
              then (acc.1 ++ [((n.1.toNat, n.2.toNat) : Cell)],
                    insert ((n.1.toNat, n.2.toNat) : Cell) acc.2)
              else acc) (qs, vis)).2 := rfl

theorem bfsAux_complete {g : LetterGrid} (hWF : gridWF (charGridOf g))
    (start : Cell) :
    ∀ (fuel : Nat) (q : List Cell) (vis : Finset Cell),
      BFSInv g start q vis →
      q.length + 2 * (64 - vis.card) ≤ fuel →
      ∃ visF, bfsAux g fuel q vis = visF ∧ vis ⊆ visF ∧
        (∀ x ∈ visF, x.1 < GRID_SIZE ∧ x.2 < GRID_SIZE ∧
            (cellAtL g x.1 x.2).isSome = true) ∧
        (∀ x ∈ visF, Relation.ReflTransGen (stepIn (charGridOf g)) start x) ∧
        (∀ x ∈ visF, ∀ y, stepIn (charGridOf g) x y → y ∈ visF) := by
  intro fuel
  induction fuel with
  | zero =>
    intro q vis hinv hm
    have hq : q = [] := List.length_eq_zero.mp (by omega)
    subst hq
    refine ⟨vis, rfl, Finset.Subset.refl _, hinv.2.2.1, hinv.2.2.2.1, ?_⟩
    intro x hx y hstep
    exact hinv.2.2.2.2 x hx (List.not_mem_nil x) y hstep
  | succ fuel ih =>
    intro q vis hinv hm
    obtain ⟨hnd, hqv, hI1, hI4, hI5⟩ := hinv
    cases q with
    | nil =>
      refine ⟨vis, rfl, Finset.Subset.refl _, hI1, hI4, ?_⟩
      intro x hx y hstep
      exact hI5 x hx (List.not_mem_nil x) y hstep
    | cons cell qs =>
      rcases bfs_fold_spec (g := g) (neighborsOf cell) qs vis
        with ⟨delta, heq, hdnd, hdnotin, hdsrc, hdcov⟩
      have hcellv : cell ∈ vis := hqv cell (List.mem_cons_self _ _)
      have hcellp := hI1 cell hcellv
      have hvisle : vis.card ≤ 64 :=
        visited_card_le (fun x hx => ⟨(hI1 x hx).1, (hI1 x hx).2.1⟩)
      have hdbounds : ∀ d ∈ delta, d.1 < GRID_SIZE ∧ d.2 < GRID_SIZE ∧
          (cellAtL g d.1 d.2).isSome = true := by
        intro d hd
        rcases hdsrc d hd with ⟨n, -, hde, e1, e2, e3, e4, e5⟩
        refine ⟨?_, ?_, e5⟩
        · rw [hde]
          show n.1.toNat < GRID_SIZE
          omega
        · rw [hde]
          show n.2.toNat < GRID_SIZE
          omega
      have hdisj : Disjoint vis delta.toFinset := by
        rw [Finset.disjoint_right]
        intro d hd
        exact hdnotin d (List.mem_toFinset.mp hd)
      have hinv2 : BFSInv g start (qs ++ delta) (vis ∪ delta.toFinset) := by
        refine ⟨?_, ?_, ?_, ?_, ?_⟩
        · rw [List.nodup_append]
          refine ⟨List.Nodup.of_cons hnd, hdnd, ?_⟩
          intro x hx1 hx2
          exact hdnotin x hx2 (hqv x (List.mem_cons_of_mem _ hx1))
        · intro x hx
          rcases List.mem_append.mp hx with hx | hx
          · exact Finset.mem_union_left _ (hqv x (List.mem_cons_of_mem _ hx))
          · exact Finset.mem_union_right _ (List.mem_toFinset.mpr hx)
        · intro x hx
          rcases Finset.mem_union.mp hx with hx | hx
          · exact hI1 x hx
          · exact hdbounds x (List.mem_toFinset.mp hx)
        · intro x hx
          rcases Finset.mem_union.mp hx with hx | hx
          · exact hI4 x hx
          · rcases hdsrc x (List.mem_toFinset.mp hx)
              with ⟨n, hn, hde, e1, e2, e3, e4, e5⟩
            refine Relation.ReflTransGen.tail (hI4 cell hcellv) ?_
            refine ⟨filledAt_charGridOf.mpr hcellp.2.2,
              filledAt_charGridOf.mpr e5, ?_⟩
            rw [hde]
            exact neighborsOf_adj hn e1 e3
        · intro x hx hnq y hstep
          rcases Finset.mem_union.mp hx with hx | hx
          · by_cases hxc : x = cell
            · subst hxc
              have hyb : y.1 < GRID_SIZE ∧ y.2 < GRID_SIZE := by
                by_contra hc
                have : cellAt (charGridOf g) y.1 y.2 = none :=
                  cellAt_oob hWF (by omega)
                have hyf := hstep.2.1
                unfold filledAt at hyf
                rw [this] at hyf
                cases hyf
              rcases adj_mem_neighbors hstep.2.2 with ⟨n, hn, e1, e3, hye⟩
              have hyF : (cellAtL g y.1 y.2).isSome = true :=
                filledAt_charGridOf.mp hstep.2.1
              have := hdcov n hn e1 (by rw [hye] at hyb; omega) e3
                (by rw [hye] at hyb; omega)
                (by rw [hye] at hyF; exact hyF)
              rw [← hye] at this
              exact this
            · refine Finset.mem_union_left _ (hI5 x hx ?_ y hstep)
              intro hc
              rcases List.mem_cons.mp hc with hc | hc
              · exact hxc hc
              · exact hnq (List.mem_append_left _ hc)
          · exact absurd
              (List.mem_append_right _ (List.mem_toFinset.mp hx)) hnq
      have hcard : (vis ∪ delta.toFinset).card = vis.card + delta.length := by
        rw [Finset.card_union_of_disjoint hdisj,
          List.toFinset_card_of_nodup hdnd]
      have hvisle2 : (vis ∪ delta.toFinset).card ≤ 64 :=
        visited_card_le (fun x hx => ⟨(hinv2.2.2.1 x hx).1,
          (hinv2.2.2.1 x hx).2.1⟩)
      have hm2 : (qs ++ delta).length
          + 2 * (64 - (vis ∪ delta.toFinset).card) ≤ fuel := by
        rw [List.length_append, hcard]
        rw [hcard] at hvisle2
        have hql : (cell :: qs).length = qs.length + 1 := rfl
        rw [hql] at hm
        omega
      rcases ih (qs ++ delta) (vis ∪ delta.toFinset) hinv2 hm2
        with ⟨visF, hrun, hsub, r1, r2, r3⟩
      refine ⟨visF, ?_, ?_, r1, r2, r3⟩
      · rw [bfsAux_cons, heq]
        exact hrun
      · exact Finset.Subset.trans Finset.subset_union_left hsub

theorem areAllLettersConnected_of_conn {g : LetterGrid}
    (hWF : gridWF (charGridOf g)) (hconn : ConnGrid (charGridOf g)) :
    areAllLettersConnected g = true := by
  unfold areAllLettersConnected
  rcases hp : placedCellsOf g with _ | ⟨start, rest⟩
  · rfl
  · have hstart : start ∈ placedCellsOf g := by
      rw [hp]
      exact List.mem_cons_self _ _
    have hsprops := mem_placedCellsOf.mp hstart
    have hinv : BFSInv g start [start] {start} := by
      refine ⟨List.nodup_singleton _, ?_, ?_, ?_, ?_⟩
      · intro x hx
        rcases List.mem_singleton.mp hx with rfl
        exact Finset.mem_singleton_self _
      · intro x hx
        rcases Finset.mem_singleton.mp hx with rfl
        exact hsprops
      · intro x hx
        rcases Finset.mem_singleton.mp hx with rfl
        exact Relation.ReflTransGen.refl
      · intro x hx hnq
        exfalso
        apply hnq
        rcases Finset.mem_singleton.mp hx with rfl
        exact List.mem_singleton_self _
    have hm : ([start] : List Cell).length
        + 2 * (64 - ({start} : Finset Cell).card) ≤ bfsFuel := by
      rw [Finset.card_singleton]
      norm_num [bfsFuel]
    rcases bfsAux_complete hWF start bfsFuel [start] {start} hinv hm
      with ⟨visF, hrunEq, hsub, hB, hR, hC⟩
    show ((bfsAux g bfsFuel [start] {start}).card
        == (start :: rest).length) = true
    rw [hrunEq]
    have hmemF : ∀ x, x ∈ visF ↔ x ∈ placedCellsOf g := by
      intro x
      constructor
      · intro hx
        exact mem_placedCellsOf.mpr (hB x hx)
      · intro hx
        have hxf : filledAt (charGridOf g) x :=
          filledAt_charGridOf.mpr (mem_placedCellsOf.mp hx).2.2
        have hsf : filledAt (charGridOf g) start :=
          filledAt_charGridOf.mpr hsprops.2.2
        have hreach := hconn start x hsf hxf
        clear hx hxf
        induction hreach with
        | refl => exact hsub (Finset.mem_singleton_self _)
        | tail h1 h2 ih => exact hC _ ih _ h2
    have hcard : visF.card = (start :: rest).length := by
      have h1 : visF = (placedCellsOf g).toFinset := by
        apply Finset.ext
        intro x
        rw [List.mem_toFinset]
        exact hmemF x
      rw [h1, List.toFinset_card_of_nodup (nodup_placedCellsOf g), hp]
    rw [hcard]
    simp

/-! ## The word scan of `findAllWords` against the validator's runs -/

theorem lineScan_mem_props (isWord : Word → Bool) (dir : Dir) :
    ∀ (es : List (Cell × Option Char)) (cur : List Char) (ps : List Cell),
      ∀ wr ∈ lineScanWords isWord dir es cur ps,
        2 ≤ wr.word.length ∧
        wr.isValid = (decide (3 ≤ wr.word.length) && isWord wr.word) := by
  intro es
  induction es with
  | nil =>
    intro cur ps wr hwr
    simp only [lineScanWords] at hwr
    by_cases h2 : 2 ≤ cur.length
    · rw [if_pos h2] at hwr
      rcases List.mem_singleton.mp hwr with rfl
      exact ⟨h2, rfl⟩
    · rw [if_neg h2] at hwr
      cases hwr
  | cons e rest ih =>
    intro cur ps wr hwr
    obtain ⟨cell, oc⟩ := e
    cases oc with
    | some ch =>
      simp only [lineScanWords] at hwr
      exact ih _ _ wr hwr
    | none =>
      simp only [lineScanWords] at hwr
      rcases List.mem_append.mp hwr with h | h
      · by_cases h2 : 2 ≤ cur.length
        · rw [if_pos h2] at h
          rcases List.mem_singleton.mp h with rfl
          exact ⟨h2, rfl⟩
        · rw [if_neg h2] at h
          cases h
      · exact ih _ _ wr h

theorem lineScan_word_mem_runs (isWord : Word → Bool) (dir : Dir) :
    ∀ (es : List (Cell × Option Char)) (cur : List Char) (ps : List Cell),
      ∀ wr ∈ lineScanWords isWord dir es cur ps,
        wr.word ∈ runsAux (es.map Prod.snd) cur := by
  intro es
  induction es with
  | nil =>
    intro cur ps wr hwr
    simp only [lineScanWords] at hwr
    by_cases h2 : 2 ≤ cur.length
    · rw [if_pos h2] at hwr
      rcases List.mem_singleton.mp hwr with rfl
      simp only [List.map_nil, runsAux]
      rw [if_neg]
      · exact List.mem_singleton_self _
      · cases cur with
        | nil => simp at h2
        | cons a t => simp
    · rw [if_neg h2] at hwr
      cases hwr
  | cons e rest ih =>
    intro cur ps wr hwr
    obtain ⟨cell, oc⟩ := e
    cases oc with
    | some ch =>
      simp only [lineScanWords] at hwr
      simp only [List.map_cons, runsAux]
      exact ih _ _ wr hwr
    | none =>
      simp only [lineScanWords] at hwr
      simp only [List.map_cons, runsAux]
      rcases List.mem_append.mp hwr with h | h
      · by_cases h2 : 2 ≤ cur.length
        · rw [if_pos h2] at h
          rcases List.mem_singleton.mp h with rfl
          apply List.mem_append_left
          rw [if_neg]
          · exact List.mem_singleton_self _
          · cases cur with
            | nil => simp at h2
            | cons a t => simp
        · rw [if_neg h2] at h
          cases h
      · exact List.mem_append_right _ (ih _ _ wr h)

theorem lineScan_positions_sublist (isWord : Word → Bool) (dir : Dir) :
    ∀ (es : List (Cell × Option Char)) (cur : List Char) (ps : List Cell),
      ∀ wr ∈ lineScanWords isWord dir es cur ps,
        wr.positions.Sublist (ps ++ es.map Prod.fst) := by
  intro es
  induction es with
  | nil =>
    intro cur ps wr hwr
    simp only [lineScanWords] at hwr
    by_cases h2 : 2 ≤ cur.length
    · rw [if_pos h2] at hwr
      rcases List.mem_singleton.mp hwr with rfl
      simp only [List.map_nil, List.append_nil]
      exact List.Sublist.refl _
    · rw [if_neg h2] at hwr
      cases hwr
  | cons e rest ih =>
    intro cur ps wr hwr
    obtain ⟨cell, oc⟩ := e
    cases oc with
    | some ch =>
      simp only [lineScanWords] at hwr
      have h := ih _ _ wr hwr
      simp only [List.map_cons]
      rw [← List.singleton_append, ← List.append_assoc]
      exact h
    | none =>
      simp only [lineScanWords] at hwr
      simp only [List.map_cons]
      rcases List.mem_append.mp hwr with h | h
      · by_cases h2 : 2 ≤ cur.length
        · rw [if_pos h2] at h
          rcases List.mem_singleton.mp h with rfl
          exact List.sublist_append_left _ _
        · rw [if_neg h2] at h
          cases h
      · have hs := ih _ _ wr h
        simp only [List.nil_append] at hs
        refine List.Sublist.trans hs ?_
        refine List.Sublist.trans ?_ (List.sublist_append_right ps _)
        exact List.sublist_cons_self _ _

theorem lineScan_cover_mem (isWord : Word → Bool) (dir : Dir) (c1 c2 : Cell) :
    ∀ (es : List (Cell × Option Char)) (cur : List Char) (ps : List Cell),
      c1 ∈ ps → c2 ∈ ps → 2 ≤ cur.length →
      ∃ wr ∈ lineScanWords isWord dir es cur ps,
        c1 ∈ wr.positions ∧ c2 ∈ wr.positions := by
  intro es
  induction es with
  | nil =>
    intro cur ps h1 h2 hlen
    refine ⟨{ word := cur, positions := ps,
              isValid := decide (3 ≤ cur.length) && isWord cur,
              direction := dir }, ?_, h1, h2⟩
    simp only [lineScanWords]
    rw [if_pos hlen]
    exact List.mem_singleton_self _
  | cons e rest ih =>
    intro cur ps h1 h2 hlen
    obtain ⟨cell, oc⟩ := e
    cases oc with
    | some ch =>
      rcases ih (cur ++ [ch]) (ps ++ [cell]) (List.mem_append_left _ h1)
          (List.mem_append_left _ h2)
          (by rw [List.length_append]; omega)
        with ⟨wr, hwr, hw1, hw2⟩
      refine ⟨wr, ?_, hw1, hw2⟩
      simp only [lineScanWords]
      exact hwr
    | none =>
      refine ⟨{ word := cur, positions := ps,
                isValid := decide (3 ≤ cur.length) && isWord cur,
                direction := dir }, ?_, h1, h2⟩
      simp only [lineScanWords]
      apply List.mem_append_left
      rw [if_pos hlen]
      exact List.mem_singleton_self _

theorem lineScan_cover_pair (isWord : Word → Bool) (dir : Dir) (c1 : Cell)
    (a : Char) (c2 : Cell) (b : Char) (es2 : List (Cell × Option Char)) :
    ∀ (es1 : List (Cell × Option Char)) (cur : List Char) (ps : List Cell),
      ∃ wr ∈ lineScanWords isWord dir
          (es1 ++ (c1, some a) :: (c2, some b) :: es2) cur ps,
        c1 ∈ wr.positions ∧ c2 ∈ wr.positions := by
  intro es1
  induction es1 with
  | nil =>
    intro cur ps
    show ∃ wr ∈ lineScanWords isWord dir es2 ((cur ++ [a]) ++ [b])
        ((ps ++ [c1]) ++ [c2]), c1 ∈ wr.positions ∧ c2 ∈ wr.positions
    apply lineScan_cover_mem
    · exact List.mem_append_left _ (List.mem_append_right _
        (List.mem_singleton_self _))
    · exact List.mem_append_right _ (List.mem_singleton_self _)
    · rw [List.length_append, List.length_append]
      simp
  | cons e es1t ih =>
    intro cur ps
    obtain ⟨cell, oc⟩ := e
    cases oc with
    | some ch =>
      rcases ih (cur ++ [ch]) (ps ++ [cell]) with ⟨wr, hwr, hw1, hw2⟩
      refine ⟨wr, ?_, hw1, hw2⟩
      simp only [List.cons_append, lineScanWords]
      exact hwr
    | none =>
      rcases ih [] [] with ⟨wr, hwr, hw1, hw2⟩
      refine ⟨wr, ?_, hw1, hw2⟩
      simp only [List.cons_append, lineScanWords]
      exact List.mem_append_right _ hwr

theorem rowEntries_snd (g : LetterGrid) (r : Nat) :
    (rowEntries g r).map Prod.snd = rowLine (charGridOf g) r := by
  unfold rowEntries rowLine
  rw [List.map_map]
  apply List.map_congr_left
  intro c _
  show (cellAtL g r c).map Tile.char = cellAt (charGridOf g) r c
  rw [cellAt_charGridOf]

theorem colEntries_snd (g : LetterGrid) (c : Nat) :
    (colEntries g c).map Prod.snd = colLine (charGridOf g) c := by
  unfold colEntries colLine
  rw [List.map_map]
  apply List.map_congr_left
  intro r _
  show (cellAtL g r c).map Tile.char = cellAt (charGridOf g) r c
  rw [cellAt_charGridOf]

theorem rowEntries_length (g : LetterGrid) (r : Nat) :
    (rowEntries g r).length = GRID_SIZE := by
  unfold rowEntries
  rw [List.length_map, List.length_range]

theorem colEntries_length (g : LetterGrid) (c : Nat) :
    (colEntries g c).length = GRID_SIZE := by
  unfold colEntries
  rw [List.length_map, List.length_range]

theorem range_map_decomp (f : Nat → α) (n i : Nat) (hi : i + 1 < n) :
    (List.range n).map f
      = ((List.range n).map f).take i
        ++ f i :: f (i + 1) :: ((List.range n).map f).drop (i + 2) := by
  have hl : ((List.range n).map f).length = n := by simp
  have hd1 : ((List.range n).map f).drop i
      = f i :: ((List.range n).map f).drop (i + 1) := by
    rw [List.drop_eq_getElem_cons (by omega)]
    congr 1
    rw [List.getElem_map, List.getElem_range]
  have hd2 : ((List.range n).map f).drop (i + 1)
      = f (i + 1) :: ((List.range n).map f).drop (i + 2) := by
    rw [List.drop_eq_getElem_cons (by omega)]
    congr 1
    rw [List.getElem_map, List.getElem_range]
  conv_lhs => rw [← List.take_append_drop i ((List.range n).map f)]
  rw [hd1, hd2]

theorem findAllWords_cover (isWord : Word → Bool) {g : LetterGrid} {q y : Cell}
    (hq : q.1 < GRID_SIZE ∧ q.2 < GRID_SIZE ∧ (cellAtL g q.1 q.2).isSome = true)
    (hy : y.1 < GRID_SIZE ∧ y.2 < GRID_SIZE ∧ (cellAtL g y.1 y.2).isSome = true)
    (hadj : cellAdj q y) :
    ∃ wr ∈ findAllWords isWord g, q ∈ wr.positions := by
  obtain ⟨qr, qc⟩ := q
  obtain ⟨yr, yc⟩ := y
  unfold cellAdj at hadj
  dsimp only at hadj hq hy
  rcases Option.isSome_iff_exists.mp hq.2.2 with ⟨tq, htq⟩
  rcases Option.isSome_iff_exists.mp hy.2.2 with ⟨ty, hty⟩
  rcases hadj with ⟨he, hd | hd⟩ | ⟨he, hd | hd⟩
  · -- same row, y to the right of q
    subst he
    have hdec : rowEntries g qr
        = (rowEntries g qr).take qc
          ++ ((((qr, qc) : Cell), (cellAtL g qr qc).map Tile.char))
          :: ((((qr, qc + 1) : Cell), (cellAtL g qr (qc + 1)).map Tile.char))
          :: (rowEntries g qr).drop (qc + 2) := by
      unfold rowEntries
      exact range_map_decomp _ GRID_SIZE qc (by omega)
    rw [htq] at hdec
    rw [show qc + 1 = yc from hd, hty] at hdec
    simp only [Option.map_some'] at hdec
    rcases lineScan_cover_pair isWord Dir.h ((qr, qc) : Cell) tq.char
        ((qr, yc) : Cell) ty.char ((rowEntries g qr).drop (qc + 2))
        ((rowEntries g qr).take qc) [] []
      with ⟨wr, hwr, hw1, -⟩
    rw [← hdec] at hwr
    refine ⟨wr, ?_, hw1⟩
    unfold findAllWords
    apply List.mem_append_left
    apply List.mem_flatten.mpr
    exact ⟨_, List.mem_map_of_mem _ (List.mem_range.mpr hq.1), hwr⟩
  · -- same row, y to the left of q
    subst he
    have hdec : rowEntries g qr
        = (rowEntries g qr).take yc
          ++ ((((qr, yc) : Cell), (cellAtL g qr yc).map Tile.char))
          :: ((((qr, yc + 1) : Cell), (cellAtL g qr (yc + 1)).map Tile.char))
          :: (rowEntries g qr).drop (yc + 2) := by
      unfold rowEntries
      exact range_map_decomp _ GRID_SIZE yc (by omega)
    rw [hty] at hdec
    rw [show yc + 1 = qc from hd, htq] at hdec
    simp only [Option.map_some'] at hdec
    rcases lineScan_cover_pair isWord Dir.h ((qr, yc) : Cell) ty.char
        ((qr, qc) : Cell) tq.char ((rowEntries g qr).drop (yc + 2))
        ((rowEntries g qr).take yc) [] []
      with ⟨wr, hwr, -, hw2⟩
    rw [← hdec] at hwr
    refine ⟨wr, ?_, hw2⟩
    unfold findAllWords
    apply List.mem_append_left
    apply List.mem_flatten.mpr
    exact ⟨_, List.mem_map_of_mem _ (List.mem_range.mpr hq.1), hwr⟩
  · -- same column, y below q
    subst he
    have hdec : colEntries g qc
        = (colEntries g qc).take qr
          ++ ((((qr, qc) : Cell), (cellAtL g qr qc).map Tile.char))
          :: ((((qr + 1, qc) : Cell), (cellAtL g (qr + 1) qc).map Tile.char))
          :: (colEntries g qc).drop (qr + 2) := by
      unfold colEntries
      exact range_map_decomp _ GRID_SIZE qr (by omega)
    rw [htq] at hdec
    rw [show qr + 1 = yr from hd, hty] at hdec
    simp only [Option.map_some'] at hdec
    rcases lineScan_cover_pair isWord Dir.v ((qr, qc) : Cell) tq.char
        ((yr, qc) : Cell) ty.char ((colEntries g qc).drop (qr + 2))
        ((colEntries g qc).take qr) [] []
      with ⟨wr, hwr, hw1, -⟩
    rw [← hdec] at hwr
    refine ⟨wr, ?_, hw1⟩
    unfold findAllWords
    apply List.mem_append_right
    apply List.mem_flatten.mpr
    exact ⟨_, List.mem_map_of_mem _ (List.mem_range.mpr hq.2.1), hwr⟩
  · -- same column, y above q
    subst he
    have hdec : colEntries g qc
        = (colEntries g qc).take yr
          ++ ((((yr, qc) : Cell), (cellAtL g yr qc).map Tile.char))
          :: ((((yr + 1, qc) : Cell), (cellAtL g (yr + 1) qc).map Tile.char))
          :: (colEntries g qc).drop (yr + 2) := by
      unfold colEntries
      exact range_map_decomp _ GRID_SIZE yr (by omega)
    rw [hty] at hdec
    rw [show yr + 1 = qr from hd, htq] at hdec
    simp only [Option.map_some'] at hdec
    rcases lineScan_cover_pair isWord Dir.v ((yr, qc) : Cell) ty.char
        ((qr, qc) : Cell) tq.char ((colEntries g qc).drop (yr + 2))
        ((colEntries g qc).take yr) [] []
      with ⟨wr, hwr, -, hw2⟩
    rw [← hdec] at hwr
    refine ⟨wr, ?_, hw2⟩
    unfold findAllWords
    apply List.mem_append_right
    apply List.mem_flatten.mpr
    exact ⟨_, List.mem_map_of_mem _ (List.mem_range.mpr hq.2.1), hwr⟩

theorem findAllWords_valid (isWord : Word → Bool) {g : LetterGrid}
    (hval : validateAllGridWords isWord (charGridOf g) = true) :
    ∀ wr ∈ findAllWords isWord g, wr.isValid = true := by
  intro wr hwr
  have hruns := (validateAllGridWords_iff_runs isWord (charGridOf g)).mp hval
  unfold findAllWords at hwr
  rcases List.mem_append.mp hwr with h | h
  · rcases List.mem_flatten.mp h with ⟨ws, hws, hwrm⟩
    rcases List.mem_map.mp hws with ⟨r, hr, hwse⟩
    rw [← hwse] at hwrm
    have hline : rowLine (charGridOf g) r ∈ gridLines (charGridOf g) := by
      unfold gridLines
      exact List.mem_append_left _ (List.mem_map_of_mem _ hr)
    have hwmem : wr.word ∈ runsOf (rowLine (charGridOf g) r) := by
      have h1 := lineScan_word_mem_runs isWord Dir.h (rowEntries g r) [] [] wr hwrm
      rw [rowEntries_snd] at h1
      exact h1
    have hleg := hruns _ hline _ hwmem
    rcases lineScan_mem_props isWord Dir.h (rowEntries g r) [] [] wr hwrm
      with ⟨h2, hvalid⟩
    unfold runLegal at hleg
    rcases hleg with h1 | ⟨h3, hw⟩
    · omega
    · rw [hvalid, hw]
      simp [h3]
  · rcases List.mem_flatten.mp h with ⟨ws, hws, hwrm⟩
    rcases List.mem_map.mp hws with ⟨c, hc, hwse⟩
    rw [← hwse] at hwrm
    have hline : colLine (charGridOf g) c ∈ gridLines (charGridOf g) := by
      unfold gridLines
      exact List.mem_append_right _ (List.mem_map_of_mem _ hc)
    have hwmem : wr.word ∈ runsOf (colLine (charGridOf g) c) := by
      have h1 := lineScan_word_mem_runs isWord Dir.v (colEntries g c) [] [] wr hwrm
      rw [colEntries_snd] at h1
      exact h1
    have hleg := hruns _ hline _ hwmem
    rcases lineScan_mem_props isWord Dir.v (colEntries g c) [] [] wr hwrm
      with ⟨h2, hvalid⟩
    unfold runLegal at hleg
    rcases hleg with h1 | ⟨h3, hw⟩
    · omega
    · rw [hvalid, hw]
      simp [h3]

theorem findAllWords_positions_le (isWord : Word → Bool) (g : LetterGrid) :
    ∀ wr ∈ findAllWords isWord g, wr.positions.length ≤ GRID_SIZE := by
  intro wr hwr
  unfold findAllWords at hwr
  rcases List.mem_append.mp hwr with h | h
  · rcases List.mem_flatten.mp h with ⟨ws, hws, hwrm⟩
    rcases List.mem_map.mp hws with ⟨r, hr, hwse⟩
    rw [← hwse] at hwrm
    have hs := lineScan_positions_sublist isWord Dir.h (rowEntries g r) [] [] wr hwrm
    have hlen := List.Sublist.length_le hs
    rw [List.nil_append, List.length_map, rowEntries_length] at hlen
    exact hlen
  · rcases List.mem_flatten.mp h with ⟨ws, hws, hwrm⟩
    rcases List.mem_map.mp hws with ⟨c, hc, hwse⟩
    rw [← hwse] at hwrm
    have hs := lineScan_positions_sublist isWord Dir.v (colEntries g c) [] [] wr hwrm
    have hlen := List.Sublist.length_le hs
    rw [List.nil_append, List.length_map, colEntries_length] at hlen
    exact hlen

theorem exists_adj_filled {G : Grid} (hconn : ConnGrid G) {q q' : Cell}
    (hq : filledAt G q) (hq' : filledAt G q') (hne : q ≠ q') :
    ∃ y, filledAt G y ∧ cellAdj q y := by
  rcases (hconn q q' hq hq').cases_head with he | ⟨y, hstep, -⟩
  · exact absurd he hne
  · exact ⟨y, hstep.2.1, hstep.2.2⟩

theorem checkWin_of_valid_conn (isWord : Word → Bool) {g : LetterGrid}
    {letters : List Tile}
    (hWF : gridWF (charGridOf g))
    (hval : validateAllGridWords isWord (charGridOf g) = true)
    (hconn : ConnGrid (charGridOf g))
    (hbig : 9 ≤ (placedCellsOf g).length)
    (hpos : ∀ l ∈ letters, ∃ p, l.position = some p ∧ p ∈ placedCellsOf g) :
    checkWinCondition letters (findAllWords isWord g) g = true := by
  have hcover : ∀ x ∈ placedCellsOf g,
      ∃ wr ∈ findAllWords isWord g, x ∈ wr.positions := by
    intro x hx
    have hxm := mem_placedCellsOf.mp hx
    have hxf : filledAt (charGridOf g) x := filledAt_charGridOf.mpr hxm.2.2
    obtain ⟨x2, hx2, hne⟩ : ∃ x2 ∈ placedCellsOf g, x2 ≠ x := by
      rcases hcl : placedCellsOf g with _ | ⟨a, _ | ⟨b, t⟩⟩
      · rw [hcl] at hbig
        simp at hbig
      · rw [hcl] at hbig
        simp at hbig
      · have hnd := nodup_placedCellsOf g
        rw [hcl] at hnd
        have hab : a ≠ b := by
          intro he
          exact (List.nodup_cons.mp hnd).1 (he ▸ List.mem_cons_self _ _)
        by_cases hax : a = x
        · refine ⟨b, ?_, ?_⟩
          · exact List.mem_cons_of_mem _ (List.mem_cons_self _ _)
          · intro hbx
            exact hab (by rw [hax, hbx])
        · exact ⟨a, List.mem_cons_self _ _, hax⟩
    have hx2f : filledAt (charGridOf g) x2 :=
      filledAt_charGridOf.mpr (mem_placedCellsOf.mp hx2).2.2
    rcases exists_adj_filled hconn hxf hx2f (fun he => hne he.symm)
      with ⟨y, hyf, hadj⟩
    have hyb : y.1 < GRID_SIZE ∧ y.2 < GRID_SIZE := by
      by_contra hc
      have hoob := cellAt_oob hWF
        (show GRID_SIZE ≤ y.1 ∨ GRID_SIZE ≤ y.2 by omega)
      unfold filledAt at hyf
      rw [hoob] at hyf
      cases hyf
    exact findAllWords_cover isWord ⟨hxm.1, hxm.2.1, hxm.2.2⟩
      ⟨hyb.1, hyb.2, filledAt_charGridOf.mp hyf⟩ hadj
  have hA : letters.all (fun l => l.position.isSome) = true := by
    rw [List.all_eq_true]
    intro l hl
    rcases hpos l hl with ⟨p, hp, -⟩
    rw [hp]
    rfl
  have hB : areAllLettersConnected g = true :=
    areAllLettersConnected_of_conn hWF hconn
  have hC : (findAllWords isWord g).all (·.isValid) = true := by
    rw [List.all_eq_true]
    exact fun wr hwr => findAllWords_valid isWord hval wr hwr
  have hD : ¬ (findAllWords isWord g).length < 2 := by
    intro hlt
    rcases hW : findAllWords isWord g with _ | ⟨wr, _ | ⟨wr2, wt⟩⟩
    · rcases hcl : placedCellsOf g with _ | ⟨a, t⟩
      · rw [hcl] at hbig
        simp at hbig
      · rcases hcover a (by rw [hcl]; exact List.mem_cons_self _ _)
          with ⟨wr, hwr, -⟩
        rw [hW] at hwr
        cases hwr
    · have hsub : (placedCellsOf g).toFinset ⊆ wr.positions.toFinset := by
        intro x hx
        rcases hcover x (List.mem_toFinset.mp hx) with ⟨wr2, hwr2, hxp⟩
        rw [hW] at hwr2
        rcases List.mem_singleton.mp hwr2 with rfl
        exact List.mem_toFinset.mpr hxp
      have h1 : (placedCellsOf g).toFinset.card = (placedCellsOf g).length :=
        List.toFinset_card_of_nodup (nodup_placedCellsOf g)
      have h2 := Finset.card_le_card hsub
      have h3 : wr.positions.toFinset.card ≤ wr.positions.length :=
        List.toFinset_card_le _
      have h4 : wr.positions.length ≤ GRID_SIZE :=
        findAllWords_positions_le isWord g wr
          (by rw [hW]; exact List.mem_singleton_self _)
      unfold GRID_SIZE at h4
      omega
    · rw [hW] at hlt
      simp only [List.length_cons] at hlt
      omega
  have hE : letters.all (fun l =>
      match l.position with
      | none => true
      | some pos =>
        (((findAllWords isWord g).map (·.positions)).flatten).contains pos)
      = true := by
    rw [List.all_eq_true]
    intro l hl
    rcases hpos l hl with ⟨p, hp, hpm⟩
    rcases hcover p hpm with ⟨wr, hwr, hppos⟩
    have hmem : p ∈ ((findAllWords isWord g).map (·.positions)).flatten :=
      List.mem_flatten.mpr ⟨wr.positions, List.mem_map_of_mem _ hwr, hppos⟩
    rw [hp]
    simpa using hmem
  unfold checkWinCondition
  rw [hA, hB, hC]
  simp only [Bool.not_true, Bool.false_eq_true, if_false]
  rw [if_neg hD]
  exact hE

/-! ## Applying a placement list through `placeLetter` -/

theorem cellAtL_empty (r c : Nat) : cellAtL emptyLetterGrid r c = none := by
  have h := cellAt_charGridOf emptyLetterGrid r c
  rw [charGridOf_empty, cellAt_empty] at h
  exact Option.map_eq_none'.mp h.symm

theorem cellAtL_setCellL_ne (g : LetterGrid) (v : Option Tile) {r c r2 c2 : Nat}
    (hne : ¬(r = r2 ∧ c = c2)) :
    cellAtL (setCellL g r2 c2 v) r c = cellAtL g r c := by
  unfold cellAtL setCellL
  by_cases hrl : r2 < g.length
  · rw [getD_set_lt _ _ _ _ _ hrl]
    by_cases hrr : r = r2
    · rw [if_pos hrr]
      have hcc : ¬ c = c2 := fun h => hne ⟨hrr, h⟩
      by_cases hcl : c2 < (g.getD r2 []).length
      · rw [getD_set_lt _ _ _ _ _ hcl, if_neg hcc, hrr]
      · rw [List.set_eq_of_length_le (Nat.le_of_not_lt hcl), hrr]
    · rw [if_neg hrr]
  · rw [List.set_eq_of_length_le (Nat.le_of_not_lt hrl)]

theorem gridWF_placedGridOf (pl : List TilePlacement) (tiles : List Tile) :
    gridWF (placedGridOf pl tiles) := by
  have aux : ∀ (l : List TilePlacement) (g : Grid), gridWF g →
      gridWF (l.foldl
        (fun g p =>
          match tiles.find? (fun l => l.id == p.letterId) with
          | some l => setCell g p.row p.col l.char
          | none => g) g) := by
    intro l
    induction l with
    | nil => exact fun g h => h
    | cons p rest ih =>
      intro g h
      rw [List.foldl_cons]
      apply ih
      cases hf : tiles.find? (fun l => l.id == p.letterId) with
      | some l => exact gridWF_setCell _ _ _ h
      | none => exact h
  exact aux pl createEmptyGrid gridWF_empty

theorem charGridOf_gridOfPre (tiles : List Tile) (pl : List TilePlacement) :
    charGridOf (gridOfPre tiles pl) = placedGridOf pl tiles := by
  have aux : ∀ (l : List TilePlacement) (gl : LetterGrid),
      charGridOf (l.foldl
        (fun gm p =>
          match tiles.find? (fun t => t.id == p.letterId) with
          | some t => setCellL gm p.row p.col
              (some { t with position := some ((p.row, p.col) : Cell) })
          | none => gm) gl)
      = l.foldl
        (fun g p =>
          match tiles.find? (fun t => t.id == p.letterId) with
          | some t => setCell g p.row p.col t.char
          | none => g) (charGridOf gl) := by
    intro l
    induction l with
    | nil => exact fun gl => rfl
    | cons p rest ih =>
      intro gl
      rw [List.foldl_cons, List.foldl_cons, ih]
      congr 1
      cases hf : tiles.find? (fun t => t.id == p.letterId) with
      | some t => exact charGridOf_setCellL _ _ _ _
      | none => rfl
  unfold gridOfPre placedGridOf
  rw [aux pl emptyLetterGrid, charGridOf_empty]

theorem cellAtL_gridOfPre_none (tiles : List Tile) {r c : Nat}
    (pl : List TilePlacement)
    (hnot : ∀ p ∈ pl, ¬(r = p.row ∧ c = p.col)) :
    cellAtL (gridOfPre tiles pl) r c = none := by
  have aux : ∀ (l : List TilePlacement) (gl : LetterGrid),
      cellAtL gl r c = none →
      (∀ p ∈ l, ¬(r = p.row ∧ c = p.col)) →
      cellAtL (l.foldl
        (fun gm p =>
          match tiles.find? (fun t => t.id == p.letterId) with
          | some t => setCellL gm p.row p.col
              (some { t with position := some ((p.row, p.col) : Cell) })
          | none => gm) gl) r c = none := by
    intro l
    induction l with
    | nil => exact fun gl h0 _ => h0
    | cons p rest ih =>
      intro gl h0 hmem
      rw [List.foldl_cons]
      refine ih _ ?_ (fun q hq => hmem q (List.mem_cons_of_mem _ hq))
      cases hf : tiles.find? (fun t => t.id == p.letterId) with
      | some t =>
        rw [show (match some t with
            | some (t : Tile) => setCellL gl p.row p.col
                (some { t with position := some ((p.row, p.col) : Cell) })
            | none => gl)
            = setCellL gl p.row p.col
                (some { t with position := some ((p.row, p.col) : Cell) })
          from rfl]
        rw [cellAtL_setCellL_ne gl _ (hmem p (List.mem_cons_self _ _))]
        exact h0
      | none => exact h0
  exact aux pl emptyLetterGrid (cellAtL_empty r c) hnot

theorem gridOfPre_append (tiles : List Tile) (pre : List TilePlacement)
    (p : TilePlacement) :
    gridOfPre tiles (pre ++ [p])
      = match tiles.find? (fun l => l.id == p.letterId) with
        | some l => setCellL (gridOfPre tiles pre) p.row p.col
            (some { l with position := some ((p.row, p.col) : Cell) })
        | none => gridOfPre tiles pre := by
  unfold gridOfPre
  rw [List.foldl_append]
  rfl

theorem find?_append_some {l2 : List α} {p : α → Bool} {a : α} :
    ∀ {l1 : List α}, l1.find? p = some a → (l1 ++ l2).find? p = some a := by
  intro l1
  induction l1 with
  | nil => intro h; cases h
  | cons x t ih =>
    intro h
    rw [List.cons_append]
    by_cases hx : p x = true
    · rw [List.find?_cons_of_pos _ hx] at h ⊢
      exact h
    · rw [List.find?_cons_of_neg _ hx] at h ⊢
      exact ih h

theorem find?_append_none {l2 : List α} {p : α → Bool} :
    ∀ {l1 : List α}, l1.find? p = none → (l1 ++ l2).find? p = l2.find? p := by
  intro l1
  induction l1 with
  | nil => intro h; rfl
  | cons x t ih =>
    intro h
    rw [List.find?_eq_none] at h
    have hx : ¬ p x = true := h x (List.mem_cons_self _ _)
    have ht : t.find? p = none := by
      rw [List.find?_eq_none]
      exact fun y hy => h y (List.mem_cons_of_mem _ hy)
    rw [List.cons_append, List.find?_cons_of_neg _ hx]
    exact ih ht

theorem posOf_append_ne (pre : List TilePlacement) (p : TilePlacement)
    (l : Tile) (hne : ¬ p.letterId = l.id) :
    posOf (pre ++ [p]) l = posOf pre l := by
  unfold posOf
  cases hf : pre.find? (fun q => q.letterId == l.id) with
  | some q =>
    rw [find?_append_some hf]
  | none =>
    rw [find?_append_none hf]
    rw [List.find?_cons_of_neg _ (by simpa using hne), List.find?_nil]

theorem posOf_append_self (pre : List TilePlacement) (p : TilePlacement)
    (l : Tile) (hid : p.letterId = l.id)
    (hnot : pre.find? (fun q => q.letterId == l.id) = none) :
    posOf (pre ++ [p]) l = some ((p.row, p.col) : Cell) := by
  unfold posOf
  rw [find?_append_none hnot, List.find?_cons_of_pos _ (by simpa using hid)]
  rfl

theorem findIdx?_map_tile (f : Tile → Tile) (hf : ∀ t, (f t).id = t.id)
    (n : Nat) :
    ∀ (l : List Tile) (s : Nat),
      List.findIdx? (fun t => t.id == n) (l.map f) s
        = List.findIdx? (fun t => t.id == n) l s := by
  intro l
  induction l with
  | nil => intro s; rfl
  | cons a t ih =>
    intro s
    rw [List.map_cons, List.findIdx?_cons, List.findIdx?_cons, hf, ih]

theorem findIdx?_start_bound {p : α → Bool} :
    ∀ (l : List α) (s : Nat) {i : Nat}, List.findIdx? p l s = some i →
      s ≤ i ∧ i < s + l.length := by
  intro l
  induction l with
  | nil => intro s i h; cases h
  | cons a t ih =>
    intro s i h
    rw [List.findIdx?_cons] at h
    by_cases hp : p a = true
    · rw [if_pos hp] at h
      have h0 := Option.some.inj h
      rw [List.length_cons]
      omega
    · rw [if_neg hp] at h
      have := ih (s + 1) h
      rw [List.length_cons]
      omega

theorem findIdx?_start_getD {p : α → Bool} (d : α) :
    ∀ (l : List α) (s : Nat) {i : Nat}, List.findIdx? p l s = some i →
      p (l.getD (i - s) d) = true ∧ l.find? p = some (l.getD (i - s) d) := by
  intro l
  induction l with
  | nil => intro s i h; cases h
  | cons a t ih =>
    intro s i h
    rw [List.findIdx?_cons] at h
    by_cases hp : p a = true
    · rw [if_pos hp] at h
      have h0 := Option.some.inj h
      subst h0
      rw [Nat.sub_self]
      exact ⟨hp, List.find?_cons_of_pos _ hp⟩
    · rw [if_neg hp] at h
      have hb := findIdx?_start_bound t (s + 1) h
      have hrec := ih (s + 1) h
      have his : i - s = (i - (s + 1)) + 1 := by omega
      rw [his, List.getD_cons_succ]
      refine ⟨hrec.1, ?_⟩
      rw [List.find?_cons_of_neg _ hp]
      exact hrec.2

theorem findIdx?_bound {l : List α} {p : α → Bool} {i : Nat}
    (h : l.findIdx? p = some i) : i < l.length := by
  have := findIdx?_start_bound l 0 h
  omega

theorem findIdx?_getD {l : List α} {p : α → Bool} (d : α) {i : Nat}
    (h : l.findIdx? p = some i) :
    p (l.getD i d) = true ∧ l.find? p = some (l.getD i d) := by
  have h2 := findIdx?_start_getD d l 0 h
  rw [Nat.sub_zero] at h2
  exact h2

theorem findIdx?_start_of_mem {n : Nat} :
    ∀ (l : List Tile) (s : Nat), n ∈ l.map Tile.id →
      ∃ idx, List.findIdx? (fun t => t.id == n) l s = some idx := by
  intro l
  induction l with
  | nil => intro s h; simp at h
  | cons a t ih =>
    intro s h
    rw [List.findIdx?_cons]
    by_cases ha : (a.id == n) = true
    · exact ⟨s, by rw [if_pos ha]⟩
    · rw [if_neg ha]
      rw [List.map_cons, List.mem_cons] at h
      rcases h with h | h
      · exfalso
        apply ha
        rw [h]
        simp
      · exact ih (s + 1) h

theorem findIdx?_of_mem {l : List Tile} {n : Nat} (h : n ∈ l.map Tile.id) :
    ∃ idx, l.findIdx? (fun t => t.id == n) = some idx :=
  findIdx?_start_of_mem l 0 h

theorem map_set_posOf {tiles : List Tile} (hids : (tiles.map Tile.id).Nodup)
    (pre : List TilePlacement) (p : TilePlacement) {idx : Nat}
    (hfi : tiles.findIdx? (fun t => t.id == p.letterId) = some idx)
    (hpre : p.letterId ∉ pre.map TilePlacement.letterId) :
    (tiles.map (fun t => { t with position := posOf pre t })).set idx
        { tiles.getD idx ⟨0, 'a', none⟩
          with position := some ((p.row, p.col) : Cell) }
      = tiles.map (fun t => { t with position := posOf (pre ++ [p]) t }) := by
  have hlen : idx < tiles.length := findIdx?_bound hfi
  have hidx := (findIdx?_getD (⟨0, 'a', none⟩ : Tile) hfi).1
  have hidxeq : (tiles.getD idx ⟨0, 'a', none⟩).id = p.letterId := by
    simpa using hidx
  have hgd : tiles.getD idx ⟨0, 'a', none⟩ = tiles[idx] :=
    List.getD_eq_getElem _ _ hlen
  have hprenone : pre.find? (fun q => q.letterId
      == (tiles.getD idx ⟨0, 'a', none⟩).id) = none := by
    rw [List.find?_eq_none]
    intro q hq hbe
    apply hpre
    have hqe : q.letterId = p.letterId := by
      have h2 : q.letterId = (tiles.getD idx ⟨0, 'a', none⟩).id := by
        simpa using hbe
      rw [h2, hidxeq]
    rw [← hqe]
    exact List.mem_map_of_mem _ hq
  apply List.ext_getElem?
  intro j
  by_cases hj : j = idx
  · subst hj
    rw [List.getElem?_set_self (by rw [List.length_map]; exact hlen)]
    rw [List.getElem?_map, List.getElem?_eq_getElem hlen]
    simp only [Option.map_some']
    rw [hgd]
    rw [posOf_append_self pre p _ (by rw [← hgd]; exact hidxeq.symm)
      (by rw [← hgd]; exact hprenone)]
  · rw [List.getElem?_set_ne (fun h => hj h.symm)]
    rw [List.getElem?_map, List.getElem?_map]
    cases ht : tiles[j]? with
    | none => rfl
    | some t =>
      simp only [Option.map_some']
      congr 1
      have hne : ¬ p.letterId = t.id := by
        intro he
        have hjlen : j < tiles.length := by
          by_contra hc
          rw [List.getElem?_eq_none (Nat.le_of_not_lt hc)] at ht
          cases ht
        have hjlen2 : j < (tiles.map Tile.id).length := by
          rw [List.length_map]
          exact hjlen
        have hilen2 : idx < (tiles.map Tile.id).length := by
          rw [List.length_map]
          exact hlen
        have htj : tiles[j] = t := by
          have h3 := List.getElem?_eq_getElem hjlen
          rw [ht] at h3
          exact (Option.some.inj h3).symm
        have hg1 : (tiles.map Tile.id).get ⟨j, hjlen2⟩ = p.letterId := by
          rw [List.get_eq_getElem, List.getElem_map, htj, ← he]
        have hg2 : (tiles.map Tile.id).get ⟨idx, hilen2⟩ = p.letterId := by
          rw [List.get_eq_getElem, List.getElem_map, ← hgd]
          exact hidxeq
        have hinj := List.nodup_iff_injective_get.mp hids (hg1.trans hg2.symm)
        exact hj (congrArg Fin.val hinj)
      rw [posOf_append_ne pre p t hne]

theorem placeLetter_eq (isWord : Word → Bool) (state : GameState)
    (letterId : Nat) (r c : Nat) :
    placeLetter isWord state letterId r c
      = if (cellAtL state.grid r c).isSome then state
        else
          match state.letters.findIdx? (fun l => l.id == letterId) with
          | none => state
          | some idx =>
            { letters := state.letters.set idx
                { state.letters.getD idx ⟨0, 'a', none⟩
                  with position := some ((r, c) : Cell) },
              grid := setCellL
                (match (state.letters.getD idx ⟨0, 'a', none⟩).position with
                 | some pos => setCellL state.grid pos.1 pos.2 none
                 | none => state.grid) r c
                (some { state.letters.getD idx ⟨0, 'a', none⟩
                        with position := some ((r, c) : Cell) }),
              words := findAllWords isWord (setCellL
                (match (state.letters.getD idx ⟨0, 'a', none⟩).position with
                 | some pos => setCellL state.grid pos.1 pos.2 none
                 | none => state.grid) r c
                (some { state.letters.getD idx ⟨0, 'a', none⟩
                        with position := some ((r, c) : Cell) })),
              isWon := checkWinCondition
                (state.letters.set idx
                  { state.letters.getD idx ⟨0, 'a', none⟩
                    with position := some ((r, c) : Cell) })
                (findAllWords isWord (setCellL
                  (match (state.letters.getD idx ⟨0, 'a', none⟩).position with
                   | some pos => setCellL state.grid pos.1 pos.2 none
                   | none => state.grid) r c
                  (some { state.letters.getD idx ⟨0, 'a', none⟩
                          with position := some ((r, c) : Cell) })))
                (setCellL
                  (match (state.letters.getD idx ⟨0, 'a', none⟩).position with
                   | some pos => setCellL state.grid pos.1 pos.2 none
                   | none => state.grid) r c
                  (some { state.letters.getD idx ⟨0, 'a', none⟩
                          with position := some ((r, c) : Cell) })) } := rfl

theorem applyPlacements_step (isWord : Word → Bool) {tiles : List Tile}
    (hids : (tiles.map Tile.id).Nodup)
    (pre : List TilePlacement) (p : TilePlacement) (S : GameState)
    (hSl : S.letters = tiles.map (fun t => { t with position := posOf pre t }))
    (hSg : S.grid = gridOfPre tiles pre)
    (hmem : p.letterId ∈ tiles.map Tile.id)
    (hpre : p.letterId ∉ pre.map TilePlacement.letterId)
    (hfree : cellAtL (gridOfPre tiles pre) p.row p.col = none) :
    placeLetter isWord S p.letterId p.row p.col
      = { letters := tiles.map
            (fun t => { t with position := posOf (pre ++ [p]) t }),
          grid := gridOfPre tiles (pre ++ [p]),
          words := findAllWords isWord (gridOfPre tiles (pre ++ [p])),
          isWon := checkWinCondition
            (tiles.map (fun t => { t with position := posOf (pre ++ [p]) t }))
            (findAllWords isWord (gridOfPre tiles (pre ++ [p])))
            (gridOfPre tiles (pre ++ [p])) } := by
  rcases findIdx?_of_mem hmem with ⟨idx, hfi⟩
  have hlen : idx < tiles.length := findIdx?_bound hfi
  have hidx := (findIdx?_getD (⟨0, 'a', none⟩ : Tile) hfi).1
  have hidxeq : (tiles.getD idx ⟨0, 'a', none⟩).id = p.letterId := by
    simpa using hidx
  have hgetd : (tiles.map (fun t => { t with position := posOf pre t })).getD
      idx ⟨0, 'a', none⟩
      = { tiles.getD idx ⟨0, 'a', none⟩
          with position := posOf pre (tiles.getD idx ⟨0, 'a', none⟩) } := by
    rw [List.getD_eq_getElem?_getD, List.getElem?_map,
      List.getElem?_eq_getElem hlen]
    simp only [Option.map_some', Option.getD_some]
    rw [List.getD_eq_getElem _ _ hlen]
  have hposnone : posOf pre (tiles.getD idx ⟨0, 'a', none⟩) = none := by
    have h1 : pre.find? (fun q => q.letterId
        == (tiles.getD idx ⟨0, 'a', none⟩).id) = none := by
      rw [List.find?_eq_none]
      intro q hq hbe
      apply hpre
      have hqe : q.letterId = p.letterId := by
        have h2 : q.letterId = (tiles.getD idx ⟨0, 'a', none⟩).id := by
          simpa using hbe
        rw [h2, hidxeq]
      rw [← hqe]
      exact List.mem_map_of_mem _ hq
    unfold posOf
    rw [h1]
    rfl
  have hgrid : gridOfPre tiles (pre ++ [p])
      = setCellL (gridOfPre tiles pre) p.row p.col
          (some { tiles.getD idx ⟨0, 'a', none⟩
                  with position := some ((p.row, p.col) : Cell) }) := by
    rw [gridOfPre_append]
    rw [(findIdx?_getD (⟨0, 'a', none⟩ : Tile) hfi).2]
  rw [placeLetter_eq]
  rw [hSg, hSl, hfree]
  simp only [Option.isSome_none]
  rw [if_neg (by simp)]
  rw [findIdx?_map_tile (fun t => { t with position := posOf pre t })
    (fun t => rfl) p.letterId tiles 0]
  rw [hfi]
  dsimp only
  rw [hgetd]
  dsimp only
  rw [hposnone]
  dsimp only
  rw [map_set_posOf hids pre p hfi hpre]
  rw [← hgrid]

theorem applyPlacements_spec (isWord : Word → Bool) {tiles : List Tile}
    (hids : (tiles.map Tile.id).Nodup) :
    ∀ (pre : List TilePlacement),
      (pre.map TilePlacement.letterId).Nodup →
      (∀ q ∈ pre, q.letterId ∈ tiles.map Tile.id) →
      ((pre.map (fun p => ((p.row, p.col) : Cell)))).Nodup →
      (applyPlacements isWord (emptyStateOf tiles)
          (pre.map (fun p => (p.letterId, p.row, p.col)))).letters
          = tiles.map (fun t => { t with position := posOf pre t })
        ∧ (applyPlacements isWord (emptyStateOf tiles)
            (pre.map (fun p => (p.letterId, p.row, p.col)))).grid
          = gridOfPre tiles pre
        ∧ (pre ≠ [] →
            (applyPlacements isWord (emptyStateOf tiles)
              (pre.map (fun p => (p.letterId, p.row, p.col)))).isWon
            = checkWinCondition
                (tiles.map (fun t => { t with position := posOf pre t }))
                (findAllWords isWord (gridOfPre tiles pre))
                (gridOfPre tiles pre)) := by
  intro pre
  induction pre using List.reverseRecOn with
  | nil =>
    intro _ _ _
    exact ⟨rfl, rfl, fun h => absurd rfl h⟩
  | append_singleton pre p ih =>
    intro hnd hsub hcnd
    have hnd2 : (pre.map TilePlacement.letterId).Nodup := by
      rw [List.map_append] at hnd
      exact (List.nodup_append.mp hnd).1
    have hpnot : p.letterId ∉ pre.map TilePlacement.letterId := by
      rw [List.map_append] at hnd
      have hdisj := (List.nodup_append.mp hnd).2.2
      intro hc
      exact hdisj hc (by simp)
    have hsub2 : ∀ q ∈ pre, q.letterId ∈ tiles.map Tile.id :=
      fun q hq => hsub q (List.mem_append_left _ hq)
    have hcnd2 : (pre.map (fun p => ((p.row, p.col) : Cell))).Nodup := by
      rw [List.map_append] at hcnd
      exact (List.nodup_append.mp hcnd).1
    have hcellnot : ((p.row, p.col) : Cell)
        ∉ pre.map (fun q => ((q.row, q.col) : Cell)) := by
      rw [List.map_append] at hcnd
      have hdisj := (List.nodup_append.mp hcnd).2.2
      intro hc
      exact hdisj hc (by simp)
    rcases ih hnd2 hsub2 hcnd2 with ⟨hl, hg, -⟩
    have hfree : cellAtL (gridOfPre tiles pre) p.row p.col = none := by
      apply cellAtL_gridOfPre_none
      rintro q hq ⟨h1, h2⟩
      apply hcellnot
      rw [List.mem_map]
      refine ⟨q, hq, ?_⟩
      rw [← h1, ← h2]
    have hstep := applyPlacements_step isWord hids pre p
      (applyPlacements isWord (emptyStateOf tiles)
        (pre.map (fun q => (q.letterId, q.row, q.col))))
      hl hg (hsub p (List.mem_append_right _ (List.mem_singleton_self _)))
      hpnot hfree
    have happ2 : applyPlacements isWord (emptyStateOf tiles)
        ((pre ++ [p]).map (fun q => (q.letterId, q.row, q.col)))
        = placeLetter isWord
            (applyPlacements isWord (emptyStateOf tiles)
              (pre.map (fun q => (q.letterId, q.row, q.col))))
            p.letterId p.row p.col := by
      rw [List.map_append]
      unfold applyPlacements
      rw [List.foldl_append]
      rfl
    rw [happ2, hstep]
    exact ⟨rfl, rfl, fun _ => rfl⟩

theorem all_tiles_matched {tiles ms : List Tile}
    (hnd : (tiles.map Tile.id).Nodup)
    (hsub : ∀ l ∈ ms, l ∈ tiles) (hmsnd : (ms.map Tile.id).Nodup)
    (hcnt : ∀ ch, ms.countP (fun l => l.char.toLower == ch)
        = tiles.countP (fun l => l.char.toLower == ch)) :
    ∀ l ∈ tiles, l.id ∈ ms.map Tile.id := by
  have hperm : (tiles.filter
      (fun l => (ms.map Tile.id).contains l.id)).Perm ms := by
    rw [List.perm_ext_iff_of_nodup
      (List.Nodup.filter _ (List.Nodup.of_map _ hnd))
      (List.Nodup.of_map _ hmsnd)]
    intro l
    constructor
    · intro hl
      have h1 := List.mem_filter.mp hl
      have h2 : l.id ∈ ms.map Tile.id := by simpa using h1.2
      rcases List.mem_map.mp h2 with ⟨m, hm, hmid⟩
      have := tile_eq_of_id_eq hnd h1.1 (hsub m hm) hmid.symm
      rw [this]
      exact hm
    · intro hl
      rw [List.mem_filter]
      refine ⟨hsub l hl, ?_⟩
      have : l.id ∈ ms.map Tile.id := List.mem_map_of_mem _ hl
      simpa using this
  have hmatched : ∀ ch : Char,
      tiles.countP (fun l => (l.char.toLower == ch)
          && ((ms.map Tile.id).contains l.id))
        = ms.countP (fun l => l.char.toLower == ch) := by
    intro ch
    rw [← List.countP_filter]
    exact List.Perm.countP_eq _ hperm
  have hun : ∀ ch : Char,
      tiles.countP (fun l => (l.char.toLower == ch)
          && !((ms.map Tile.id).contains l.id)) = 0 := by
    intro ch
    have hsplit := countP_true_and_not (fun l => l.char.toLower == ch)
      (fun l => (ms.map Tile.id).contains l.id) tiles
    have h1 := hmatched ch
    have h3 := hcnt ch
    omega
  intro l hl
  by_contra hnid
  have hpos : 0 < tiles.countP (fun l2 => (l2.char.toLower == l.char.toLower)
      && !((ms.map Tile.id).contains l2.id)) := by
    apply List.countP_pos_iff.mpr
    refine ⟨l, hl, ?_⟩
    have hc : (ms.map Tile.id).contains l.id = false := by
      rw [← Bool.not_eq_true]
      simpa using hnid
    rw [hc]
    simp
  have h0 := hun l.char.toLower
  omega

theorem filledCells_fst_caseEq {g1 g2 : Grid} (hce : caseEq g1 g2) :
    (filledCellsOf g1).map Prod.fst = (filledCellsOf g2).map Prod.fst := by
  unfold filledCellsOf
  rw [List.map_flatMap, List.map_flatMap]
  rw [List.flatMap_def, List.flatMap_def]
  congr 1
  apply List.map_congr_left
  intro r _
  rw [List.map_filterMap, List.map_filterMap]
  apply List.filterMap_congr
  intro c _
  have h := hce r c
  cases h1 : cellAt g1 r c <;> cases h2 : cellAt g2 r c
  · rfl
  · rw [h1, h2] at h
    simp at h
  · rw [h1, h2] at h
    simp at h
  · rfl

/-- C4: for every `solvePuzzle` call that succeeds in phase 1
(`success: true` with `removedLetter = none`; distinct tile ids, uppercase
tile characters, a case-insensitive dictionary), applying the returned
placements in the returned order to a fresh game state through
`placeLetter` yields a state whose own win check — `checkWinCondition`,
stored in `isWon` by the last `placeLetter` call — evaluates to `true`. -/
theorem solvePuzzle_phase1_win
    (isWord : Word → Bool) (clk : Nat → Nat) (gw : LetterMap → List Word)
    (fuel : Nat) (tiles : List Tile) (t0 : Nat) (res : SolveResult) (t1 : Nat)
    (hiw : ∀ s, isWord (s.map Char.toLower) = isWord s)
    (hids : (tiles.map Tile.id).Nodup)
    (hchars : ∀ l ∈ tiles, l.char ∈ upperAlpha)
    (hrun : solvePuzzle isWord clk gw fuel tiles t0 = (res, t1))
    (hsucc : res.success = true)
    (hph1 : res.removedLetter = none) :
    (applyPlacements isWord (emptyStateOf tiles)
        (res.placements.map (fun p => (p.letterId, p.row, p.col)))).isWon
      = true := by
  rw [solvePuzzle_eq] at hrun
  rcases hgo : solveGo isWord clk
      (stableSort lenDescLE
        (gw (buildCounts (tiles.map (fun l => l.char.toLower)))))
      (clk t0 + SOLVE_TIMEOUT) fuel 0 createEmptyGrid
      (buildCounts (tiles.map (fun l => l.char.toLower))) (t0 + 1)
    with ⟨og, t2⟩
  rw [hgo] at hrun
  cases og with
  | none =>
    simp only at hrun
    rcases phase2_shape _ _ _ _ hrun with ⟨hn, -⟩
    have h1 := (hn hph1).1
    rw [hsucc] at h1
    cases h1
  | some g12 =>
    simp only at hrun
    obtain ⟨h1, -⟩ := Prod.mk.injEq _ _ _ _ ▸ hrun
    subst h1
    have hkeys : ∀ p ∈ buildCounts (tiles.map (fun l => l.char.toLower)),
        p.1 ∈ tiles.map (fun l => l.char.toLower) := buildCounts_keys _
    have hpost := solveGo_post isWord clk _ _ _ _ fuel 0 createEmptyGrid _
      (t0 + 1) g12 t2 (SearchInv_start (buildCounts_values_pos _) hkeys) hgo
    have hB : ∀ ch, lmGet (buildCounts (tiles.map (fun l => l.char.toLower))) ch
        ≤ List.count ch (tiles.map (fun l => l.char.toLower)) := by
      intro ch
      rw [lmGet_buildCounts]
    rcases reified_of_searchPost hiw hids hchars hpost hB
      with ⟨hval, hconn, ms, hmemtiles, hmsnd, hids_eq, hlen, hcounts,
        hcells, hce⟩
    have hlen12 : (gridToPlacements g12 tiles).length = 12 := by
      simpa using hsucc
    have hcnt2 : ∀ ch, ms.countP (fun l => l.char.toLower == ch)
        = tiles.countP (fun l => l.char.toLower == ch) := by
      intro ch
      rw [hcounts ch, lmGet_buildCounts, List.count, List.countP_map]
      rfl
    have hmatched := all_tiles_matched hids hmemtiles hmsnd hcnt2
    have hpnd : ((gridToPlacements g12 tiles).map
        TilePlacement.letterId).Nodup := by
      rw [hids_eq]
      exact hmsnd
    have hpsub : ∀ q ∈ gridToPlacements g12 tiles,
        q.letterId ∈ tiles.map Tile.id := by
      intro q hq
      have h2 : q.letterId ∈ (gridToPlacements g12 tiles).map
          TilePlacement.letterId := List.mem_map_of_mem _ hq
      rw [hids_eq] at h2
      rcases List.mem_map.mp h2 with ⟨m, hm, hmid⟩
      rw [← hmid]
      exact List.mem_map_of_mem _ (hmemtiles m hm)
    have hpcnd : ((gridToPlacements g12 tiles).map
        (fun p => ((p.row, p.col) : Cell))).Nodup := by
      rw [hcells]
      exact nodup_filledCells_fst g12
    rcases applyPlacements_spec isWord hids (gridToPlacements g12 tiles)
        hpnd hpsub hpcnd
      with ⟨hL, hG, hWon⟩
    have hne : gridToPlacements g12 tiles ≠ [] := by
      intro h
      rw [h] at hlen12
      cases hlen12
    show (applyPlacements isWord (emptyStateOf tiles)
        ((gridToPlacements g12 tiles).map
          (fun p => (p.letterId, p.row, p.col)))).isWon = true
    rw [hWon hne]
    have h9 : 9 ≤ (placedCellsOf
        (gridOfPre tiles (gridToPlacements g12 tiles))).length := by
      rw [placedCellsOf_eq, charGridOf_gridOfPre]
      have h1 := congrArg List.length (filledCells_fst_caseEq hce)
      rw [List.length_map, List.length_map] at h1
      rw [List.length_map, h1, ← hlen, hlen12]
      omega
    apply checkWin_of_valid_conn isWord
    · rw [charGridOf_gridOfPre]
      exact gridWF_placedGridOf _ _
    · rw [charGridOf_gridOfPre]
      exact hval
    · rw [charGridOf_gridOfPre]
      exact hconn
    · exact h9
    · intro l hl
      rcases List.mem_map.mp hl with ⟨t, ht, hle⟩
      have hid : t.id ∈ (gridToPlacements g12 tiles).map
          TilePlacement.letterId := by
        rw [hids_eq]
        exact hmatched t ht
      rcases List.mem_map.mp hid with ⟨q0, hq0, hq0e⟩
      have hsome : ((gridToPlacements g12 tiles).find?
          (fun q => q.letterId == t.id)).isSome = true := by
        rw [List.find?_isSome]
        exact ⟨q0, hq0, by simpa using hq0e⟩
      rcases Option.isSome_iff_exists.mp hsome with ⟨q1, hq1⟩
      refine ⟨((q1.row, q1.col) : Cell), ?_, ?_⟩
      · rw [← hle]
        show posOf (gridToPlacements g12 tiles) t
          = some ((q1.row, q1.col) : Cell)
        unfold posOf
        rw [hq1]
        rfl
      · rw [placedCellsOf_eq, charGridOf_gridOfPre,
          filledCells_fst_caseEq hce, ← hcells]
        exact List.mem_map_of_mem _ (List.mem_of_find?_eq_some hq1)

/-- C4 witness: the phase-1 win theorem applied to the concrete 12-tile
instance solved in phase 1, whose replayed state reports `isWon = true`. -/
theorem solvePuzzle_phase1_win_witness :
    (applyPlacements (mkIsWord demoDict) (emptyStateOf demoTiles)
        (demoRes.placements.map (fun p => (p.letterId, p.row, p.col)))).isWon
      = true := by
  have h := solvePuzzle_phase1_win (mkIsWord demoDict) (fun _ => 0)
    (mkGetWords demoDict) 8 demoTiles 0 demoRes 4
    (mkIsWord_caseins demoDict) (by decide) (by decide) (by decide) rfl rfl
  exact h

/-! ## C5: candidate ordering -/

theorem pairwise_insertIntoSorted (le : α → α → Bool)
    (htot : ∀ x y, le x y = true ∨ le y x = true)
    (htrans : ∀ x y z, le x y = true → le y z = true → le x z = true)
    (a : α) (l : List α) (h : l.Pairwise (fun x y => le x y = true)) :
    (insertIntoSorted le a l).Pairwise (fun x y => le x y = true) := by
  induction l with
  | nil => simp [insertIntoSorted]
  | cons b t ih =>
    rcases List.pairwise_cons.mp h with ⟨hb, ht⟩
    unfold insertIntoSorted
    by_cases hab : le a b
    · rw [if_pos hab]
      refine List.pairwise_cons.mpr ⟨?_, h⟩
      intro y hy
      rcases List.mem_cons.mp hy with rfl | hy'
      · exact hab
      · exact htrans a b y hab (hb y hy')
    · simp only [hab, Bool.false_eq_true, if_false]
      refine List.pairwise_cons.mpr ⟨?_, ih ht⟩
      intro y hy
      rcases (mem_insertIntoSorted le a y t).mp hy with rfl | hy'
      · rcases htot y b with hyb | hby
        · exact absurd hyb (by simpa using hab)
        · exact hby
      · exact hb y hy'

theorem pairwise_stableSort (le : α → α → Bool)
    (htot : ∀ x y, le x y = true ∨ le y x = true)
    (htrans : ∀ x y z, le x y = true → le y z = true → le x z = true)
    (l : List α) :
    (stableSort le l).Pairwise (fun x y => le x y = true) := by
  induction l with
  | nil => simp [stableSort]
  | cons a t ih => exact pairwise_insertIntoSorted le htot htrans a (stableSort le t) ih

theorem candLE_total (m : LetterMap) (x y : Word) :
    candLE m x y = true ∨ candLE m y x = true := by
  unfold candLE
  rcases Nat.lt_trichotomy (availCount m x) (availCount m y) with h | h | h
  · right
    have hne : ¬(availCount m x = availCount m y) := by omega
    simp [hne]
    omega
  · by_cases hl : (y : Word).length ≤ (x : Word).length
    · left
      simp [h, hl]
    · right
      simp [h]
      omega
  · left
    have hne : ¬(availCount m y = availCount m x) := by omega
    simp [hne]
    omega

theorem candLE_trans (m : LetterMap) (x y z : Word) :
    candLE m x y = true → candLE m y z = true → candLE m x z = true := by
  unfold candLE
  intro h1 h2
  by_cases e1 : availCount m y = availCount m x <;>
    by_cases e2 : availCount m z = availCount m y <;>
      by_cases e3 : availCount m z = availCount m x <;>
        simp only [e1, e2, e3, beq_iff_eq, if_pos, if_neg, beq_self_eq_true,
          if_true, decide_eq_true_eq] at h1 h2 ⊢ <;>
          simp_all <;> omega

/-- **C5 (counterexample).** A root search frame whose candidate list is
not ordered by rarity score descending: with remaining letters
q,i,s,e,a,t and the formable words "seat" and "qis", the code's
candidate list puts "seat" (rarity 6) before "qis" (rarity 13), because
`solve` sorts by the count of word letters present in the remaining
multiset (4 vs 3), not by the spec's rarity weights. -/
theorem candidateList_not_rarity_sorted :
    candidateList (buildCounts ['q', 'i', 's', 'e', 'a', 't']) false
        [['s', 'e', 'a', 't'], ['q', 'i', 's']]
      = [['s', 'e', 'a', 't'], ['q', 'i', 's']] ∧
    rarityScore ['s', 'e', 'a', 't'] < rarityScore ['q', 'i', 's'] := by
  constructor
  · rfl
  · decide

/-- **C5 (amended).** At every search frame, the candidate word list is
ordered by the number of word positions whose letter is present in the
remaining multiset, descending, with ties broken by word length
descending — not by the spec's rarity score. -/
theorem candidateList_sorted (m : LetterMap) (hasLetters : Bool)
    (allWords : List Word) :
    (candidateList m hasLetters allWords).Pairwise (fun a b =>
      availCount m b < availCount m a ∨
      (availCount m b = availCount m a ∧ b.length ≤ a.length)) := by
  have h := pairwise_stableSort (candLE m) (candLE_total m) (candLE_trans m)
    ((allWords.filter (candidateOK m hasLetters)))
  refine List.Pairwise.imp ?_ h
  intro a b hab
  unfold candLE at hab
  by_cases e : availCount m b = availCount m a
  · right
    simp [e] at hab
    exact ⟨e, hab⟩
  · left
    simp [e] at hab
    omega

/-- Closed consequence of `candidateList_sorted` at a concrete frame. -/
theorem candidateList_sorted_witness :
    (candidateList (buildCounts ['q', 'i', 's', 'e', 'a', 't']) false
        [['s', 'e', 'a', 't'], ['q', 'i', 's']]).Pairwise (fun a b =>
      availCount (buildCounts ['q', 'i', 's', 'e', 'a', 't']) b
          < availCount (buildCounts ['q', 'i', 's', 'e', 'a', 't']) a ∨
      (availCount (buildCounts ['q', 'i', 's', 'e', 'a', 't']) b
          = availCount (buildCounts ['q', 'i', 's', 'e', 'a', 't']) a ∧
        b.length ≤ a.length)) :=
  candidateList_sorted _ false _

/-! ## C10: `placeLetter` ignores bad requests -/

/-- **C10.** `placeLetter` returns its input state unchanged — no
placement, no word re-evaluation, no error — whenever the target cell is
already occupied or the letter id matches no tile of the state. -/
theorem placeLetter_noop (isWord : Word → Bool) (state : GameState)
    (letterId : Nat) (r c : Nat) (_hr : r < GRID_SIZE) (_hc : c < GRID_SIZE)
    (h : (cellAtL state.grid r c).isSome = true ∨
      ∀ l ∈ state.letters, l.id ≠ letterId) :
    placeLetter isWord state letterId r c = state := by
  rcases h with h | h
  · unfold placeLetter
    rw [if_pos h]
  · unfold placeLetter
    have hidx : state.letters.findIdx? (fun l => l.id == letterId) = none :=
      List.findIdx?_eq_none_iff.mpr (fun l hl => by
        simpa using h l hl)
    rw [hidx]
    split <;> rfl

/-- Concrete witness instance for `placeLetter_noop`: a state holding one
tile with id 0 ignores a placement request for the unknown id 5. -/
theorem placeLetter_noop_witness :
    placeLetter (fun _ => true)
      (emptyStateOf [{ id := 0, char := 'A', position := none }]) 5 0 0
      = emptyStateOf [{ id := 0, char := 'A', position := none }] :=
  placeLetter_noop (fun _ => true)
    (emptyStateOf [{ id := 0, char := 'A', position := none }]) 5 0 0
    (by decide) (by decide) (Or.inr (by decide))

end QLess
